import Mathlib

/-!
# Topology and routing latency engine of astra-sim/analytical

A shallow embedding of the topology variants under `src/topology` and the
properties of their address mappings and `send` routines.

Conventions of the embedding.

* The C++ `int` (`NpuId`, `PayloadSize`, `Direction`, the sizes) is `Int`.  On the
  inputs the theorems speak about every intermediate value lies between `-1` and
  `packages_count`, which the source itself holds in an `int`, so no wraparound
  can occur.  C++ `/` and `%` truncate toward zero: they are `Int.tdiv` and
  `Int.tmod`.
* `Latency` is a C++ `double`.  The routines are embedded over an arbitrary type
  `L` that carries `0` and `+` (and `*`, numerals for the closed-form variant); the
  additions are kept in the order the source performs them and a theorem names the
  arithmetic laws it relies on, if any.
* `assert` is a precondition check: a failed one ends the call with
  `Result.assertFailed`.
* A `while` loop is embedded with a bound on the number of body executions
  (`fuel`); running out of it is `Result.outOfFuel`, a result distinct from every
  answer of the source.
-/

namespace Analytical

/-! ## Shared types -/

/-- Per-dimension coordinates of a node (`Topology::NpuAddress`, a `std::vector<int>`). -/
abbrev NpuAddress := List Int

/-- Read of `address[i]`.  The source reads only coordinates the vector holds;
a read past the end, undefined in C++, yields `0` here. -/
def NpuAddress.at (address : NpuAddress) (i : Nat) : Int :=
  address.getD i 0

/-- The value a C++ `int` (32 bits, two's complement) holds after an arithmetic
operation whose exact result is `x`: `x` itself when it fits, `x` reduced modulo 2^32
into [-2^31, 2^31) when the operation overflows. -/
def wrapInt32 (x : Int) : Int :=
  (x + 2147483648) % 4294967296 - 2147483648

/-- Outcome of a call. -/
inductive Result (α : Type) where
  /-- The call returned the value. -/
  | ok : α → Result α
  /-- An `assert` of the source failed: precondition violation. -/
  | assertFailed : Result α
  /-- The source read a vector element that does not exist (undefined in C++). -/
  | undefinedRead : Result α
  /-- A loop did not finish within the given number of iterations. -/
  | outOfFuel : Result α
  deriving DecidableEq, Repr

/-- Per-dimension physical parameters (`TopologyConfiguration.hh`): a data holder
whose getters return the constructor arguments. -/
structure TopologyConfiguration (L : Type) where
  packages_count : Int
  shape_configs : List Int
  link_latency : L
  link_bandwidth : L
  nic_latency : L
  router_latency : L
  hbm_latency : L
  hbm_bandwidth : L
  hbm_scalar : L

/-- The latency primitives every graph-walking variant inherits from the
`Topology` base class.  Their bodies are not part of the sources read here, so
the routines take them as a parameter: `serialize payload_size dimension`,
`nicLatency dimension`, `routerLatency dimension`,
`route src dest payload_size` (one hop over a graph edge),
`hbmLatency payload_size dimension` and `criticalLatency link hbm`. -/
structure Primitives (L : Type) where
  serialize : Int → Nat → L
  nicLatency : Nat → L
  routerLatency : Nat → L
  route : Int → Int → Int → L
  hbmLatency : Int → Nat → L
  criticalLatency : L → L → L

/-! ## Ring (`Ring.cc`) -/

/-- Data members of `Ring`. -/
structure Ring where
  packages_count : Int
  half_packages_count : Int
  bidirectional : Bool
  deriving DecidableEq, Repr

/-- Member initialisation of `Ring::Ring`: `packages_count`, its half, and the
directionality read from the first shape entry of the first configuration.  (The
`connect` calls that follow fill the graph of the base class and leave these
members untouched.) -/
def Ring.new {L : Type} (configurations : List (TopologyConfiguration L)) : Result Ring :=
  match configurations with
  | [] => .undefinedRead
  | c0 :: _ =>
    match c0.shape_configs with
    | [] => .undefinedRead
    | shape0 :: _ =>
      .ok { packages_count := c0.packages_count
            half_packages_count := Int.tdiv c0.packages_count 2
            bidirectional := decide (shape0 ≥ 0) }

/-- Embedding of `Ring::computeDirection`. -/
def Ring.computeDirection (t : Ring) (src_id dest_id : Int) : Int :=
  if ¬ t.bidirectional then
    1
  else if src_id < dest_id then
    let distance := dest_id - src_id
    if distance ≤ t.half_packages_count then 1 else -1
  else
    let distance := src_id - dest_id
    if distance ≤ t.half_packages_count then -1 else 1

/-- Embedding of `Ring::takeStep`. -/
def Ring.takeStep (t : Ring) (current_id : Int) (direction : Int) : Int :=
  let next_id := current_id + direction
  if next_id ≥ t.packages_count then
    Int.tmod next_id t.packages_count
  else if next_id < 0 then
    t.packages_count + Int.tmod next_id t.packages_count
  else
    next_id

/-- The `while (current_id != dest_id)` loop of `Ring::send`, started at
`current_id` with `link_latency` accumulated so far; `fuel` bounds the number of
body executions. -/
def Ring.sendLoop {L : Type} [Add L] (t : Ring) (P : Primitives L) (direction : Int)
    (dest_id : Int) (payload_size : Int) : Nat → Int → L → Option L
  | 0, current_id, link_latency =>
    if current_id ≠ dest_id then none else some link_latency
  | fuel + 1, current_id, link_latency =>
    if current_id ≠ dest_id then
      let next_id := t.takeStep current_id direction
      Ring.sendLoop t P direction dest_id payload_size fuel next_id
        (link_latency + P.route current_id next_id payload_size)
    else
      some link_latency

/-- Embedding of `Ring::send`. -/
def Ring.send {L : Type} [Zero L] [Add L] (t : Ring) (P : Primitives L) (fuel : Nat)
    (src_id dest_id : Int) (payload_size : Int) : Result L :=
  if ¬ (0 ≤ src_id ∧ src_id < t.packages_count) then .assertFailed
  else if ¬ (0 ≤ dest_id ∧ dest_id < t.packages_count) then .assertFailed
  else if src_id = dest_id then .ok 0
  else
    let direction := t.computeDirection src_id dest_id
    let link_latency := P.serialize payload_size 0
    let link_latency := link_latency + P.nicLatency 0
    match Ring.sendLoop t P direction dest_id payload_size fuel src_id link_latency with
    | none => .outOfFuel
    | some link_latency =>
      let link_latency := link_latency + P.nicLatency 0
      let hbm_latency := P.hbmLatency payload_size 0
      .ok (P.criticalLatency link_latency hbm_latency)

/-- Embedding of `Ring::npuIdToAddress`. -/
def Ring.npuIdToAddress (_t : Ring) (id : Int) : NpuAddress := [id]

/-- Embedding of `Ring::npuAddressToId`. -/
def Ring.npuAddressToId (_t : Ring) (address : NpuAddress) : Int := address.at 0

/-! ## Ring_AllToAll (`Ring_AllToAll.cc`) -/

/-- Data members of `Ring_AllToAll`. -/
structure Ring_AllToAll where
  packages_count : Int
  ring_size : Int
  half_ring_size : Int
  bidirectional : Bool
  all_to_all_size : Int
  deriving DecidableEq, Repr

/-- Member initialisation of `Ring_AllToAll::Ring_AllToAll` (ring configuration
first, all-to-all configuration second). -/
def Ring_AllToAll.new {L : Type} (configurations : List (TopologyConfiguration L)) :
    Result Ring_AllToAll :=
  match configurations with
  | c0 :: c1 :: _ =>
    match c0.shape_configs with
    | [] => .undefinedRead
    | shape0 :: _ =>
      .ok { ring_size := c0.packages_count
            half_ring_size := Int.tdiv c0.packages_count 2
            bidirectional := decide (shape0 ≥ 0)
            all_to_all_size := c1.packages_count
            packages_count := c0.packages_count * c1.packages_count }
  | _ => .undefinedRead

/-- Embedding of `Ring_AllToAll::npuIdToAddress`. -/
def Ring_AllToAll.npuIdToAddress (t : Ring_AllToAll) (id : Int) : NpuAddress :=
  [Int.tmod id t.ring_size, Int.tdiv id t.ring_size]

/-- Embedding of `Ring_AllToAll::npuAddressToId`. -/
def Ring_AllToAll.npuAddressToId (t : Ring_AllToAll) (address : NpuAddress) : Int :=
  address.at 0 + (address.at 1 * t.ring_size)

/-- Embedding of `Ring_AllToAll::computeDirection`. -/
def Ring_AllToAll.computeDirection (t : Ring_AllToAll) (src_id dest_id : Int) : Int :=
  if ¬ t.bidirectional then
    1
  else if src_id < dest_id then
    let distance := dest_id - src_id
    if distance ≤ t.half_ring_size then 1 else -1
  else
    let distance := src_id - dest_id
    if distance ≤ t.half_ring_size then -1 else 1

/-- Embedding of `Ring_AllToAll::takeStep`. -/
def Ring_AllToAll.takeStep (t : Ring_AllToAll) (current_id : Int) (direction : Int) :
    Int :=
  let next_id := current_id + direction
  if next_id ≥ t.ring_size then
    Int.tmod next_id t.ring_size
  else if next_id < 0 then
    t.ring_size + Int.tmod next_id t.ring_size
  else
    next_id

/-- The `while (current_address[0] != dest_address[0])` loop of
`Ring_AllToAll::send`; the state is the address being moved and the latency
accumulated so far. -/
def Ring_AllToAll.sendLoop {L : Type} [Add L] (t : Ring_AllToAll) (P : Primitives L)
    (direction : Int) (dest_address : NpuAddress) (payload_size : Int) :
    Nat → NpuAddress → L → Option (NpuAddress × L)
  | 0, current_address, link_latency =>
    if current_address.at 0 ≠ dest_address.at 0 then none
    else some (current_address, link_latency)
  | fuel + 1, current_address, link_latency =>
    if current_address.at 0 ≠ dest_address.at 0 then
      let current_id := t.npuAddressToId current_address
      let current_address := current_address.set 0 (t.takeStep (current_address.at 0) direction)
      let next_id := t.npuAddressToId current_address
      Ring_AllToAll.sendLoop t P direction dest_address payload_size fuel current_address
        (link_latency + P.route current_id next_id payload_size)
    else
      some (current_address, link_latency)

/-- The first `if` block of `Ring_AllToAll::send`: the traversal of the ring of
dimension 0. -/
def Ring_AllToAll.ringStage {L : Type} [Add L] (t : Ring_AllToAll) (P : Primitives L)
    (fuel : Nat) (dest_address : NpuAddress) (payload_size : Int)
    (current_address : NpuAddress) (link_latency : L) : Option (NpuAddress × L) :=
  if current_address.at 0 ≠ dest_address.at 0 then
    let direction := t.computeDirection (current_address.at 0) (dest_address.at 0)
    let link_latency := link_latency + P.serialize payload_size 0
    let link_latency := link_latency + P.nicLatency 0
    match Ring_AllToAll.sendLoop t P direction dest_address payload_size fuel
        current_address link_latency with
    | none => none
    | some (current_address, link_latency) =>
      some (current_address, link_latency + P.nicLatency 0)
  else
    some (current_address, link_latency)

/-- The second `if` block of `Ring_AllToAll::send`: the single hop over the
all-to-all network of dimension 1. -/
def Ring_AllToAll.allToAllStage {L : Type} [Add L] (t : Ring_AllToAll) (P : Primitives L)
    (dest_id : Int) (dest_address : NpuAddress) (payload_size : Int)
    (current_address : NpuAddress) (link_latency : L) : L :=
  if current_address.at 1 ≠ dest_address.at 1 then
    let current_id := t.npuAddressToId current_address
    let link_latency := link_latency + P.serialize payload_size 1
    let link_latency := link_latency + P.nicLatency 1
    let link_latency := link_latency + P.route current_id dest_id payload_size
    link_latency + P.nicLatency 1
  else
    link_latency

/-- Embedding of `Ring_AllToAll::send`. -/
def Ring_AllToAll.send {L : Type} [Zero L] [Add L] (t : Ring_AllToAll) (P : Primitives L)
    (fuel : Nat) (src_id dest_id : Int) (payload_size : Int) : Result L :=
  if ¬ (0 ≤ src_id ∧ src_id < t.packages_count) then .assertFailed
  else if ¬ (0 ≤ dest_id ∧ dest_id < t.packages_count) then .assertFailed
  else if src_id = dest_id then .ok 0
  else
    let current_address := t.npuIdToAddress src_id
    let dest_address := t.npuIdToAddress dest_id
    let link_latency : L := 0
    match t.ringStage P fuel dest_address payload_size current_address link_latency with
    | none => .outOfFuel
    | some (current_address, link_latency) =>
      let link_latency :=
        t.allToAllStage P dest_id dest_address payload_size current_address link_latency
      let hbm_latency := P.hbmLatency payload_size 0
      .ok (P.criticalLatency link_latency hbm_latency)

/-! ## Ring_AllToAll_Switch (`Ring_AllToAll_Switch.cc`) -/

/-- Data members of `Ring_AllToAll_Switch`. -/
structure Ring_AllToAll_Switch where
  packages_count : Int
  node_packages_count : Int
  ring_size : Int
  half_ring_size : Int
  bidirectional : Bool
  all_to_all_size : Int
  switch_size : Int
  switch_id : Int
  deriving DecidableEq, Repr

/-- Member initialisation of `Ring_AllToAll_Switch::Ring_AllToAll_Switch` (ring
configuration first, all-to-all second, switch third). -/
def Ring_AllToAll_Switch.new {L : Type} (configurations : List (TopologyConfiguration L)) :
    Result Ring_AllToAll_Switch :=
  match configurations with
  | c0 :: c1 :: c2 :: _ =>
    match c0.shape_configs with
    | [] => .undefinedRead
    | shape0 :: _ =>
      .ok { ring_size := c0.packages_count
            half_ring_size := Int.tdiv c0.packages_count 2
            bidirectional := decide (shape0 ≥ 0)
            all_to_all_size := c1.packages_count
            node_packages_count := c0.packages_count * c1.packages_count
            switch_size := c2.packages_count
            packages_count := c0.packages_count * c1.packages_count * c2.packages_count
            switch_id := c0.packages_count * c1.packages_count * c2.packages_count }
  | _ => .undefinedRead

/-- Embedding of `Ring_AllToAll_Switch::npuIdToAddress`. -/
def Ring_AllToAll_Switch.npuIdToAddress (t : Ring_AllToAll_Switch) (id : Int) : NpuAddress :=
  let node_id := Int.tdiv id t.node_packages_count
  let ring_id := Int.tmod id t.ring_size
  let node_offset := Int.tmod id t.node_packages_count
  let all_to_all_id := Int.tdiv node_offset t.ring_size
  [ring_id, all_to_all_id, node_id]

/-- Embedding of `Ring_AllToAll_Switch::npuAddressToId`. -/
def Ring_AllToAll_Switch.npuAddressToId (t : Ring_AllToAll_Switch) (address : NpuAddress) :
    Int :=
  address.at 0 + (address.at 1 * t.ring_size) + (address.at 2 * t.node_packages_count)

/-- Embedding of `Ring_AllToAll_Switch::computeDirection`. -/
def Ring_AllToAll_Switch.computeDirection (t : Ring_AllToAll_Switch) (src_id dest_id : Int) :
    Int :=
  if ¬ t.bidirectional then
    1
  else if src_id < dest_id then
    let distance := dest_id - src_id
    if distance ≤ t.half_ring_size then 1 else -1
  else
    let distance := src_id - dest_id
    if distance ≤ t.half_ring_size then -1 else 1

/-- Embedding of `Ring_AllToAll_Switch::takeStep`. -/
def Ring_AllToAll_Switch.takeStep (t : Ring_AllToAll_Switch) (current_id : Int)
    (direction : Int) : Int :=
  let next_id := current_id + direction
  if next_id ≥ t.ring_size then
    Int.tmod next_id t.ring_size
  else if next_id < 0 then
    t.ring_size + Int.tmod next_id t.ring_size
  else
    next_id

/-- The `while (current_address[0] != dest_address[0])` loop of
`Ring_AllToAll_Switch::send`. -/
def Ring_AllToAll_Switch.sendLoop {L : Type} [Add L] (t : Ring_AllToAll_Switch)
    (P : Primitives L) (direction : Int) (dest_address : NpuAddress)
    (payload_size : Int) : Nat → NpuAddress → L → Option (NpuAddress × L)
  | 0, current_address, link_latency =>
    if current_address.at 0 ≠ dest_address.at 0 then none
    else some (current_address, link_latency)
  | fuel + 1, current_address, link_latency =>
    if current_address.at 0 ≠ dest_address.at 0 then
      let current_id := t.npuAddressToId current_address
      let current_address := current_address.set 0 (t.takeStep (current_address.at 0) direction)
      let next_id := t.npuAddressToId current_address
      Ring_AllToAll_Switch.sendLoop t P direction dest_address payload_size fuel current_address
        (link_latency + P.route current_id next_id payload_size)
    else
      some (current_address, link_latency)

/-- The ring block (dimension 0) of the scale-up branch of
`Ring_AllToAll_Switch::send`. -/
def Ring_AllToAll_Switch.ringStage {L : Type} [Add L] (t : Ring_AllToAll_Switch)
    (P : Primitives L) (fuel : Nat) (dest_address : NpuAddress) (payload_size : Int)
    (current_address : NpuAddress) (link_latency : L) : Option (NpuAddress × L) :=
  if current_address.at 0 ≠ dest_address.at 0 then
    let direction := t.computeDirection (current_address.at 0) (dest_address.at 0)
    let link_latency := link_latency + P.serialize payload_size 0
    let link_latency := link_latency + P.nicLatency 0
    match Ring_AllToAll_Switch.sendLoop t P direction dest_address payload_size fuel
        current_address link_latency with
    | none => none
    | some (current_address, link_latency) =>
      some (current_address, link_latency + P.nicLatency 0)
  else
    some (current_address, link_latency)

/-- The all-to-all block (dimension 1) of the scale-up branch of
`Ring_AllToAll_Switch::send`. -/
def Ring_AllToAll_Switch.allToAllStage {L : Type} [Add L] (t : Ring_AllToAll_Switch)
    (P : Primitives L) (dest_id : Int) (dest_address : NpuAddress)
    (payload_size : Int) (current_address : NpuAddress) (link_latency : L) : L :=
  if current_address.at 1 ≠ dest_address.at 1 then
    let current_id := t.npuAddressToId current_address
    let link_latency := link_latency + P.serialize payload_size 1
    let link_latency := link_latency + P.nicLatency 1
    let link_latency := link_latency + P.route current_id dest_id payload_size
    link_latency + P.nicLatency 1
  else
    link_latency

/-- The scale-out branch of `Ring_AllToAll_Switch::send` (node coordinate
differs): through the switch on dimension 2. -/
def Ring_AllToAll_Switch.switchStage {L : Type} [Add L] (t : Ring_AllToAll_Switch)
    (P : Primitives L) (src_id dest_id : Int) (payload_size : Int)
    (link_latency : L) : L :=
  let link_latency := link_latency + P.serialize payload_size 2
  let link_latency := link_latency + P.nicLatency 2
  let link_latency := link_latency + P.route src_id t.switch_id payload_size
  let link_latency := link_latency + P.routerLatency 2
  let link_latency := link_latency + P.route t.switch_id dest_id payload_size
  link_latency + P.nicLatency 2

/-- The value of `link_latency` when `Ring_AllToAll_Switch::send` reaches its
`hbmLatency` line, for ids that passed the bound checks and the self-send
guard; `none` when the ring loop did not finish within `fuel` iterations. -/
def Ring_AllToAll_Switch.linkLatency {L : Type} [Zero L] [Add L] (t : Ring_AllToAll_Switch)
    (P : Primitives L) (fuel : Nat) (src_id dest_id : Int) (payload_size : Int) :
    Option L :=
  let current_address := t.npuIdToAddress src_id
  let dest_address := t.npuIdToAddress dest_id
  let link_latency : L := 0
  if current_address.at 2 ≠ dest_address.at 2 then
    some (t.switchStage P src_id dest_id payload_size link_latency)
  else
    match t.ringStage P fuel dest_address payload_size current_address link_latency with
    | none => none
    | some (current_address, link_latency) =>
      some (t.allToAllStage P dest_id dest_address payload_size current_address link_latency)

/-- Embedding of `Ring_AllToAll_Switch::send`. -/
def Ring_AllToAll_Switch.send {L : Type} [Zero L] [Add L] (t : Ring_AllToAll_Switch)
    (P : Primitives L) (fuel : Nat) (src_id dest_id : Int) (payload_size : Int) :
    Result L :=
  if ¬ (0 ≤ src_id ∧ src_id < t.packages_count) then .assertFailed
  else if ¬ (0 ≤ dest_id ∧ dest_id < t.packages_count) then .assertFailed
  else if src_id = dest_id then .ok 0
  else
    match t.linkLatency P fuel src_id dest_id payload_size with
    | none => .outOfFuel
    | some link_latency =>
      let hbm_latency := P.hbmLatency payload_size 0
      .ok (P.criticalLatency link_latency hbm_latency)

/-! ## Switch (`Switch.cc`) -/

/-- Data members of `Switch`. -/
structure Switch where
  packages_count : Int
  switch_id : Int
  deriving DecidableEq, Repr

/-- Member initialisation of `Switch::Switch`. -/
def Switch.new {L : Type} (configurations : List (TopologyConfiguration L)) : Result Switch :=
  match configurations with
  | [] => .undefinedRead
  | c0 :: _ => .ok { packages_count := c0.packages_count, switch_id := c0.packages_count }

/-- Embedding of `Switch::send`. -/
def Switch.send {L : Type} [Zero L] [Add L] (t : Switch) (P : Primitives L)
    (src_id dest_id : Int) (payload_size : Int) : Result L :=
  if ¬ (0 ≤ src_id ∧ src_id < t.packages_count) then .assertFailed
  else if ¬ (0 ≤ dest_id ∧ dest_id < t.packages_count) then .assertFailed
  else if src_id = dest_id then .ok 0
  else
    let link_latency := P.serialize payload_size 0
    let link_latency := link_latency + P.nicLatency 0
    let link_latency := link_latency + P.route src_id t.switch_id payload_size
    let link_latency := link_latency + P.routerLatency 0
    let link_latency := link_latency + P.route t.switch_id dest_id payload_size
    let link_latency := link_latency + P.nicLatency 0
    let hbm_latency := P.hbmLatency payload_size 0
    .ok (P.criticalLatency link_latency hbm_latency)

/-- Embedding of `Switch::npuIdToAddress`. -/
def Switch.npuIdToAddress (_t : Switch) (id : Int) : NpuAddress := [id]

/-- Embedding of `Switch::npuAddressToId`. -/
def Switch.npuAddressToId (_t : Switch) (address : NpuAddress) : Int := address.at 0

/-! ## AllToAll (`AllToAll.cc`) -/

/-- Data members of `AllToAll`. -/
structure AllToAll where
  packages_count : Int
  deriving DecidableEq, Repr

/-- Member initialisation of `AllToAll::AllToAll`. -/
def AllToAll.new {L : Type} (configurations : List (TopologyConfiguration L)) :
    Result AllToAll :=
  match configurations with
  | [] => .undefinedRead
  | c0 :: _ => .ok { packages_count := c0.packages_count }

/-- Embedding of `AllToAll::send`. -/
def AllToAll.send {L : Type} [Zero L] [Add L] (t : AllToAll) (P : Primitives L)
    (src_id dest_id : Int) (payload_size : Int) : Result L :=
  if ¬ (0 ≤ src_id ∧ src_id < t.packages_count) then .assertFailed
  else if ¬ (0 ≤ dest_id ∧ dest_id < t.packages_count) then .assertFailed
  else if src_id = dest_id then .ok 0
  else
    let link_latency := P.serialize payload_size 0
    let link_latency := link_latency + P.nicLatency 0
    let link_latency := link_latency + P.route src_id dest_id payload_size
    let link_latency := link_latency + P.nicLatency 0
    let hbm_latency := P.hbmLatency payload_size 0
    .ok (P.criticalLatency link_latency hbm_latency)

/-- Embedding of `AllToAll::npuIdToAddress`. -/
def AllToAll.npuIdToAddress (_t : AllToAll) (id : Int) : NpuAddress := [id]

/-- Embedding of `AllToAll::npuAddressToId`. -/
def AllToAll.npuAddressToId (_t : AllToAll) (address : NpuAddress) : Int := address.at 0

/-! ## Torus2D (`Torus2D.cc`) -/

/-- Data members of `Torus2D`. -/
structure Torus2D where
  width : Int
  half_width : Int
  height : Int
  half_height : Int
  packages_count : Int
  deriving DecidableEq, Repr

/-- Member initialisation of `Torus2D::Torus2D`, with its assertion that
`width * height` equals `packages_count`; the members are `int`s, so the product
compared is the 32-bit one (`wrapInt32`). -/
def Torus2D.new {L : Type} (configurations : List (TopologyConfiguration L)) : Result Torus2D :=
  match configurations with
  | [] => .undefinedRead
  | c0 :: _ =>
    match c0.shape_configs with
    | width :: height :: _ =>
      if ¬ (wrapInt32 (width * height) = c0.packages_count) then .assertFailed
      else
        .ok { packages_count := c0.packages_count
              width := width
              half_width := Int.tdiv width 2
              height := height
              half_height := Int.tdiv height 2 }
    | _ => .undefinedRead

/-- Embedding of `Torus2D::computeDirection`. -/
def Torus2D.computeDirection (_t : Torus2D) (src_index dest_index : Int)
    (half_ring_size : Int) : Int :=
  if src_index < dest_index then
    let distance := dest_index - src_index
    if distance ≤ half_ring_size then 1 else -1
  else
    let distance := src_index - dest_index
    if distance ≤ half_ring_size then -1 else 1

/-- Embedding of `Torus2D::idToRowCol`: the pair `(row, col)`. -/
def Torus2D.idToRowCol (t : Torus2D) (id : Int) : Int × Int :=
  let row := Int.tdiv id t.width
  let col := Int.tmod id t.width
  (row, col)

/-- Embedding of `Torus2D::rowColToId`. -/
def Torus2D.rowColToId (t : Torus2D) (row column : Int) : Int :=
  (row * t.width) + column

/-- Embedding of `Torus2D::takeStep`. -/
def Torus2D.takeStep (_t : Torus2D) (current_index : Int) (direction : Int)
    (ring_size : Int) : Int :=
  let next_index := current_index + direction
  if next_index ≥ ring_size then
    Int.tmod next_index ring_size
  else if next_index < 0 then
    ring_size + Int.tmod next_index ring_size
  else
    next_index

/-- The `while (current_col != dest_col)` loop of `Torus2D::send` (movement
within row `src_row`). -/
def Torus2D.colLoop {L : Type} [Add L] (t : Torus2D) (P : Primitives L) (direction : Int)
    (src_row dest_col : Int) (payload_size : Int) : Nat → Int → L → Option L
  | 0, current_col, link_latency =>
    if current_col ≠ dest_col then none else some link_latency
  | fuel + 1, current_col, link_latency =>
    if current_col ≠ dest_col then
      let next_col := t.takeStep current_col direction t.width
      let current_id := t.rowColToId src_row current_col
      let next_id := t.rowColToId src_row next_col
      Torus2D.colLoop t P direction src_row dest_col payload_size fuel next_col
        (link_latency + P.route current_id next_id payload_size)
    else
      some link_latency

/-- The `while (current_row != dest_row)` loop of `Torus2D::send` (movement
within column `dest_col`). -/
def Torus2D.rowLoop {L : Type} [Add L] (t : Torus2D) (P : Primitives L) (direction : Int)
    (dest_row dest_col : Int) (payload_size : Int) : Nat → Int → L → Option L
  | 0, current_row, link_latency =>
    if current_row ≠ dest_row then none else some link_latency
  | fuel + 1, current_row, link_latency =>
    if current_row ≠ dest_row then
      let next_row := t.takeStep current_row direction t.height
      let current_id := t.rowColToId current_row dest_col
      let next_id := t.rowColToId next_row dest_col
      Torus2D.rowLoop t P direction dest_row dest_col payload_size fuel next_row
        (link_latency + P.route current_id next_id payload_size)
    else
      some link_latency

/-- The `if (src_col != dest_col)` block of `Torus2D::send`. -/
def Torus2D.colStage {L : Type} [Add L] (t : Torus2D) (P : Primitives L) (fuel : Nat)
    (src_row src_col dest_col : Int) (payload_size : Int) (link_latency : L) :
    Option L :=
  if src_col ≠ dest_col then
    let direction := t.computeDirection src_col dest_col t.half_width
    Torus2D.colLoop t P direction src_row dest_col payload_size fuel src_col link_latency
  else
    some link_latency

/-- The `if (src_row != dest_row)` block of `Torus2D::send`. -/
def Torus2D.rowStage {L : Type} [Add L] (t : Torus2D) (P : Primitives L) (fuel : Nat)
    (src_row dest_row dest_col : Int) (payload_size : Int) (link_latency : L) :
    Option L :=
  if src_row ≠ dest_row then
    let direction := t.computeDirection src_row dest_row t.half_height
    Torus2D.rowLoop t P direction dest_row dest_col payload_size fuel src_row link_latency
  else
    some link_latency

/-- Embedding of `Torus2D::send`; each of the two loops may run its body `fuel`
times. -/
def Torus2D.send {L : Type} [Zero L] [Add L] (t : Torus2D) (P : Primitives L) (fuel : Nat)
    (src_id dest_id : Int) (payload_size : Int) : Result L :=
  if ¬ (0 ≤ src_id ∧ src_id < t.packages_count) then .assertFailed
  else if ¬ (0 ≤ dest_id ∧ dest_id < t.packages_count) then .assertFailed
  else if src_id = dest_id then .ok 0
  else
    let (src_row, src_col) := t.idToRowCol src_id
    let (dest_row, dest_col) := t.idToRowCol dest_id
    let link_latency := P.serialize payload_size 0
    let link_latency := link_latency + P.nicLatency 0
    match t.colStage P fuel src_row src_col dest_col payload_size link_latency with
    | none => .outOfFuel
    | some link_latency =>
      match t.rowStage P fuel src_row dest_row dest_col payload_size link_latency with
      | none => .outOfFuel
      | some link_latency =>
        let link_latency := link_latency + P.nicLatency 0
        let hbm_latency := P.hbmLatency payload_size 0
        .ok (P.criticalLatency link_latency hbm_latency)

/-- Embedding of `Torus2D::npuIdToAddress`. -/
def Torus2D.npuIdToAddress (_t : Torus2D) (id : Int) : NpuAddress := [id]

/-- Embedding of `Torus2D::npuAddressToId`. -/
def Torus2D.npuAddressToId (_t : Torus2D) (address : NpuAddress) : Int := address.at 0

/-! ## FastSwitch (`fast/FastSwitch.cc`) -/

/-- The latency primitives `FastSwitch` inherits from `FastTopology`, whose
bodies are not part of the sources read here; taken as a parameter:
`linkLatency dimension hops_count`, `serializationLatency dimension payload_size`,
`nicLatency dimension`, `routerLatency dimension`,
`hbmLatency dimension payload_size` and `criticalLatency communication hbm`. -/
structure FastPrimitives (L : Type) where
  linkLatency : Nat → Int → L
  serializationLatency : Nat → Int → L
  nicLatency : Nat → L
  routerLatency : Nat → L
  hbmLatency : Nat → Int → L
  criticalLatency : L → L → L

/-- Modelled from the spec: the state of `FastTopology` that the bound check
reads (`FastTopology` is not among the sources): the number of packages of the
single dimension. -/
structure FastSwitch where
  packages_count : Int
  deriving DecidableEq, Repr

/-- Modelled from the spec: `FastTopology::checkNpuIdBound`, which is not among the
sources.  The spec says that the bound check on ids still applies in the
closed-form variant and that `send` fails when an id is outside
`[0, packages_count)`: `true` exactly when the id passes. -/
def FastSwitch.checkNpuIdBound (t : FastSwitch) (id : Int) : Bool :=
  decide (0 ≤ id ∧ id < t.packages_count)

/-- Embedding of `FastSwitch::send`. -/
def FastSwitch.send {L : Type} [Add L] [Mul L] [OfNat L 2] (t : FastSwitch)
    (P : FastPrimitives L) (src dest : Int) (payload_size : Int) : Result L :=
  if ¬ t.checkNpuIdBound src then .assertFailed
  else if ¬ t.checkNpuIdBound dest then .assertFailed
  else
    let hops_count : Int := 2
    let communication_latency := P.linkLatency 0 hops_count
    let communication_latency := communication_latency + P.serializationLatency 0 payload_size
    let communication_latency := communication_latency + 2 * P.nicLatency 0
    let communication_latency := communication_latency + P.routerLatency 0
    let hbm_latency := P.hbmLatency 0 payload_size
    .ok (P.criticalLatency communication_latency hbm_latency)

/-! ## Call log

A cost model that computes no number but writes down, in order, the primitives a
routine invoked: evaluating a `send` over it yields the sequence of
`serialize`, `nicLatency`, `route`, `routerLatency` and `hbmLatency` calls behind
the returned latency. -/

/-- One invocation of a latency primitive. -/
inductive Call where
  | serialize (payload_size : Int) (dimension : Nat)
  | nicLatency (dimension : Nat)
  | routerLatency (dimension : Nat)
  | route (src dest : Int) (payload_size : Int)
  | hbmLatency (payload_size : Int) (dimension : Nat)
  deriving DecidableEq, Repr

/-- A latency stood for by the calls that produced it, oldest first. -/
structure CallLog where
  calls : List Call
  deriving DecidableEq, Repr

instance : Zero CallLog := ⟨⟨[]⟩⟩

instance : Add CallLog := ⟨fun a b => ⟨a.calls ++ b.calls⟩⟩

/-- The logging cost model: each primitive is the one-entry log of its own call,
`+` appends, and `criticalLatency` keeps the link calls followed by the memory
call. -/
def callLog : Primitives CallLog where
  serialize := fun payload_size dimension => ⟨[.serialize payload_size dimension]⟩
  nicLatency := fun dimension => ⟨[.nicLatency dimension]⟩
  routerLatency := fun dimension => ⟨[.routerLatency dimension]⟩
  route := fun src dest payload_size => ⟨[.route src dest payload_size]⟩
  hbmLatency := fun payload_size dimension => ⟨[.hbmLatency payload_size dimension]⟩
  criticalLatency := fun link_latency hbm_latency => link_latency + hbm_latency

/-- The hop of a `route` call, nothing for the other primitives. -/
def Call.hop? : Call → Option (Int × Int)
  | .route src dest _ => some (src, dest)
  | _ => none

/-- The hops `(u, v)` of the `route` calls of a log, in call order. -/
def CallLog.hops (log : CallLog) : List (Int × Int) :=
  log.calls.filterMap Call.hop?

/-! ## Reference paths -/

/-- The `k` hops that start at position `c` of a ring of `N` positions and advance
by `d` (`+1` or `-1`) modulo `N`: `(c, c+d), (c+d, c+2d), ...`. -/
def arcPath (N d : Int) : Nat → Int → List (Int × Int)
  | 0, _ => []
  | k + 1, c => (c, (c + d) % N) :: arcPath N d k ((c + d) % N)

/-- The latency obtained from `link_latency` by adding the `route` cost of each
hop in turn, the way the walking loops accumulate it. -/
def addRoutes {L : Type} [Add L] (P : Primitives L) (payload_size : Int) (link_latency : L)
    (hops : List (Int × Int)) : L :=
  hops.foldl (fun acc hop => acc + P.route hop.1 hop.2 payload_size) link_latency

/-! ## Sample inputs -/

/-- A configuration of `packages_count` packages with the given shape entries;
link latency 500 ns and bandwidth 25 B/ns as in `main.cc`. -/
def sampleConfiguration (packages_count : Int) (shape_configs : List Int) :
    TopologyConfiguration Int where
  packages_count := packages_count
  shape_configs := shape_configs
  link_latency := 500
  link_bandwidth := 25
  nic_latency := 10
  router_latency := 5
  hbm_latency := 100
  hbm_bandwidth := 50
  hbm_scalar := 1

/-- Modelled from the spec: the closed-form primitives of `FastTopology` (not among
the sources) for `sampleConfiguration`, in whole nanoseconds: link latency per hop,
payload over link bandwidth, the fixed NIC and router delays, HBM latency plus
payload over HBM bandwidth times the scalar, and `max` as critical latency. -/
def sampleFastPrimitives : FastPrimitives Int where
  linkLatency := fun _ hops_count => hops_count * 500
  serializationLatency := fun _ payload_size => payload_size / 25
  nicLatency := fun _ => 10
  routerLatency := fun _ => 5
  hbmLatency := fun _ payload_size => 100 + payload_size / 50 * 1
  criticalLatency := fun communication_latency hbm_latency =>
    max communication_latency hbm_latency

/-- Modelled from the spec: the latency primitives of the `Topology` base class (not
among the sources) for `sampleConfiguration`, in whole nanoseconds: payload over
link bandwidth, the fixed NIC and router delays, link latency plus payload over
bandwidth per hop, HBM latency plus payload over HBM bandwidth times the scalar,
and `max` as critical latency. -/
def samplePrimitives : Primitives Int where
  serialize := fun payload_size _ => payload_size / 25
  nicLatency := fun _ => 10
  routerLatency := fun _ => 5
  route := fun _ _ payload_size => 500 + payload_size / 25
  hbmLatency := fun payload_size _ => 100 + payload_size / 50 * 1
  criticalLatency := fun link_latency hbm_latency => max link_latency hbm_latency

/-- Configurations of a bidirectional ring of 3, an all-to-all group of 2 and a
switch of 2 nodes: 12 packages. -/
def sampleNodeConfigurations : List (TopologyConfiguration Int) :=
  [sampleConfiguration 3 [1], sampleConfiguration 2 [], sampleConfiguration 2 []]

/-- The members `Ring_AllToAll_Switch::Ring_AllToAll_Switch` sets for
`sampleNodeConfigurations`. -/
def sampleNodes : Ring_AllToAll_Switch where
  packages_count := 12
  node_packages_count := 6
  ring_size := 3
  half_ring_size := 1
  bidirectional := true
  all_to_all_size := 2
  switch_size := 2
  switch_id := 12

/-! ## Properties of call logs -/

/-- Modelled from the spec: the effect of `Topology::connect(src, dest, dimension)`,
whose body is not among the sources: it adds the directed edge from `src` to
`dest`, tagged with `dimension`, to the connection graph.  A graph is the list of
the `connect` calls made, in call order. -/
structure Connection where
  src : Int
  dest : Int
  dimension : Nat
  deriving DecidableEq, Repr

/-- The values `i` takes in `for (i = lo; i < hi; i++)`, in order. -/
def forUp (lo hi : Int) : List Int :=
  (List.range (hi - lo).toNat).map (fun k : Nat => lo + k)

/-- The values `i` takes in `for (i = hi; i > lo; i--)`, in order. -/
def forDown (hi lo : Int) : List Int :=
  (List.range (hi - lo).toNat).map (fun k : Nat => hi - k)

/-- The values `i` takes in `for (i = start; i < bound; i += step)`, in order;
`none` when the loop has not finished after `fuel` iterations (with `step ≤ 0` it
never does). -/
def forStride (bound step : Int) : Nat → Int → Option (List Int)
  | 0, i => if i < bound then none else some []
  | fuel + 1, i =>
    if i < bound then (forStride bound step fuel (i + step)).map (fun rest => i :: rest)
    else some []

/-- The `connect` calls of `Ring::Ring`, in call order. -/
def Ring.connections (t : Ring) : List Connection :=
  (forUp 0 (t.packages_count - 1)).map (fun n1 => ⟨n1, n1 + 1, 0⟩)
    ++ [⟨t.packages_count - 1, 0, 0⟩]
    ++ (if t.bidirectional then
          (forDown (t.packages_count - 1) 0).map (fun n1 => ⟨n1, n1 - 1, 0⟩)
            ++ [⟨0, t.packages_count - 1, 0⟩]
        else [])

/-- The `connect` calls of `Switch::Switch`, in call order. -/
def Switch.connections (t : Switch) : List Connection :=
  (forUp 0 t.packages_count).flatMap
    (fun npu_id => [⟨npu_id, t.switch_id, 0⟩, ⟨t.switch_id, npu_id, 0⟩])

/-- The `connect` calls of `AllToAll::AllToAll`, in call order. -/
def AllToAll.connections (t : AllToAll) : List Connection :=
  (forUp 0 (t.packages_count - 1)).flatMap (fun n1 =>
    (forUp (n1 + 1) t.packages_count).flatMap (fun n2 =>
      [⟨n1, n2, 0⟩, ⟨n2, n1, 0⟩]))

/-- The `connect` calls of `Torus2D::Torus2D`, in call order: the rows, then the
columns. -/
def Torus2D.connections (t : Torus2D) : List Connection :=
  (forUp 0 t.height).flatMap (fun row =>
      (forUp 0 (t.width - 1)).flatMap (fun col =>
          let n1 := (row * t.width) + col
          let n2 := n1 + 1
          [⟨n1, n2, 0⟩, ⟨n2, n1, 0⟩])
        ++ (let n1 := (row * t.width) + (t.width - 1)
            let n2 := row * t.width
            [⟨n1, n2, 0⟩, ⟨n2, n1, 0⟩]))
    ++ (forUp 0 t.width).flatMap (fun col =>
      (forUp 0 (t.height - 1)).flatMap (fun row =>
          let n1 := (row * t.width) + col
          let n2 := n1 + t.width
          [⟨n1, n2, 0⟩, ⟨n2, n1, 0⟩])
        ++ (let n1 := (t.height - 1) * t.width + col
            let n2 := col
            [⟨n1, n2, 0⟩, ⟨n2, n1, 0⟩]))

/-- The `connect` calls of one pass of the `connect rings` loops of the
hierarchical constructors, forward edges: for each ring start, the edges to the
next position and the wraparound edge. -/
def forwardRings (ring_size : Int) (starts : List Int) : List Connection :=
  starts.flatMap (fun start_offset =>
    (forUp 0 (ring_size - 1)).map (fun offset =>
        let src := start_offset + offset
        let dest := src + 1
        (⟨src, dest, 0⟩ : Connection))
      ++ (let src := start_offset + (ring_size - 1)
          let dest := start_offset
          [⟨src, dest, 0⟩]))

/-- The `connect` calls of the second pass (`if (bidirectional)`), backward edges. -/
def backwardRings (ring_size : Int) (starts : List Int) : List Connection :=
  starts.flatMap (fun start_offset =>
    (forDown (ring_size - 1) 0).map (fun offset =>
        let src := start_offset + offset
        let dest := src - 1
        (⟨src, dest, 0⟩ : Connection))
      ++ (let src := start_offset
          let dest := start_offset + (ring_size - 1)
          [⟨src, dest, 0⟩]))

/-- The `connect` calls of `Ring_AllToAll::Ring_AllToAll`, in call order; `none`
when a `start_offset` loop has not finished after `fuel` iterations. -/
def Ring_AllToAll.connections (t : Ring_AllToAll) (fuel : Nat) : Option (List Connection) :=
  match forStride t.packages_count t.ring_size fuel 0 with
  | none => none
  | some starts =>
    let rings := forwardRings t.ring_size starts
    let reverse :=
      if t.bidirectional then
        (forStride t.packages_count t.ring_size fuel 0).map (backwardRings t.ring_size)
      else some []
    match reverse with
    | none => none
    | some reverse =>
      let all_to_all :=
        (forUp 0 t.ring_size).flatMap (fun offset =>
          (forUp 0 t.all_to_all_size).flatMap (fun i =>
            (forUp 0 t.all_to_all_size).map (fun j =>
              let src := (i * t.ring_size) + offset
              let dest := (j * t.ring_size) + offset
              (⟨src, dest, 1⟩ : Connection))))
      some (rings ++ reverse ++ all_to_all)

/-- The `connect` calls of `Ring_AllToAll_Switch::Ring_AllToAll_Switch`, in call
order; `none` when a `start_offset` loop has not finished after `fuel` iterations. -/
def Ring_AllToAll_Switch.connections (t : Ring_AllToAll_Switch) (fuel : Nat) :
    Option (List Connection) :=
  match forStride t.packages_count t.ring_size fuel 0 with
  | none => none
  | some starts =>
    let rings := forwardRings t.ring_size starts
    let reverse :=
      if t.bidirectional then
        (forStride t.packages_count t.ring_size fuel 0).map (backwardRings t.ring_size)
      else some []
    match reverse with
    | none => none
    | some reverse =>
      let all_to_all :=
        (forUp 0 t.switch_size).flatMap (fun switch_offset =>
          (forUp 0 t.ring_size).flatMap (fun ring_offset =>
            (forUp 0 t.all_to_all_size).flatMap (fun i =>
              (forUp 0 t.all_to_all_size).map (fun j =>
                let src := (i * t.ring_size) + ring_offset
                  + (switch_offset * t.node_packages_count)
                let dest := (j * t.ring_size) + ring_offset
                  + (switch_offset * t.node_packages_count)
                (⟨src, dest, 1⟩ : Connection)))))
      let switch :=
        (forUp 0 t.packages_count).flatMap (fun i =>
          [(⟨i, t.switch_id, 2⟩ : Connection), ⟨t.switch_id, i, 2⟩])
      some (rings ++ reverse ++ all_to_all ++ switch)

/-- The hops lead from `first` to `last` without a gap: the first hop starts at
`first`, every hop starts where the one before it ended, and the last hop ends at
`last` (no hop at all: `first = last`). -/
def IsPath : Int → List (Int × Int) → Int → Prop
  | first, [], last => first = last
  | first, hop :: hops, last => hop.1 = first ∧ IsPath hop.2 hops last

instance decidableIsPath : ∀ (first : Int) (hops : List (Int × Int)) (last : Int),
    Decidable (IsPath first hops last)
  | first, [], last => inferInstanceAs (Decidable (first = last))
  | first, hop :: hops, last =>
    have := decidableIsPath hop.2 hops last
    inferInstanceAs (Decidable (hop.1 = first ∧ IsPath hop.2 hops last))

/-! ## Reference hop lists -/

/-- The hops of a traversal of a ring of `N` positions from `src` to `dest` in
direction `d`: as many steps of `arcPath` as the arc from `src` to `dest` is long. -/
def arcHops (N d src dest : Int) : List (Int × Int) :=
  arcPath N d ((d * (dest - src)) % N).toNat src

/-- The hops of the column stage of `Torus2D::send`: within row `src_row`, from
column `src_col` to column `dest_col`. -/
def Torus2D.colHops (t : Torus2D) (src_row src_col dest_col : Int) : List (Int × Int) :=
  (arcHops t.width (t.computeDirection src_col dest_col t.half_width) src_col dest_col).map
    (fun hop => (t.rowColToId src_row hop.1, t.rowColToId src_row hop.2))

/-- The hops of the row stage of `Torus2D::send`: within column `dest_col`, from row
`src_row` to row `dest_row`. -/
def Torus2D.rowHops (t : Torus2D) (src_row dest_row dest_col : Int) : List (Int × Int) :=
  (arcHops t.height (t.computeDirection src_row dest_row t.half_height) src_row dest_row).map
    (fun hop => (t.rowColToId hop.1 dest_col, t.rowColToId hop.2 dest_col))

/-- The call log of a stage that pays `serialize` and one NIC crossing on
`dimension`, walks `hops`, and pays the second NIC crossing. -/
def stageCalls (payload_size : Int) (dimension : Nat) (hops : List (Int × Int)) : List Call :=
  [.serialize payload_size dimension, .nicLatency dimension]
    ++ hops.map (fun hop => Call.route hop.1 hop.2 payload_size)
    ++ [.nicLatency dimension]

/-- The hops of the ring stage of `Ring_AllToAll::send`: within group `g`, from
ring position `r1` to ring position `r2`. -/
def Ring_AllToAll.ringHops (t : Ring_AllToAll) (r1 r2 g : Int) : List (Int × Int) :=
  (arcHops t.ring_size (t.computeDirection r1 r2) r1 r2).map
    (fun hop => (t.npuAddressToId [hop.1, g], t.npuAddressToId [hop.2, g]))

/-- The hops of the ring stage of `Ring_AllToAll_Switch::send`: within group `g` of
node `n`, from ring position `r1` to ring position `r2`. -/
def Ring_AllToAll_Switch.ringHops (t : Ring_AllToAll_Switch) (r1 r2 g n : Int) :
    List (Int × Int) :=
  (arcHops t.ring_size (t.computeDirection r1 r2) r1 r2).map
    (fun hop => (t.npuAddressToId [hop.1, g, n], t.npuAddressToId [hop.2, g, n]))

/-- The hops of a call sequence as edges, each tagged with the dimension of the
latest `serialize` call before it (`dimension` while there has been none): the
dimension whose serialization and NIC costs the stage of the hop charges. -/
def taggedHops : Nat → List Call → List Connection
  | _, [] => []
  | _, .serialize _ dimension :: rest => taggedHops dimension rest
  | dimension, .route src dest _ :: rest => ⟨src, dest, dimension⟩ :: taggedHops dimension rest
  | dimension, .nicLatency _ :: rest => taggedHops dimension rest
  | dimension, .routerLatency _ :: rest => taggedHops dimension rest
  | dimension, .hbmLatency _ _ :: rest => taggedHops dimension rest

/-- The edge of a hop on the given dimension. -/
def tagHop (dimension : Nat) (hop : Int × Int) : Connection :=
  ⟨hop.1, hop.2, dimension⟩

/-! ## Comparing call logs -/

/-- Modelled from the spec: an event of the EventQueue, a scheduled simulated time
together with the identity of the callback that completes at that time. -/
structure Event where
  time : Int
  callback : Nat
  deriving DecidableEq, Repr

/-- Modelled from the spec: the state of the EventQueue, the current simulated time
and the pending events in the order in which `proceed` takes them. -/
structure EventQueue where
  current_time : Int
  pending : List Event
  deriving DecidableEq, Repr

/-- Modelled from the spec: the queue at simulation start, empty at time 0. -/
def EventQueue.new : EventQueue := ⟨0, []⟩

/-- Modelled from the spec: the place of a newly scheduled event among the pending
ones: before the first event of a strictly later time, hence behind every pending
event of the same time (FIFO among equal timestamps). -/
def EventQueue.insert (event : Event) : List Event → List Event
  | [] => [event]
  | first :: rest =>
    if event.time < first.time then event :: first :: rest
    else first :: EventQueue.insert event rest

/-- Modelled from the spec: `schedule(delay, callback)`, which puts an event at the
current time plus `delay`. -/
def EventQueue.schedule (q : EventQueue) (delay : Int) (callback : Nat) : EventQueue :=
  { q with pending := EventQueue.insert ⟨q.current_time + delay, callback⟩ q.pending }

/-- Modelled from the spec: `empty()`, whether no event is pending. -/
def EventQueue.empty (q : EventQueue) : Bool := q.pending.isEmpty

/-- Modelled from the spec: `proceed()`, which removes and executes the earliest
pending event and advances the current time to its timestamp; the executed event
is returned with the new state, and nothing is returned on an empty queue.  What the
callback does (it may schedule further events) belongs to the workload layer
and is left out. -/
def EventQueue.proceed (q : EventQueue) : Option (Event × EventQueue) :=
  match q.pending with
  | [] => none
  | event :: rest => some (event, ⟨event.time, rest⟩)

/-- Embedding of the `Run events` loop of `main`,
`while (!event_queue->empty()) { event_queue->proceed(); }`: the events executed, in
order, and the final state; `fuel` bounds the number of body executions. -/
def runEvents : Nat → EventQueue → Result (List Event × EventQueue)
  | 0, q => if ¬ q.empty then .outOfFuel else .ok ([], q)
  | fuel + 1, q =>
    if ¬ q.empty then
      match q.proceed with
      | none => .undefinedRead
      | some (event, next) =>
        match runEvents fuel next with
        | .ok (done, final) => .ok (event :: done, final)
        | .assertFailed => .assertFailed
        | .undefinedRead => .undefinedRead
        | .outOfFuel => .outOfFuel
    else .ok ([], q)

/-- A sequence of `schedule(delay, callback)` calls, made in list order. -/
def scheduleAll (q : EventQueue) (requests : List (Int × Nat)) : EventQueue :=
  requests.foldl (fun q request => q.schedule request.1 request.2) q

/-! ## Distance on the wraparound grid -/

/-- The distance between two positions of a ring of `N` positions: the shorter of
the two arcs. -/
def ringDistance (N a b : Int) : Int :=
  min |a - b| (N - |a - b|)

/-- The torus distance between two ids of a Torus2D: the ring distance of the
columns on a ring of `width` plus that of the rows on a ring of `height`. -/
def Torus2D.distance (t : Torus2D) (u v : Int) : Int :=
  ringDistance t.width (t.idToRowCol u).2 (t.idToRowCol v).2
    + ringDistance t.height (t.idToRowCol u).1 (t.idToRowCol v).1

/-! ## Facts about the constructors -/

/-- A 32-bit `int` result of a non-negative exact value is at most that value. -/
theorem wrapInt32_le {x : Int} (hx : 0 ≤ x) : wrapInt32 x ≤ x := by
  unfold wrapInt32
  omega

/-- An exact value that fits a 32-bit `int` is held unchanged. -/
theorem wrapInt32_of_fits {x : Int} (h0 : -2147483648 ≤ x) (h1 : x ≤ 2147483647) :
    wrapInt32 x = x := by
  unfold wrapInt32
  omega

/-- What `Ring_AllToAll_Switch::Ring_AllToAll_Switch` establishes between the members. -/
theorem ring_allToAll_switch_new_members {L : Type} {cfgs : List (TopologyConfiguration L)}
    {t : Ring_AllToAll_Switch} (hnew : Ring_AllToAll_Switch.new cfgs = .ok t) :
    t.node_packages_count = t.ring_size * t.all_to_all_size ∧
    t.packages_count = t.ring_size * t.all_to_all_size * t.switch_size ∧
    t.switch_id = t.packages_count ∧
    t.half_ring_size = Int.tdiv t.ring_size 2 := by
  unfold Ring_AllToAll_Switch.new at hnew
  split at hnew
  · split at hnew
    · exact absurd hnew (by simp)
    · injection hnew with h
      subst h
      exact ⟨rfl, rfl, rfl, rfl⟩
  · exact absurd hnew (by simp)

/-- What `Ring::Ring` establishes between the members. -/
theorem ring_new_members {L : Type} {cfgs : List (TopologyConfiguration L)}
    {t : Ring} (hnew : Ring.new cfgs = .ok t) :
    t.half_packages_count = Int.tdiv t.packages_count 2 := by
  unfold Ring.new at hnew
  split at hnew
  · exact absurd hnew (by simp)
  · split at hnew
    · exact absurd hnew (by simp)
    · injection hnew with h
      subst h
      rfl

/-! ## Arithmetic of the address mappings -/

theorem one_le_mul_of_one_le {a b : Int} (ha : 1 ≤ a) (hb : 1 ≤ b) : 1 ≤ a * b := by
  have : 0 < a * b := Int.mul_pos (by omega) (by omega)
  omega

/-- A ring position plus a group offset stays inside the node block:
`0 ≤ r + g * R < R * A` for `0 ≤ r < R` and `0 ≤ g < A`. -/
theorem offset_in_block {R A r g : Int} (hr0 : 0 ≤ r) (hr : r < R) (hg0 : 0 ≤ g) (hg : g < A) :
    0 ≤ r + g * R ∧ r + g * R < R * A := by
  have h1 : 0 ≤ g * R := Int.mul_nonneg hg0 (by omega)
  have h2 : (g + 1) * R ≤ A * R := Int.mul_le_mul_of_nonneg_right (by omega) (by omega)
  constructor
  · omega
  · have : (g + 1) * R = g * R + R := by ring
    have : A * R = R * A := Int.mul_comm _ _
    omega

/-- Converting an id to its Ring_AllToAll address and back returns the id. -/
theorem ring_allToAll_npuAddressToId_npuIdToAddress (t : Ring_AllToAll) (id : Int) :
    t.npuAddressToId (t.npuIdToAddress id) = id := by
  simp only [Ring_AllToAll.npuAddressToId, Ring_AllToAll.npuIdToAddress, NpuAddress.at,
    List.getD_cons_zero, List.getD_cons_succ]
  have := Int.tmod_add_tdiv id t.ring_size
  linarith [Int.mul_comm t.ring_size (Int.tdiv id t.ring_size)]

/-- The three coordinates of a non-negative id, in terms of floor division. -/
theorem ring_allToAll_switch_npuIdToAddress_eq (t : Ring_AllToAll_Switch)
    (hR : 1 ≤ t.ring_size) (hN : 1 ≤ t.node_packages_count) (id : Int) (h0 : 0 ≤ id) :
    t.npuIdToAddress id =
      [id % t.ring_size, id % t.node_packages_count / t.ring_size,
        id / t.node_packages_count] := by
  simp only [Ring_AllToAll_Switch.npuIdToAddress]
  rw [Int.tmod_eq_emod h0 (by omega), Int.tdiv_eq_ediv h0 (by omega),
    Int.tmod_eq_emod h0 (by omega),
    Int.tdiv_eq_ediv (Int.emod_nonneg _ (by omega)) (by omega)]

/-- The id of a three-coordinate address. -/
theorem ring_allToAll_switch_npuAddressToId_eq (t : Ring_AllToAll_Switch) (r g n : Int) :
    t.npuAddressToId [r, g, n] = r + g * t.ring_size + n * t.node_packages_count := by
  simp [Ring_AllToAll_Switch.npuAddressToId, NpuAddress.at]

/-- Range and coordinates of the id `r + g * R + n * N` in a topology whose node
block has `N = R * A` packages. -/
theorem ring_allToAll_switch_coordinates_of_id (t : Ring_AllToAll_Switch)
    (hnode : t.node_packages_count = t.ring_size * t.all_to_all_size)
    (r g n : Int) (hr0 : 0 ≤ r) (hr : r < t.ring_size) (hg0 : 0 ≤ g)
    (hg : g < t.all_to_all_size) (hn0 : 0 ≤ n) (hn : n < t.switch_size) :
    (0 ≤ r + g * t.ring_size + n * t.node_packages_count ∧
      r + g * t.ring_size + n * t.node_packages_count
        < t.ring_size * t.all_to_all_size * t.switch_size) ∧
    t.npuIdToAddress (r + g * t.ring_size + n * t.node_packages_count) = [r, g, n] := by
  have hR : 1 ≤ t.ring_size := by omega
  have hN : 1 ≤ t.node_packages_count := hnode ▸ one_le_mul_of_one_le hR (by omega)
  obtain ⟨hb0, hb⟩ := offset_in_block hr0 hr hg0 hg
  rw [← hnode] at hb ⊢
  have hn1 : 0 ≤ n * t.node_packages_count := Int.mul_nonneg hn0 (by omega)
  have hn2 : (n + 1) * t.node_packages_count ≤ t.switch_size * t.node_packages_count :=
    Int.mul_le_mul_of_nonneg_right (by omega) (by omega)
  have hn3 : (n + 1) * t.node_packages_count
      = n * t.node_packages_count + t.node_packages_count := by ring
  have hn4 : t.switch_size * t.node_packages_count = t.node_packages_count * t.switch_size :=
    Int.mul_comm _ _
  have hid0 : 0 ≤ r + g * t.ring_size + n * t.node_packages_count := by omega
  refine ⟨⟨hid0, by omega⟩, ?_⟩
  rw [ring_allToAll_switch_npuIdToAddress_eq t hR hN _ hid0]
  have e1 : (r + g * t.ring_size + n * t.node_packages_count) % t.node_packages_count
      = r + g * t.ring_size := by
    rw [Int.add_mul_emod_self, Int.emod_eq_of_lt hb0 hb]
  have e2 : (r + g * t.ring_size + n * t.node_packages_count) / t.node_packages_count = n := by
    rw [Int.add_mul_ediv_right _ _ (by omega), Int.ediv_eq_zero_of_lt hb0 hb]
    omega
  have e3 : (r + g * t.ring_size + n * t.node_packages_count) % t.ring_size = r := by
    rw [hnode, show r + g * t.ring_size + n * (t.ring_size * t.all_to_all_size)
      = r + (g + n * t.all_to_all_size) * t.ring_size by ring,
      Int.add_mul_emod_self, Int.emod_eq_of_lt hr0 hr]
  have e4 : (r + g * t.ring_size) / t.ring_size = g := by
    rw [Int.add_mul_ediv_right _ _ (by omega), Int.ediv_eq_zero_of_lt hr0 hr]
    omega
  rw [e1, e2, e3, e4]

/-- The three coordinates of an id add up to the id. -/
theorem ring_allToAll_switch_roundtrip_of_node (t : Ring_AllToAll_Switch)
    (hnode : t.node_packages_count = t.ring_size * t.all_to_all_size) (id : Int) :
    id % t.ring_size + id % t.node_packages_count / t.ring_size * t.ring_size
      + id / t.node_packages_count * t.node_packages_count = id := by
  have hdvd : t.ring_size ∣ t.node_packages_count := hnode ▸ Dvd.intro _ rfl
  have h1 := Int.emod_emod_of_dvd id hdvd
  have h2 := Int.emod_add_ediv (id % t.node_packages_count) t.ring_size
  have h3 := Int.emod_add_ediv id t.node_packages_count
  rw [h1] at h2
  linarith [Int.mul_comm t.ring_size (id % t.node_packages_count / t.ring_size),
    Int.mul_comm t.node_packages_count (id / t.node_packages_count)]

/-! ## Address round trips (C1 to C3) -/

/-- C1: in Ring_AllToAll with ring size R ≥ 1 and all-to-all size A ≥ 1, for every id
with 0 ≤ id < R*A the address of id is [id mod R, id div R], the id of an address
[r, g] is r + g*R, and converting id to its address and back returns id. -/
theorem ring_allToAll_id_roundtrip (t : Ring_AllToAll)
    (hR : 1 ≤ t.ring_size) (_hA : 1 ≤ t.all_to_all_size)
    (id : Int) (h0 : 0 ≤ id) (_hlt : id < t.ring_size * t.all_to_all_size) :
    t.npuIdToAddress id = [id % t.ring_size, id / t.ring_size] ∧
    (∀ r g : Int, t.npuAddressToId [r, g] = r + g * t.ring_size) ∧
    t.npuAddressToId (t.npuIdToAddress id) = id := by
  refine ⟨?_, ?_, ring_allToAll_npuAddressToId_npuIdToAddress t id⟩
  · simp only [Ring_AllToAll.npuIdToAddress]
    rw [Int.tmod_eq_emod h0 (by omega), Int.tdiv_eq_ediv h0 (by omega)]
  · intro r g
    simp [Ring_AllToAll.npuAddressToId, NpuAddress.at]

/-- Witness of C1: id 4 in the topology of ring size 3 and all-to-all size 2. -/
theorem ring_allToAll_id_roundtrip_witness :
    (Ring_AllToAll.mk 6 3 1 true 2).npuIdToAddress 4 = [4 % 3, 4 / 3] ∧
    (∀ r g : Int, (Ring_AllToAll.mk 6 3 1 true 2).npuAddressToId [r, g] = r + g * 3) ∧
    (Ring_AllToAll.mk 6 3 1 true 2).npuAddressToId
      ((Ring_AllToAll.mk 6 3 1 true 2).npuIdToAddress 4) = 4 :=
  ring_allToAll_id_roundtrip (Ring_AllToAll.mk 6 3 1 true 2) (by decide) (by decide)
    4 (by decide) (by decide)

/-- C4: for AllToAll, Ring, Switch, Torus2D, Ring_AllToAll and Ring_AllToAll_Switch,
`send x x s` returns exactly 0 for every valid id x and payload size s, under every
cost model; under the call log the returned 0 is the empty log, so no serialize,
NIC, route or HBM term was added. -/
theorem self_send_zero {L : Type} [Zero L] [Add L] (P : Primitives L) (fuel : Nat)
    (x payload_size : Int) (hx : 0 ≤ x) :
    (∀ t : AllToAll, x < t.packages_count → t.send P x x payload_size = .ok 0) ∧
    (∀ t : Ring, x < t.packages_count → t.send P fuel x x payload_size = .ok 0) ∧
    (∀ t : Switch, x < t.packages_count → t.send P x x payload_size = .ok 0) ∧
    (∀ t : Torus2D, x < t.packages_count → t.send P fuel x x payload_size = .ok 0) ∧
    (∀ t : Ring_AllToAll, x < t.packages_count → t.send P fuel x x payload_size = .ok 0) ∧
    (∀ t : Ring_AllToAll_Switch, x < t.packages_count →
      t.send P fuel x x payload_size = .ok 0) ∧
    (0 : CallLog).calls = [] := by
  refine ⟨?_, ?_, ?_, ?_, ?_, ?_, rfl⟩
  · intro t h; simp [AllToAll.send, hx, h]
  · intro t h; simp [Ring.send, hx, h]
  · intro t h; simp [Switch.send, hx, h]
  · intro t h; simp [Torus2D.send, hx, h]
  · intro t h; simp [Ring_AllToAll.send, hx, h]
  · intro t h; simp [Ring_AllToAll_Switch.send, hx, h]

/-- Witness of C4: node 2 of a ring of four packages, under the call log. -/
theorem self_send_zero_witness :
    (0 : Int) ≤ 2 ∧ (2 : Int) < (Ring.mk 4 2 true).packages_count ∧
    (Ring.mk 4 2 true).send callLog 0 2 2 64 = .ok 0 :=
  ⟨by decide, by decide,
    (self_send_zero callLog 0 2 64 (by decide)).2.1 (Ring.mk 4 2 true) (by decide)⟩

/-- `FastSwitch::send` has no self-send guard: for a valid id x, `send x x s` is the
full closed-form latency of a two-hop transfer, under every cost model. -/
theorem fastSwitch_self_send {L : Type} [Add L] [Mul L] [OfNat L 2] (t : FastSwitch)
    (P : FastPrimitives L) (x payload_size : Int) (hx0 : 0 ≤ x) (hx : x < t.packages_count) :
    t.send P x x payload_size =
      .ok (P.criticalLatency
        (P.linkLatency 0 2 + P.serializationLatency 0 payload_size + 2 * P.nicLatency 0
          + P.routerLatency 0)
        (P.hbmLatency 0 payload_size)) := by
  simp [FastSwitch.send, FastSwitch.checkNpuIdBound, hx0, hx]

/-- C5 (fails on the code): FastSwitch.send(x, x, s) should return 0 for every valid
id x; with four packages and the sample primitives `FastSwitch.send 0 0 1000`
returns 1065 ns, not 0. -/
theorem fastSwitch_self_send_nonzero :
    (FastSwitch.mk 4).send sampleFastPrimitives 0 0 1000 = .ok 1065 ∧
    (FastSwitch.mk 4).send sampleFastPrimitives 0 0 1000 ≠ .ok 0 := by
  decide

/-- What `Switch::Switch` establishes between the members. -/
theorem switch_new_members {L : Type} {cfgs : List (TopologyConfiguration L)}
    {t : Switch} (hnew : Switch.new cfgs = .ok t) : t.switch_id = t.packages_count := by
  unfold Switch.new at hnew
  split at hnew
  · exact absurd hnew (by simp)
  · injection hnew with h
    subst h
    rfl

/-- C6: for every variant, `send src dest s` ends in the failed bound assertion if
and only if src or dest lies outside [0, packages_count).  The assertion precedes
the self-send guard, so an out-of-range id gets no latency, not even on a
self-send, and the switch id (= packages_count) of Switch and
Ring_AllToAll_Switch is rejected as source and as destination. -/
theorem send_fails_iff_out_of_bounds {L : Type} [Zero L] [Add L] (P : Primitives L)
    {M : Type} [Add M] [Mul M] [OfNat M 2] (Q : FastPrimitives M) {C : Type}
    (fuel : Nat) (src dest payload_size : Int) :
    (∀ t : AllToAll, t.send P src dest payload_size = .assertFailed ↔
      ¬ ((0 ≤ src ∧ src < t.packages_count) ∧ (0 ≤ dest ∧ dest < t.packages_count))) ∧
    (∀ t : Ring, t.send P fuel src dest payload_size = .assertFailed ↔
      ¬ ((0 ≤ src ∧ src < t.packages_count) ∧ (0 ≤ dest ∧ dest < t.packages_count))) ∧
    (∀ t : Switch, t.send P src dest payload_size = .assertFailed ↔
      ¬ ((0 ≤ src ∧ src < t.packages_count) ∧ (0 ≤ dest ∧ dest < t.packages_count))) ∧
    (∀ t : Torus2D, t.send P fuel src dest payload_size = .assertFailed ↔
      ¬ ((0 ≤ src ∧ src < t.packages_count) ∧ (0 ≤ dest ∧ dest < t.packages_count))) ∧
    (∀ t : Ring_AllToAll, t.send P fuel src dest payload_size = .assertFailed ↔
      ¬ ((0 ≤ src ∧ src < t.packages_count) ∧ (0 ≤ dest ∧ dest < t.packages_count))) ∧
    (∀ t : Ring_AllToAll_Switch, t.send P fuel src dest payload_size = .assertFailed ↔
      ¬ ((0 ≤ src ∧ src < t.packages_count) ∧ (0 ≤ dest ∧ dest < t.packages_count))) ∧
    (∀ t : FastSwitch, t.send Q src dest payload_size = .assertFailed ↔
      ¬ ((0 ≤ src ∧ src < t.packages_count) ∧ (0 ≤ dest ∧ dest < t.packages_count))) ∧
    (∀ (cfgs : List (TopologyConfiguration C)) (t : Switch), Switch.new cfgs = .ok t →
      t.send P t.switch_id dest payload_size = .assertFailed ∧
      t.send P src t.switch_id payload_size = .assertFailed ∧
      t.send P t.switch_id t.switch_id payload_size = .assertFailed) ∧
    (∀ (cfgs : List (TopologyConfiguration C)) (t : Ring_AllToAll_Switch),
      Ring_AllToAll_Switch.new cfgs = .ok t →
      t.send P fuel t.switch_id dest payload_size = .assertFailed ∧
      t.send P fuel src t.switch_id payload_size = .assertFailed ∧
      t.send P fuel t.switch_id t.switch_id payload_size = .assertFailed) := by
  refine ⟨?_, ?_, ?_, ?_, ?_, ?_, ?_, ?_, ?_⟩
  · intro t
    unfold AllToAll.send
    by_cases h1 : 0 ≤ src ∧ src < t.packages_count <;>
    by_cases h2 : 0 ≤ dest ∧ dest < t.packages_count <;>
    by_cases h3 : src = dest <;> simp [h1, h2, h3]
  · intro t
    unfold Ring.send
    by_cases h1 : 0 ≤ src ∧ src < t.packages_count <;>
    by_cases h2 : 0 ≤ dest ∧ dest < t.packages_count <;>
    by_cases h3 : src = dest <;>
    simp only [h1, h2, h3, not_true, not_false_eq_true, if_true, if_false, and_self] <;>
    (try split) <;> simp
  · intro t
    unfold Switch.send
    by_cases h1 : 0 ≤ src ∧ src < t.packages_count <;>
    by_cases h2 : 0 ≤ dest ∧ dest < t.packages_count <;>
    by_cases h3 : src = dest <;> simp [h1, h2, h3]
  · intro t
    unfold Torus2D.send
    by_cases h1 : 0 ≤ src ∧ src < t.packages_count <;>
    by_cases h2 : 0 ≤ dest ∧ dest < t.packages_count <;>
    by_cases h3 : src = dest <;>
    simp only [h1, h2, h3, not_true, not_false_eq_true, if_true, if_false, and_self] <;>
    (try split) <;> (try split) <;> simp
  · intro t
    unfold Ring_AllToAll.send
    by_cases h1 : 0 ≤ src ∧ src < t.packages_count <;>
    by_cases h2 : 0 ≤ dest ∧ dest < t.packages_count <;>
    by_cases h3 : src = dest <;>
    simp only [h1, h2, h3, not_true, not_false_eq_true, if_true, if_false, and_self] <;>
    (try split) <;> simp
  · intro t
    unfold Ring_AllToAll_Switch.send
    by_cases h1 : 0 ≤ src ∧ src < t.packages_count <;>
    by_cases h2 : 0 ≤ dest ∧ dest < t.packages_count <;>
    by_cases h3 : src = dest <;>
    simp only [h1, h2, h3, not_true, not_false_eq_true, if_true, if_false, and_self] <;>
    (try split) <;> simp
  · intro t
    unfold FastSwitch.send FastSwitch.checkNpuIdBound
    by_cases h1 : 0 ≤ src ∧ src < t.packages_count <;>
    by_cases h2 : 0 ≤ dest ∧ dest < t.packages_count <;> simp [h1, h2]
  · intro cfgs t hnew
    rw [switch_new_members hnew]
    refine ⟨?_, ?_, ?_⟩ <;> simp [Switch.send]
  · intro cfgs t hnew
    rw [(ring_allToAll_switch_new_members hnew).2.2.1]
    refine ⟨?_, ?_, ?_⟩ <;> simp [Ring_AllToAll_Switch.send]

/-- Witness of C6: on the Switch built for three packages, the switch id 3 is
refused as source, as destination and on a self-send. -/
theorem send_fails_iff_out_of_bounds_witness :
    Switch.new [sampleConfiguration 3 []] = .ok (Switch.mk 3 3) ∧
    (Switch.mk 3 3).send callLog 3 1 64 = .assertFailed ∧
    (Switch.mk 3 3).send callLog 0 3 64 = .assertFailed ∧
    (Switch.mk 3 3).send callLog 3 3 64 = .assertFailed :=
  ⟨rfl, (send_fails_iff_out_of_bounds callLog sampleFastPrimitives 0 0 1 64).2.2.2.2.2.2.2.1
    [sampleConfiguration 3 []] (Switch.mk 3 3) rfl⟩

/-! ## Modular steps on a ring -/

/-- Non-negative residue of a value strictly between `-N` and `N`. -/
theorem emod_of_abs_lt {N x : Int} (h1 : -N < x) (h2 : x < N) :
    x % N = if 0 ≤ x then x else x + N := by
  split
  · next h => exact Int.emod_eq_of_lt h h2
  · next h =>
    rw [← Int.add_emod_self]
    exact Int.emod_eq_of_lt (by omega) (by omega)

/-- The C++ remainder of `-1` by a divisor of at least two is `-1`. -/
theorem tmod_neg_one {N : Int} (hN : 2 ≤ N) : Int.tmod (-1) N = -1 := by
  obtain ⟨n, rfl⟩ := Int.eq_ofNat_of_zero_le (show 0 ≤ N by omega)
  have hn : 1 < n := by omega
  show -((1 % n : Nat) : Int) = -1
  rw [Nat.mod_eq_of_lt hn]
  rfl

/-- Modular successor and predecessor on a ring, case by case. -/
theorem step_emod_cases {N c d : Int} (hN : 2 ≤ N) (hc0 : 0 ≤ c) (hc : c < N)
    (hd : d = 1 ∨ d = -1) :
    (c + d) % N =
      if d = 1 then (if c + 1 = N then 0 else c + 1) else (if c = 0 then N - 1 else c - 1) := by
  rcases hd with rfl | rfl
  · by_cases h : c + 1 = N
    · simp [h]
    · rw [if_pos rfl, if_neg h, Int.emod_eq_of_lt (by omega) (by omega)]
  · rw [if_neg (by decide), emod_of_abs_lt (by omega) (by omega)]
    by_cases h : c = 0
    · subst h; simp; omega
    · rw [if_pos (by omega), if_neg h]; omega

/-- The body shared by the `takeStep` functions computes the modular successor or
predecessor on a ring of at least two positions. -/
theorem takeStep_body_eq {N c d : Int} (hN : 2 ≤ N) (hc0 : 0 ≤ c) (hc : c < N)
    (hd : d = 1 ∨ d = -1) :
    (if c + d ≥ N then Int.tmod (c + d) N
      else if c + d < 0 then N + Int.tmod (c + d) N else c + d) = (c + d) % N := by
  rw [step_emod_cases hN hc0 hc hd]
  rcases hd with rfl | rfl
  · by_cases h : c + 1 = N
    · simp [h]
    · rw [if_neg (by omega), if_neg (by omega), if_pos rfl, if_neg h]
  · by_cases h : c = 0
    · subst h
      rw [if_neg (by omega), if_pos (by omega), if_neg (by decide), if_pos rfl,
        show (0 : Int) + -1 = -1 by rfl, tmod_neg_one hN]
      omega
    · rw [if_neg (by omega), if_neg (by omega), if_neg (by decide), if_neg h]
      omega

/-- The arc from `c` to `dest` in direction `d` has length zero exactly at `dest`. -/
theorem arc_eq_zero_iff {N c dest d : Int} (hc0 : 0 ≤ c) (hc : c < N)
    (hd0 : 0 ≤ dest) (hdN : dest < N) (hd : d = 1 ∨ d = -1) :
    (d * (dest - c)) % N = 0 ↔ c = dest := by
  rcases hd with rfl | rfl
  · rw [emod_of_abs_lt (by omega) (by omega)]
    split <;> omega
  · rw [emod_of_abs_lt (by omega) (by omega)]
    split <;> omega

/-- One step in direction `d` stays on the ring and shortens the arc to `dest` by one. -/
theorem arc_step {N c dest d : Int} (hN : 2 ≤ N) (hc0 : 0 ≤ c) (hc : c < N)
    (hd0 : 0 ≤ dest) (hdN : dest < N) (hd : d = 1 ∨ d = -1) (hne : c ≠ dest) :
    (0 ≤ (c + d) % N ∧ (c + d) % N < N) ∧
    (d * (dest - (c + d) % N)) % N = (d * (dest - c)) % N - 1 := by
  refine ⟨⟨Int.emod_nonneg _ (by omega), Int.emod_lt_of_pos _ (by omega)⟩, ?_⟩
  rw [step_emod_cases hN hc0 hc hd]
  rcases hd with rfl | rfl
  · rw [if_pos rfl]
    by_cases h : c + 1 = N
    · rw [if_pos h, emod_of_abs_lt (by omega) (by omega), emod_of_abs_lt (by omega) (by omega)]
      split <;> split <;> omega
    · rw [if_neg h, emod_of_abs_lt (by omega) (by omega), emod_of_abs_lt (by omega) (by omega)]
      split <;> split <;> omega
  · rw [if_neg (by decide)]
    by_cases h : c = 0
    · rw [if_pos h, emod_of_abs_lt (by omega) (by omega), emod_of_abs_lt (by omega) (by omega)]
      split <;> split <;> omega
    · rw [if_neg h, emod_of_abs_lt (by omega) (by omega), emod_of_abs_lt (by omega) (by omega)]
      split <;> split <;> omega

/-- `Ring::takeStep` on a ring of at least two packages. -/
theorem ring_takeStep_eq (t : Ring) {c d : Int} (hN : 2 ≤ t.packages_count) (hc0 : 0 ≤ c)
    (hc : c < t.packages_count) (hd : d = 1 ∨ d = -1) :
    t.takeStep c d = (c + d) % t.packages_count :=
  takeStep_body_eq hN hc0 hc hd

/-- The loop of `Ring::send`, started at `c` at arc length `k` from `dest` with at
least `k` iterations allowed, ends after the `k` hops of `arcPath` and has added
their `route` costs in order. -/
theorem ring_sendLoop_eq {L : Type} [Add L] (t : Ring) (P : Primitives L)
    (d dest payload_size : Int) (hN : 2 ≤ t.packages_count) (hd : d = 1 ∨ d = -1)
    (hd0 : 0 ≤ dest) (hdN : dest < t.packages_count) :
    ∀ (k fuel : Nat) (c : Int) (acc : L), 0 ≤ c → c < t.packages_count →
      (d * (dest - c)) % t.packages_count = k → k ≤ fuel →
      Ring.sendLoop t P d dest payload_size fuel c acc
        = some (addRoutes P payload_size acc (arcPath t.packages_count d k c)) := by
  intro k
  induction k with
  | zero =>
    intro fuel c acc hc0 hc harc _
    have hcd : c = dest := (arc_eq_zero_iff hc0 hc hd0 hdN hd).1 (by simpa using harc)
    cases fuel <;> simp [Ring.sendLoop, hcd, addRoutes, arcPath]
  | succ k ih =>
    intro fuel c acc hc0 hc harc hfuel
    have hne : c ≠ dest := by
      intro h
      have := (arc_eq_zero_iff hc0 hc hd0 hdN hd).2 h
      rw [this] at harc
      omega
    obtain ⟨fuel, rfl⟩ : ∃ f, fuel = f + 1 := ⟨fuel - 1, by omega⟩
    obtain ⟨⟨hs0, hsN⟩, hs⟩ := arc_step hN hc0 hc hd0 hdN hd hne
    have hstep := ring_takeStep_eq t hN hc0 hc hd
    simp only [Ring.sendLoop, hne, ne_eq, not_false_eq_true, if_true, hstep]
    rw [ih fuel _ _ hs0 hsN (by rw [hs, harc]; push_cast; omega) (by omega)]
    simp [addRoutes, arcPath]

/-! ## Walking a ring: paths and call logs -/

/-- A reference path of `k` hops has `k` entries. -/
theorem arcPath_length (N d : Int) : ∀ (k : Nat) (c : Int), (arcPath N d k c).length = k := by
  intro k
  induction k with
  | zero => intro c; rfl
  | succ k ih => intro c; simp [arcPath, ih]

/-- The forward path from `c` visits `c, c+1, c+2, ...` modulo `N`. -/
theorem arcPath_forward (N : Int) (hN : 0 < N) : ∀ (k : Nat) (c : Int), 0 ≤ c → c < N →
    arcPath N 1 k c
      = (List.range k).map (fun j : Nat => ((c + j) % N, (c + j + 1) % N)) := by
  intro k
  induction k with
  | zero => intro c _ _; rfl
  | succ k ih =>
    intro c hc0 hc
    rw [arcPath, ih _ (Int.emod_nonneg _ (by omega)) (Int.emod_lt_of_pos _ hN),
      List.range_succ_eq_map, List.map_cons, List.map_map]
    congr 1
    · simp [Int.emod_eq_of_lt hc0 hc]
    · apply List.map_congr_left
      intro j _
      simp only [Function.comp, Nat.succ_eq_add_one, Nat.cast_add, Nat.cast_one]
      rw [Int.emod_add_emod, Int.add_assoc ((c + 1) % N), Int.emod_add_emod]
      congr 2 <;> ring

/-- Under the call log, adding the `route` costs of a path appends one `route` call
per hop. -/
theorem addRoutes_callLog (payload_size : Int) : ∀ (hops : List (Int × Int)) (acc : CallLog),
    addRoutes callLog payload_size acc hops
      = ⟨acc.calls ++ hops.map (fun hop => Call.route hop.1 hop.2 payload_size)⟩ := by
  intro hops
  induction hops with
  | nil => intro acc; simp [addRoutes]
  | cons hop hops ih =>
    intro acc
    have := ih (acc + callLog.route hop.1 hop.2 payload_size)
    simp only [addRoutes] at this ⊢
    rw [List.foldl_cons, this]
    simp [callLog, HAdd.hAdd, Add.add]

/-- The hops of a run of `route` calls are the hops the calls were made for. -/
theorem hops_map_route (payload_size : Int) (hops : List (Int × Int)) :
    (hops.map (fun hop => Call.route hop.1 hop.2 payload_size)).filterMap Call.hop? = hops := by
  induction hops with
  | nil => rfl
  | cons hop hops ih => simp [List.filterMap_cons, Call.hop?, ih]

/-- `Ring::computeDirection` returns `+1` or `-1`. -/
theorem ring_computeDirection_cases (t : Ring) (src dest : Int) :
    t.computeDirection src dest = 1 ∨ t.computeDirection src dest = -1 := by
  unfold Ring.computeDirection
  split
  · exact Or.inl rfl
  · split
    · simp only []; split <;> simp
    · simp only []; split <;> simp

/-- `Ring::send` between distinct valid ids, for any cost model: when the arc in the
chosen direction has length `k` and `k` iterations are allowed, the call returns the
critical latency of serialize + NIC + the `k` hop costs + NIC and the HBM latency. -/
theorem ring_send_eq {L : Type} [Zero L] [Add L] (t : Ring) (P : Primitives L)
    (src dest payload_size : Int) (hs0 : 0 ≤ src) (hs : src < t.packages_count)
    (hd0 : 0 ≤ dest) (hd : dest < t.packages_count) (hne : src ≠ dest)
    (k fuel : Nat)
    (hk : (t.computeDirection src dest * (dest - src)) % t.packages_count = k)
    (hfuel : k ≤ fuel) :
    t.send P fuel src dest payload_size
      = .ok (P.criticalLatency
          (addRoutes P payload_size (P.serialize payload_size 0 + P.nicLatency 0)
              (arcPath t.packages_count (t.computeDirection src dest) k src)
            + P.nicLatency 0)
          (P.hbmLatency payload_size 0)) := by
  have hN : 2 ≤ t.packages_count := by omega
  unfold Ring.send
  simp only [hs0, hs, hd0, hd, hne, and_self, not_true, if_false]
  rw [ring_sendLoop_eq t P _ dest payload_size hN (ring_computeDirection_cases t src dest)
    hd0 hd k fuel src _ hs0 hs hk hfuel]

/-- The hops of `Ring::send` between distinct valid ids, read off the call log. -/
theorem ring_send_callLog_hops (t : Ring)
    (src dest payload_size : Int) (hs0 : 0 ≤ src) (hs : src < t.packages_count)
    (hd0 : 0 ≤ dest) (hd : dest < t.packages_count) (hne : src ≠ dest)
    (k fuel : Nat)
    (hk : (t.computeDirection src dest * (dest - src)) % t.packages_count = k)
    (hfuel : k ≤ fuel) :
    ∃ log, t.send callLog fuel src dest payload_size = .ok log ∧
      log.hops = arcPath t.packages_count (t.computeDirection src dest) k src := by
  refine ⟨_, ring_send_eq t callLog src dest payload_size hs0 hs hd0 hd hne k fuel hk hfuel, ?_⟩
  rw [addRoutes_callLog]
  simp only [CallLog.hops, callLog, HAdd.hAdd, Add.add, List.append_assoc, List.filterMap_append,
    hops_map_route]
  simp [List.filterMap_cons, Call.hop?]

/-! ## Ring direction and hop counts (C7 to C9) -/

/-- `Ring::computeDirection` on a bidirectional ring. -/
theorem ring_computeDirection_bidirectional (t : Ring) (hb : t.bidirectional = true)
    (src dest : Int) :
    t.computeDirection src dest =
      if src < dest then (if dest - src ≤ t.half_packages_count then 1 else -1)
      else (if src - dest ≤ t.half_packages_count then -1 else 1) := by
  simp [Ring.computeDirection, hb]

/-- `Ring::computeDirection` on a unidirectional ring. -/
theorem ring_computeDirection_unidirectional (t : Ring) (hb : t.bidirectional = false)
    (src dest : Int) : t.computeDirection src dest = 1 := by
  simp [Ring.computeDirection, hb]

/-- The half size stored by the constructor is the floor of half the size. -/
theorem ring_half_eq {C : Type} {cfgs : List (TopologyConfiguration C)} {t : Ring}
    (hnew : Ring.new cfgs = .ok t) (hN : 0 ≤ t.packages_count) :
    t.half_packages_count = t.packages_count / 2 := by
  rw [ring_new_members hnew, Int.tdiv_eq_ediv hN (by decide)]

/-- C7 (amended): on a bidirectional Ring of size N, for distinct valid ids with
forward distance f = (dest - src) mod N, `computeDirection` returns +1 exactly when
f ≤ N/2 and not (dest < src and 2*f = N), and -1 otherwise; so a tie 2*f = N goes
forward when src < dest and backward when src > dest.  On a unidirectional Ring it
returns +1 for every pair. -/
theorem ring_computeDirection {C : Type} (cfgs : List (TopologyConfiguration C)) (t : Ring)
    (hnew : Ring.new cfgs = .ok t) (src dest : Int)
    (hs0 : 0 ≤ src) (hs : src < t.packages_count) (hd0 : 0 ≤ dest)
    (hd : dest < t.packages_count) (hne : src ≠ dest) :
    (t.bidirectional = true →
      t.computeDirection src dest =
        if (dest - src) % t.packages_count ≤ t.packages_count / 2 ∧
            ¬ (dest < src ∧ 2 * ((dest - src) % t.packages_count) = t.packages_count)
        then 1 else -1) ∧
    (t.bidirectional = false → ∀ a b : Int, t.computeDirection a b = 1) := by
  refine ⟨fun hb => ?_, fun hb a b => ring_computeDirection_unidirectional t hb a b⟩
  rw [ring_computeDirection_bidirectional t hb, ring_half_eq hnew (by omega),
    emod_of_abs_lt (by omega) (by omega)]
  split_ifs <;> omega

/-- Witness of C7 (amended): from 2 to 0 on the bidirectional Ring of four packages. -/
theorem ring_computeDirection_witness :
    Ring.new [sampleConfiguration 4 [1]] = .ok (Ring.mk 4 2 true) ∧ (2 : Int) ≠ 0 ∧
    (Ring.mk 4 2 true).computeDirection 2 0 =
      (if ((0 : Int) - 2) % 4 ≤ 4 / 2 ∧ ¬ ((0 : Int) < 2 ∧ 2 * (((0 : Int) - 2) % 4) = 4)
        then 1 else -1) :=
  ⟨rfl, by decide,
    (ring_computeDirection [sampleConfiguration 4 [1]] (Ring.mk 4 2 true) rfl 2 0
      (by decide) (by decide) (by decide) (by decide) (by decide)).1 rfl⟩

/-- Counterexample to C7 as stated: on the bidirectional Ring of four packages the
forward distance from 2 to 0 is 2 ≤ 4/2, yet `computeDirection 2 0` is -1. -/
theorem ring_tie_goes_backward :
    Ring.new [sampleConfiguration 4 [1]] = .ok (Ring.mk 4 2 true) ∧
    ((0 : Int) - 2) % 4 ≤ 4 / 2 ∧
    (Ring.mk 4 2 true).computeDirection 2 0 = -1 ∧
    ¬ ((Ring.mk 4 2 true).computeDirection 2 0 = 1 ↔ ((0 : Int) - 2) % 4 ≤ 4 / 2) := by
  decide

/-- The arc a bidirectional ring chooses is the shorter of the two. -/
theorem ring_chosen_arc {C : Type} {cfgs : List (TopologyConfiguration C)} {t : Ring}
    (hnew : Ring.new cfgs = .ok t) (hb : t.bidirectional = true) (src dest : Int)
    (hs0 : 0 ≤ src) (hs : src < t.packages_count) (hd0 : 0 ≤ dest)
    (hd : dest < t.packages_count) :
    (t.computeDirection src dest * (dest - src)) % t.packages_count
      = min ((dest - src) % t.packages_count)
          (t.packages_count - (dest - src) % t.packages_count) := by
  rw [ring_computeDirection_bidirectional t hb, ring_half_eq hnew (by omega),
    emod_of_abs_lt (x := dest - src) (by omega) (by omega)]
  split_ifs <;> rw [emod_of_abs_lt (by omega) (by omega)] <;> split_ifs <;> omega

/-- C8: on a bidirectional Ring of size N, for distinct valid ids with
f = (dest - src) mod N, `send` returns and makes exactly min(f, N - f) hops, which is
at most ceil(N/2); on N = 4, `send 0 2` takes the two hops 0→1→2 and `send 0 1` the
single hop 0→1. -/
theorem ring_bidirectional_hop_count {C : Type} (cfgs : List (TopologyConfiguration C))
    (t : Ring) (hnew : Ring.new cfgs = .ok t) (hb : t.bidirectional = true)
    (src dest payload_size : Int)
    (hs0 : 0 ≤ src) (hs : src < t.packages_count) (hd0 : 0 ≤ dest)
    (hd : dest < t.packages_count) (hne : src ≠ dest)
    (fuel : Nat) (hfuel : t.packages_count ≤ fuel) :
    (∃ log, t.send callLog fuel src dest payload_size = .ok log ∧
      (log.hops.length : Int)
        = min ((dest - src) % t.packages_count)
            (t.packages_count - (dest - src) % t.packages_count)) ∧
    min ((dest - src) % t.packages_count) (t.packages_count - (dest - src) % t.packages_count)
      ≤ (t.packages_count + 1) / 2 ∧
    Ring.new [sampleConfiguration 4 [1]] = .ok (Ring.mk 4 2 true) ∧
    (∃ log, (Ring.mk 4 2 true).send callLog 4 0 2 payload_size = .ok log ∧
      log.hops = [(0, 1), (1, 2)]) ∧
    (∃ log, (Ring.mk 4 2 true).send callLog 4 0 1 payload_size = .ok log ∧
      log.hops = [(0, 1)]) := by
  have harc := ring_chosen_arc hnew hb src dest hs0 hs hd0 hd
  have hf0 : 0 ≤ (dest - src) % t.packages_count := Int.emod_nonneg _ (by omega)
  have hfN : (dest - src) % t.packages_count < t.packages_count :=
    Int.emod_lt_of_pos _ (by omega)
  refine ⟨?_, by omega, rfl, ⟨_, rfl, rfl⟩, ⟨_, rfl, rfl⟩⟩
  obtain ⟨log, hsend, hhops⟩ := ring_send_callLog_hops t src dest payload_size hs0 hs hd0 hd hne
    (min ((dest - src) % t.packages_count)
      (t.packages_count - (dest - src) % t.packages_count)).toNat fuel
    (by rw [harc]; omega) (by omega)
  refine ⟨log, hsend, ?_⟩
  rw [hhops, arcPath_length]
  omega

/-- Witness of C8: from 3 to 1 on the bidirectional Ring of four packages. -/
theorem ring_bidirectional_hop_count_witness :
    Ring.new [sampleConfiguration 4 [1]] = .ok (Ring.mk 4 2 true) ∧ (3 : Int) ≠ 1 ∧
    ∃ log, (Ring.mk 4 2 true).send callLog 4 3 1 64 = .ok log ∧
      (log.hops.length : Int) = min (((1 : Int) - 3) % 4) (4 - ((1 : Int) - 3) % 4) :=
  ⟨rfl, by decide,
    (ring_bidirectional_hop_count [sampleConfiguration 4 [1]] (Ring.mk 4 2 true) rfl rfl 3 1 64
      (by decide) (by decide) (by decide) (by decide) (by decide) 4 (by decide)).1⟩

/-- C9: on a unidirectional Ring of size N (first shape entry negative), for
distinct valid ids, `send` returns, its hops are (src + j, src + j + 1) mod N for
j = 0, ..., f - 1 in this order, and there are f = (dest - src) mod N of them. -/
theorem ring_unidirectional_path {C : Type} (c0 : TopologyConfiguration C)
    (rest : List (TopologyConfiguration C)) (shape0 : Int) (shapes : List Int)
    (hshape : c0.shape_configs = shape0 :: shapes) (hneg : shape0 < 0)
    (t : Ring) (hnew : Ring.new (c0 :: rest) = .ok t)
    (src dest payload_size : Int)
    (hs0 : 0 ≤ src) (hs : src < t.packages_count) (hd0 : 0 ≤ dest)
    (hd : dest < t.packages_count) (hne : src ≠ dest)
    (fuel : Nat) (hfuel : t.packages_count ≤ fuel) :
    ∃ log, t.send callLog fuel src dest payload_size = .ok log ∧
      log.hops = (List.range ((dest - src) % t.packages_count).toNat).map
        (fun j : Nat => ((src + j) % t.packages_count, (src + j + 1) % t.packages_count)) ∧
      (log.hops.length : Int) = (dest - src) % t.packages_count := by
  have hf0 : 0 ≤ (dest - src) % t.packages_count := Int.emod_nonneg _ (by omega)
  have hfN : (dest - src) % t.packages_count < t.packages_count :=
    Int.emod_lt_of_pos _ (by omega)
  have hb : t.bidirectional = false := by
    simp only [Ring.new, hshape] at hnew
    injection hnew with h
    subst h
    simp [hneg]
  have hdir := ring_computeDirection_unidirectional t hb src dest
  obtain ⟨log, hsend, hhops⟩ := ring_send_callLog_hops t src dest payload_size hs0 hs hd0 hd hne
    ((dest - src) % t.packages_count).toNat fuel
    (by rw [hdir, Int.one_mul]; omega) (by omega)
  rw [hdir] at hhops
  refine ⟨log, hsend, ?_, ?_⟩
  · rw [hhops, arcPath_forward _ (by omega) _ _ hs0 hs]
  · rw [hhops, arcPath_length]
    omega

/-- Witness of C9: from 3 to 1 on the unidirectional Ring of four packages. -/
theorem ring_unidirectional_path_witness :
    Ring.new [sampleConfiguration 4 [-1]] = .ok (Ring.mk 4 2 false) ∧ (-1 : Int) < 0 ∧
    (3 : Int) ≠ 1 ∧
    ∃ log, (Ring.mk 4 2 false).send callLog 4 3 1 64 = .ok log ∧
      log.hops = (List.range ((((1 : Int) - 3) % 4).toNat)).map
        (fun j : Nat => (((3 : Int) + j) % 4, ((3 : Int) + j + 1) % 4)) ∧
      (log.hops.length : Int) = ((1 : Int) - 3) % 4 :=
  ⟨rfl, by decide, by decide,
    ring_unidirectional_path (sampleConfiguration 4 [-1]) [] (-1) [] rfl (by decide)
      (Ring.mk 4 2 false) rfl 3 1 64 (by decide) (by decide) (by decide) (by decide)
      (by decide) 4 (by decide)⟩

/-! ## Ring_AllToAll_Switch: the ring loop -/

/-- The address of a valid id: three coordinates, each within its dimension, that
add up to the id. -/
theorem ring_allToAll_switch_address_of_valid (t : Ring_AllToAll_Switch)
    (hnode : t.node_packages_count = t.ring_size * t.all_to_all_size)
    (hR : 1 ≤ t.ring_size) (hA : 1 ≤ t.all_to_all_size) (id : Int) (h0 : 0 ≤ id)
    (hlt : id < t.ring_size * t.all_to_all_size * t.switch_size) :
    ∃ r g n : Int, t.npuIdToAddress id = [r, g, n] ∧
      (0 ≤ r ∧ r < t.ring_size) ∧ (0 ≤ g ∧ g < t.all_to_all_size) ∧
      (0 ≤ n ∧ n < t.switch_size) ∧
      id = r + g * t.ring_size + n * t.node_packages_count ∧
      n = Int.tdiv id t.node_packages_count := by
  have hN : 1 ≤ t.node_packages_count := hnode ▸ one_le_mul_of_one_le hR hA
  refine ⟨_, _, _, ring_allToAll_switch_npuIdToAddress_eq t hR hN id h0,
    ⟨Int.emod_nonneg _ (by omega), Int.emod_lt_of_pos _ (by omega)⟩, ⟨?_, ?_⟩, ⟨?_, ?_⟩,
    (ring_allToAll_switch_roundtrip_of_node t hnode id).symm,
    (Int.tdiv_eq_ediv h0 (by omega)).symm⟩
  · exact Int.ediv_nonneg (Int.emod_nonneg _ (by omega)) (by omega)
  · apply Int.ediv_lt_of_lt_mul (by omega)
    rw [Int.mul_comm, ← hnode]
    exact Int.emod_lt_of_pos _ (by omega)
  · exact Int.ediv_nonneg h0 (by omega)
  · apply Int.ediv_lt_of_lt_mul (by omega)
    rw [Int.mul_comm, hnode]
    exact hlt

/-- `Ring_AllToAll_Switch::takeStep` on a ring of at least two positions. -/
theorem ring_allToAll_switch_takeStep_eq (t : Ring_AllToAll_Switch) {c d : Int}
    (hN : 2 ≤ t.ring_size) (hc0 : 0 ≤ c) (hc : c < t.ring_size) (hd : d = 1 ∨ d = -1) :
    t.takeStep c d = (c + d) % t.ring_size :=
  takeStep_body_eq hN hc0 hc hd

/-- `Ring_AllToAll_Switch::computeDirection` returns `+1` or `-1`. -/
theorem ring_allToAll_switch_computeDirection_cases (t : Ring_AllToAll_Switch)
    (src dest : Int) :
    t.computeDirection src dest = 1 ∨ t.computeDirection src dest = -1 := by
  unfold Ring_AllToAll_Switch.computeDirection
  split
  · exact Or.inl rfl
  · split
    · simp only []; split <;> simp
    · simp only []; split <;> simp

/-- The ring loop of `Ring_AllToAll_Switch::send`, started at ring position `c` of
group `g` in node `n` at arc length `k` from the target position: it ends at the
target position of the same group and node, after the `k` hops of `arcPath`. -/
theorem ring_allToAll_switch_sendLoop_eq {L : Type} [Add L] (t : Ring_AllToAll_Switch)
    (P : Primitives L) (d payload_size : Int) (r2 g2 n2 g n : Int)
    (hN : 2 ≤ t.ring_size) (hd : d = 1 ∨ d = -1)
    (hd0 : 0 ≤ r2) (hdN : r2 < t.ring_size) :
    ∀ (k fuel : Nat) (c : Int) (acc : L), 0 ≤ c → c < t.ring_size →
      (d * (r2 - c)) % t.ring_size = k → k ≤ fuel →
      Ring_AllToAll_Switch.sendLoop t P d [r2, g2, n2] payload_size fuel [c, g, n] acc
        = some ([r2, g, n], addRoutes P payload_size acc
            ((arcPath t.ring_size d k c).map
              (fun hop => (t.npuAddressToId [hop.1, g, n], t.npuAddressToId [hop.2, g, n])))) := by
  intro k
  induction k with
  | zero =>
    intro fuel c acc hc0 hc harc _
    have hcd : c = r2 := (arc_eq_zero_iff hc0 hc hd0 hdN hd).1 (by simpa using harc)
    cases fuel <;> simp [Ring_AllToAll_Switch.sendLoop, hcd, addRoutes, arcPath, NpuAddress.at]
  | succ k ih =>
    intro fuel c acc hc0 hc harc hfuel
    have hne : c ≠ r2 := by
      intro h
      have := (arc_eq_zero_iff hc0 hc hd0 hdN hd).2 h
      rw [this] at harc
      omega
    obtain ⟨fuel, rfl⟩ : ∃ f, fuel = f + 1 := ⟨fuel - 1, by omega⟩
    obtain ⟨⟨hs0, hsN⟩, hs⟩ := arc_step hN hc0 hc hd0 hdN hd hne
    have hstep := ring_allToAll_switch_takeStep_eq t hN hc0 hc hd
    simp only [Ring_AllToAll_Switch.sendLoop, NpuAddress.at, List.getD_cons_zero, hne, ne_eq,
      not_false_eq_true, if_true, hstep, List.set_cons_zero]
    rw [ih fuel _ _ hs0 hsN (by rw [hs, harc]; push_cast; omega) (by omega)]
    simp [addRoutes, arcPath, NpuAddress.at]

/-! ## Ring_AllToAll_Switch: switch path and intra-node path (C10) -/

/-- The ring block of `Ring_AllToAll_Switch::send` from position `r1` to position
`r2` within group `g` of node `n`, with at least `ring_size` iterations allowed. -/
theorem ring_allToAll_switch_ringStage_eq {L : Type} [Add L] (t : Ring_AllToAll_Switch)
    (P : Primitives L) (payload_size : Int) (r1 r2 g2 n2 g n : Int)
    (h10 : 0 ≤ r1) (h1 : r1 < t.ring_size) (h20 : 0 ≤ r2) (h2 : r2 < t.ring_size)
    (fuel : Nat) (hfuel : t.ring_size ≤ fuel) (acc : L) :
    t.ringStage P fuel [r2, g2, n2] payload_size [r1, g, n] acc
      = some ([r2, g, n],
          if r1 ≠ r2 then
            addRoutes P payload_size (acc + P.serialize payload_size 0 + P.nicLatency 0)
              ((arcPath t.ring_size (t.computeDirection r1 r2)
                  ((t.computeDirection r1 r2 * (r2 - r1)) % t.ring_size).toNat r1).map
                (fun hop => (t.npuAddressToId [hop.1, g, n], t.npuAddressToId [hop.2, g, n])))
              + P.nicLatency 0
          else acc) := by
  unfold Ring_AllToAll_Switch.ringStage
  by_cases hne : r1 = r2
  · simp [NpuAddress.at, hne]
  · have hk0 := Int.emod_nonneg (t.computeDirection r1 r2 * (r2 - r1))
      (show t.ring_size ≠ 0 by omega)
    have hk1 := Int.emod_lt_of_pos (t.computeDirection r1 r2 * (r2 - r1))
      (show 0 < t.ring_size by omega)
    simp only [NpuAddress.at, List.getD_cons_zero, ne_eq, hne, not_false_eq_true, if_true]
    rw [ring_allToAll_switch_sendLoop_eq t P _ payload_size r2 g2 n2 g n (by omega)
      (ring_allToAll_switch_computeDirection_cases t r1 r2) h20 h2
      ((t.computeDirection r1 r2 * (r2 - r1)) % t.ring_size).toNat fuel r1 _ h10 h1
      (by omega) (by omega)]

/-- Adding call logs appends them. -/
theorem callLog_add_calls (a b : CallLog) : (a + b).calls = a.calls ++ b.calls := rfl

/-- The zero call log is empty. -/
theorem callLog_zero_calls : (0 : CallLog).calls = [] := rfl

/-- `Ring_AllToAll_Switch::send` between distinct valid ids of one node, for any cost
model: the ring stage from `(r1, g1, n)` to `(r2, g1, n)` followed by the all-to-all
stage to `(r2, g2, n)`. -/
theorem ring_allToAll_switch_send_same_node {L : Type} [Zero L] [Add L]
    (t : Ring_AllToAll_Switch) (P : Primitives L) (src dest payload_size : Int)
    (hs0 : 0 ≤ src) (hs : src < t.packages_count)
    (hd0 : 0 ≤ dest) (hd : dest < t.packages_count) (hne : src ≠ dest)
    (r1 g1 r2 g2 n : Int) (ha1 : t.npuIdToAddress src = [r1, g1, n])
    (ha2 : t.npuIdToAddress dest = [r2, g2, n])
    (h10 : 0 ≤ r1) (h1 : r1 < t.ring_size) (h20 : 0 ≤ r2) (h2 : r2 < t.ring_size)
    (fuel : Nat) (hfuel : t.ring_size ≤ fuel) :
    t.send P fuel src dest payload_size
      = .ok (P.criticalLatency
          (t.allToAllStage P dest [r2, g2, n] payload_size [r2, g1, n]
            (if r1 ≠ r2 then
              addRoutes P payload_size (0 + P.serialize payload_size 0 + P.nicLatency 0)
                ((arcPath t.ring_size (t.computeDirection r1 r2)
                    ((t.computeDirection r1 r2 * (r2 - r1)) % t.ring_size).toNat r1).map
                  (fun hop =>
                    (t.npuAddressToId [hop.1, g1, n], t.npuAddressToId [hop.2, g1, n])))
                + P.nicLatency 0
            else 0))
          (P.hbmLatency payload_size 0)) := by
  unfold Ring_AllToAll_Switch.send Ring_AllToAll_Switch.linkLatency
  simp only [hs0, hs, hd0, hd, hne, and_self, not_true, if_false, ha1, ha2, NpuAddress.at,
    List.getD_cons_zero, List.getD_cons_succ, ne_eq]
  rw [ring_allToAll_switch_ringStage_eq t P payload_size r1 r2 g2 n g1 n h10 h1 h20 h2 fuel
    hfuel]

/-- The values of an upward `for` loop are the integers from `lo` up to `hi - 1`. -/
theorem mem_forUp {lo hi x : Int} : x ∈ forUp lo hi ↔ lo ≤ x ∧ x < hi := by
  simp only [forUp, List.mem_map, List.mem_range]
  constructor
  · rintro ⟨k, hk, rfl⟩
    omega
  · rintro ⟨h1, h2⟩
    exact ⟨(x - lo).toNat, by omega, by omega⟩

/-- The values of a downward `for` loop are the integers from `hi` down to `lo + 1`. -/
theorem mem_forDown {hi lo x : Int} : x ∈ forDown hi lo ↔ lo < x ∧ x ≤ hi := by
  simp only [forDown, List.mem_map, List.mem_range]
  constructor
  · rintro ⟨k, hk, rfl⟩
    omega
  · rintro ⟨h1, h2⟩
    exact ⟨(hi - x).toNat, by omega, by omega⟩

/-- The edges of `Switch::Switch`: every package to the switch and back, on dimension 0. -/
theorem switch_mem_connections (t : Switch) (c : Connection) :
    c ∈ t.connections ↔
      ∃ i, (0 ≤ i ∧ i < t.packages_count) ∧
        (c = ⟨i, t.switch_id, 0⟩ ∨ c = ⟨t.switch_id, i, 0⟩) := by
  simp [Switch.connections, List.mem_flatMap, mem_forUp]

/-- C11: in Switch with N packages, for distinct valid ids, `send` makes exactly the two
hops src → switch_id and switch_id → dest with switch_id = N, adds one routerLatency(0),
one serialize(s,0) and two nicLatency(0) terms, and returns criticalLatency of that sum
and hbmLatency(s,0); both hops are dimension-0 edges the constructor created. -/
theorem switch_send_two_hops {C L : Type} [Zero L] [Add L] (P : Primitives L)
    (cfgs : List (TopologyConfiguration C)) (t : Switch) (hnew : Switch.new cfgs = .ok t)
    (src dest payload_size : Int)
    (hs0 : 0 ≤ src) (hs : src < t.packages_count)
    (hd0 : 0 ≤ dest) (hd : dest < t.packages_count) (hne : src ≠ dest) :
    t.switch_id = t.packages_count ∧
    t.send P src dest payload_size
      = .ok (P.criticalLatency
          (P.serialize payload_size 0 + P.nicLatency 0 + P.route src t.switch_id payload_size
            + P.routerLatency 0 + P.route t.switch_id dest payload_size + P.nicLatency 0)
          (P.hbmLatency payload_size 0)) ∧
    t.send callLog src dest payload_size
      = .ok ⟨[.serialize payload_size 0, .nicLatency 0, .route src t.switch_id payload_size,
          .routerLatency 0, .route t.switch_id dest payload_size, .nicLatency 0,
          .hbmLatency payload_size 0]⟩ ∧
    (⟨src, t.switch_id, 0⟩ : Connection) ∈ t.connections ∧
    (⟨t.switch_id, dest, 0⟩ : Connection) ∈ t.connections := by
  refine ⟨switch_new_members hnew, ?_, ?_, ?_, ?_⟩
  · simp [Switch.send, hs0, hs, hd0, hd, hne]
  · simp [Switch.send, hs0, hs, hd0, hd, hne]
    rfl
  · exact (switch_mem_connections t _).2 ⟨src, ⟨hs0, hs⟩, Or.inl rfl⟩
  · exact (switch_mem_connections t _).2 ⟨dest, ⟨hd0, hd⟩, Or.inr rfl⟩

/-- Witness of C11: from 0 to 2 on the Switch built for three packages. -/
theorem switch_send_two_hops_witness :
    Switch.new [sampleConfiguration 3 []] = .ok (Switch.mk 3 3) ∧ (0 : Int) ≠ 2 ∧
    (Switch.mk 3 3).send callLog 0 2 64
      = .ok ⟨[.serialize 64 0, .nicLatency 0, .route 0 3 64, .routerLatency 0, .route 3 2 64,
          .nicLatency 0, .hbmLatency 64 0]⟩ :=
  ⟨rfl, by decide,
    (switch_send_two_hops samplePrimitives [sampleConfiguration 3 []] (Switch.mk 3 3) rfl 0 2 64
      (by decide) (by decide) (by decide) (by decide) (by decide)).2.2.1⟩

/-- The edges of `AllToAll::AllToAll`: the ordered pairs of distinct packages, on
dimension 0. -/
theorem allToAll_mem_connections (t : AllToAll) (c : Connection) :
    c ∈ t.connections ↔
      c.dimension = 0 ∧ (0 ≤ c.src ∧ c.src < t.packages_count) ∧
        (0 ≤ c.dest ∧ c.dest < t.packages_count) ∧ c.src ≠ c.dest := by
  simp only [AllToAll.connections, List.mem_flatMap, mem_forUp, List.mem_cons,
    List.mem_singleton, List.not_mem_nil, or_false]
  constructor
  · rintro ⟨n1, ⟨h1, h2⟩, n2, ⟨h3, h4⟩, rfl | rfl⟩ <;> dsimp only <;>
      exact ⟨rfl, ⟨by omega, by omega⟩, ⟨by omega, by omega⟩, by omega⟩
  · obtain ⟨u, v, d⟩ := c
    rintro ⟨hd, ⟨h1, h2⟩, ⟨h3, h4⟩, hne⟩
    simp only at hd h1 h2 h3 h4 hne
    subst hd
    rcases Int.lt_or_gt_of_ne hne with h | h
    · exact ⟨u, ⟨h1, by omega⟩, v, ⟨by omega, h4⟩, Or.inl rfl⟩
    · exact ⟨v, ⟨h3, by omega⟩, u, ⟨by omega, h2⟩, Or.inr rfl⟩

/-- C12: in AllToAll with N packages, the constructor creates a dimension-0 edge (u, v)
for exactly the ordered pairs of distinct ids of [0, N), and for distinct valid ids
`send` returns criticalLatency(serialize(s,0) + nicLatency(0) + route(src, dest, s) +
nicLatency(0), hbmLatency(s,0)), which under commutative exact arithmetic is
criticalLatency(serialize(s,0) + 2*nicLatency(0) + route(src, dest, s), hbmLatency(s,0)):
one hop, over the direct edge. -/
theorem allToAll_edges_and_send {L : Type} [Zero L] [Add L] (P : Primitives L)
    {K : Type} [CommSemiring K] (Q : Primitives K) (t : AllToAll)
    (src dest payload_size : Int)
    (hs0 : 0 ≤ src) (hs : src < t.packages_count)
    (hd0 : 0 ≤ dest) (hd : dest < t.packages_count) (hne : src ≠ dest) :
    (∀ u v : Int, ∀ d : Nat, (⟨u, v, d⟩ : Connection) ∈ t.connections ↔
      d = 0 ∧ (0 ≤ u ∧ u < t.packages_count) ∧ (0 ≤ v ∧ v < t.packages_count) ∧ u ≠ v) ∧
    t.send P src dest payload_size
      = .ok (P.criticalLatency
          (P.serialize payload_size 0 + P.nicLatency 0 + P.route src dest payload_size
            + P.nicLatency 0)
          (P.hbmLatency payload_size 0)) ∧
    t.send Q src dest payload_size
      = .ok (Q.criticalLatency
          (Q.serialize payload_size 0 + 2 * Q.nicLatency 0 + Q.route src dest payload_size)
          (Q.hbmLatency payload_size 0)) ∧
    t.send callLog src dest payload_size
      = .ok ⟨[.serialize payload_size 0, .nicLatency 0, .route src dest payload_size,
          .nicLatency 0, .hbmLatency payload_size 0]⟩ ∧
    (⟨src, dest, 0⟩ : Connection) ∈ t.connections := by
  refine ⟨fun u v d => allToAll_mem_connections t _, ?_, ?_, ?_, ?_⟩
  · simp [AllToAll.send, hs0, hs, hd0, hd, hne]
  · simp only [AllToAll.send, hs0, hs, hd0, hd, hne, and_self, not_true, if_false]
    congr 2
    ring
  · simp [AllToAll.send, hs0, hs, hd0, hd, hne]
    rfl
  · exact (allToAll_mem_connections t _).2 ⟨rfl, ⟨hs0, hs⟩, ⟨hd0, hd⟩, hne⟩

/-- Witness of C12: from 0 to 2 in the AllToAll of three packages, with the sample
primitives. -/
theorem allToAll_edges_and_send_witness :
    (0 : Int) ≠ 2 ∧
    (AllToAll.mk 3).send samplePrimitives 0 2 50
      = .ok (samplePrimitives.criticalLatency
          (samplePrimitives.serialize 50 0 + 2 * samplePrimitives.nicLatency 0
            + samplePrimitives.route 0 2 50)
          (samplePrimitives.hbmLatency 50 0)) :=
  ⟨by decide,
    (allToAll_edges_and_send callLog samplePrimitives (AllToAll.mk 3) 0 2 50
      (by decide) (by decide) (by decide) (by decide) (by decide)).2.2.1⟩

/-! ## Torus2D addresses and constructor checks (C13, C15, C20) -/

/-- C13 (amended): for Torus2D of width W ≥ 1, the address of an id is the single
coordinate [id] and `npuAddressToId` returns the first coordinate of an address, so
the two are mutual inverses; the pair (row, col) = (id div W, id mod W) of a
non-negative id is what `idToRowCol` computes, and `rowColToId` maps (row, col) back
to row*W + col. -/
theorem torus2D_address (t : Torus2D) (hW : 1 ≤ t.width) (id : Int) (h0 : 0 ≤ id) :
    t.npuIdToAddress id = [id] ∧
    (∀ (a : Int) (rest : List Int), t.npuAddressToId (a :: rest) = a) ∧
    t.npuAddressToId (t.npuIdToAddress id) = id ∧
    t.idToRowCol id = (id / t.width, id % t.width) ∧
    (∀ row col : Int, t.rowColToId row col = row * t.width + col) ∧
    t.rowColToId (t.idToRowCol id).1 (t.idToRowCol id).2 = id := by
  have hrc : t.idToRowCol id = (id / t.width, id % t.width) := by
    simp only [Torus2D.idToRowCol]
    rw [Int.tdiv_eq_ediv h0 (by omega), Int.tmod_eq_emod h0 (by omega)]
  refine ⟨rfl, fun a rest => rfl, rfl, hrc, fun row col => rfl, ?_⟩
  rw [hrc]
  simp only [Torus2D.rowColToId]
  have := Int.ediv_add_emod id t.width
  linarith [Int.mul_comm t.width (id / t.width)]

/-- Witness of C13 (amended): id 6 of the torus of width 4 and height 3. -/
theorem torus2D_address_witness :
    (1 : Int) ≤ 4 ∧ (0 : Int) ≤ 6 ∧
    (Torus2D.mk 4 2 3 1 12).npuIdToAddress 6 = [6] ∧
    (Torus2D.mk 4 2 3 1 12).idToRowCol 6 = (6 / 4, 6 % 4) :=
  ⟨by decide, by decide,
    (torus2D_address (Torus2D.mk 4 2 3 1 12) (by decide) 6 (by decide)).1,
    (torus2D_address (Torus2D.mk 4 2 3 1 12) (by decide) 6 (by decide)).2.2.2.1⟩

/-- Counterexample to C13 as stated: in the torus of width 4 and height 3 the address
of id 6 is [6], not (row, col) = [1, 2], and `npuAddressToId` maps [1, 2] to 1, not
to 1*4 + 2. -/
theorem torus2D_address_is_flat :
    Torus2D.new [sampleConfiguration 12 [4, 3]] = .ok (Torus2D.mk 4 2 3 1 12) ∧
    (Torus2D.mk 4 2 3 1 12).npuIdToAddress 6 = [6] ∧
    (Torus2D.mk 4 2 3 1 12).npuIdToAddress 6 ≠ [6 / 4, 6 % 4] ∧
    (Torus2D.mk 4 2 3 1 12).npuAddressToId [1, 2] = 1 ∧
    (Torus2D.mk 4 2 3 1 12).npuAddressToId [1, 2] ≠ 1 * 4 + 2 := by
  decide

/-- C15: constructing a Torus2D whose shape configs are [width, height] and whose
packages_count is P fails the constructor assertion if and only if
width * height ≠ P, the product being the 32-bit `int` product the constructor
computes; otherwise the construction succeeds.  For every shape whose product fits a
32-bit `int` that is: if and only if the exact product differs from P. -/
theorem torus2D_new_fails_iff {L : Type} (c0 : TopologyConfiguration L)
    (rest : List (TopologyConfiguration L)) (width height : Int)
    (hshape : c0.shape_configs = [width, height]) :
    (Torus2D.new (c0 :: rest) = .assertFailed ↔
      wrapInt32 (width * height) ≠ c0.packages_count) ∧
    (wrapInt32 (width * height) = c0.packages_count →
      Torus2D.new (c0 :: rest)
        = .ok { packages_count := c0.packages_count, width := width,
                half_width := Int.tdiv width 2, height := height,
                half_height := Int.tdiv height 2 }) ∧
    (-2147483648 ≤ width * height ∧ width * height ≤ 2147483647 →
      (Torus2D.new (c0 :: rest) = .assertFailed ↔ width * height ≠ c0.packages_count) ∧
      (width * height = c0.packages_count →
        Torus2D.new (c0 :: rest)
          = .ok { packages_count := c0.packages_count, width := width,
                  half_width := Int.tdiv width 2, height := height,
                  half_height := Int.tdiv height 2 })) := by
  have hmain : (Torus2D.new (c0 :: rest) = .assertFailed ↔
        wrapInt32 (width * height) ≠ c0.packages_count) ∧
      (wrapInt32 (width * height) = c0.packages_count →
        Torus2D.new (c0 :: rest)
          = .ok { packages_count := c0.packages_count, width := width,
                  half_width := Int.tdiv width 2, height := height,
                  half_height := Int.tdiv height 2 }) := by
    simp only [Torus2D.new, hshape]
    by_cases h : wrapInt32 (width * height) = c0.packages_count <;> simp [h]
  refine ⟨hmain.1, hmain.2, ?_⟩
  intro hfits
  have hw := wrapInt32_of_fits hfits.1 hfits.2
  rw [hw] at hmain
  exact hmain

/-- Witness of C15: shape [4, 3] with 12 packages is accepted, with 10 packages it
is refused; 4 * 3 fits a 32-bit `int`. -/
theorem torus2D_new_fails_iff_witness :
    (sampleConfiguration 10 [4, 3]).shape_configs = [4, 3] ∧
    (-2147483648 ≤ (4 : Int) * 3 ∧ (4 : Int) * 3 ≤ 2147483647) ∧
    (Torus2D.new [sampleConfiguration 10 [4, 3]] = .assertFailed ↔
      (4 : Int) * 3 ≠ (sampleConfiguration 10 [4, 3]).packages_count) ∧
    Torus2D.new [sampleConfiguration 10 [4, 3]] = .assertFailed ∧
    Torus2D.new [sampleConfiguration 12 [4, 3]] = .ok (Torus2D.mk 4 2 3 1 12) :=
  ⟨rfl, by decide,
    ((torus2D_new_fails_iff (sampleConfiguration 10 [4, 3]) [] 4 3 rfl).2.2 (by decide)).1,
    by decide, by decide⟩

/-- Where the 32-bit product wraps, the constructor compares the wrapped value:
shape [65536, 65537] (exact product 2^32 + 65536) is accepted with 65536 packages,
and shape [-2, -2147483648] (exact product 2^32) with 0 packages. -/
theorem torus2D_new_wrapping_shapes :
    Torus2D.new [sampleConfiguration 65536 [65536, 65537]]
      = .ok (Torus2D.mk 65536 32768 65537 32768 65536) ∧
    Torus2D.new [sampleConfiguration 0 [-2, -2147483648]]
      = .ok (Torus2D.mk (-2) (-1) (-2147483648) (-1073741824) 0) := by
  decide

/-- C20 (amended): no constructor checks the length of the configuration list.  A
list longer than the variant expects is accepted and the extra configurations are
ignored: the result is that of the first 1 (AllToAll, Ring, Switch, Torus2D), 2
(Ring_AllToAll) or 3 (Ring_AllToAll_Switch) configurations.  A shorter list makes the
constructor read a configuration that the list does not hold; no assertion guards
the read.  None of AllToAll, Ring, Switch, Ring_AllToAll and Ring_AllToAll_Switch
ever fails an assertion. -/
theorem constructors_ignore_list_length {L : Type} (c0 c1 c2 : TopologyConfiguration L)
    (rest cfgs : List (TopologyConfiguration L)) :
    (AllToAll.new (c0 :: rest) = AllToAll.new [c0] ∧
      Ring.new (c0 :: rest) = Ring.new [c0] ∧
      Switch.new (c0 :: rest) = Switch.new [c0] ∧
      Torus2D.new (c0 :: rest) = Torus2D.new [c0] ∧
      Ring_AllToAll.new (c0 :: c1 :: rest) = Ring_AllToAll.new [c0, c1] ∧
      Ring_AllToAll_Switch.new (c0 :: c1 :: c2 :: rest)
        = Ring_AllToAll_Switch.new [c0, c1, c2]) ∧
    ((AllToAll.new ([] : List (TopologyConfiguration L)) = .undefinedRead ∧
      Ring.new ([] : List (TopologyConfiguration L)) = .undefinedRead ∧
      Switch.new ([] : List (TopologyConfiguration L)) = .undefinedRead ∧
      Torus2D.new ([] : List (TopologyConfiguration L)) = .undefinedRead) ∧
      (Ring_AllToAll.new ([] : List (TopologyConfiguration L)) = .undefinedRead ∧
        Ring_AllToAll.new [c0] = .undefinedRead) ∧
      (Ring_AllToAll_Switch.new ([] : List (TopologyConfiguration L)) = .undefinedRead ∧
        Ring_AllToAll_Switch.new [c0] = .undefinedRead ∧
        Ring_AllToAll_Switch.new [c0, c1] = .undefinedRead)) ∧
    (AllToAll.new cfgs ≠ .assertFailed ∧ Ring.new cfgs ≠ .assertFailed ∧
      Switch.new cfgs ≠ .assertFailed ∧ Ring_AllToAll.new cfgs ≠ .assertFailed ∧
      Ring_AllToAll_Switch.new cfgs ≠ .assertFailed) := by
  refine ⟨⟨rfl, rfl, rfl, rfl, rfl, rfl⟩, ⟨⟨rfl, rfl, rfl, rfl⟩, ⟨rfl, rfl⟩, rfl, rfl, rfl⟩,
    ?_, ?_, ?_, ?_, ?_⟩
  · unfold AllToAll.new; split <;> simp
  · unfold Ring.new; split <;> (try split) <;> simp
  · unfold Switch.new; split <;> simp
  · unfold Ring_AllToAll.new; split <;> (try split) <;> simp
  · unfold Ring_AllToAll_Switch.new; split <;> (try split) <;> simp

/-- Counterexample to C20 as stated: a Switch built from two configurations (one
more than the single dimension it expects) is constructed, and a Ring_AllToAll
built from one configuration (one fewer than expected) ends in the read of a
missing configuration, not in a failed assertion. -/
theorem constructor_accepts_extra_configuration :
    Switch.new [sampleConfiguration 3 [], sampleConfiguration 2 []] = .ok (Switch.mk 3 3) ∧
    Switch.new [sampleConfiguration 3 [], sampleConfiguration 2 []] ≠ .assertFailed ∧
    Ring_AllToAll.new [sampleConfiguration 3 [1]] = .undefinedRead ∧
    Ring_AllToAll.new [sampleConfiguration 3 [1]] ≠ .assertFailed := by
  decide

/-! ## Facts about reference paths -/

/-- Hops that lead from `a` to `b` followed by hops that lead from `b` to `c` lead
from `a` to `c`. -/
theorem isPath_append {b c : Int} : ∀ (l1 l2 : List (Int × Int)) (a : Int),
    IsPath a l1 b → IsPath b l2 c → IsPath a (l1 ++ l2) c := by
  intro l1
  induction l1 with
  | nil => intro l2 a h1 h2; simp only [IsPath] at h1; subst h1; simpa using h2
  | cons hop l1 ih =>
    intro l2 a h1 h2
    simp only [IsPath, List.cons_append] at h1 ⊢
    exact ⟨h1.1, ih l2 _ h1.2 h2⟩

/-- Renaming the nodes of a path renames its ends. -/
theorem isPath_map (f : Int → Int) {b : Int} : ∀ (l : List (Int × Int)) (a : Int),
    IsPath a l b → IsPath (f a) (l.map (fun hop => (f hop.1, f hop.2))) (f b) := by
  intro l
  induction l with
  | nil => intro a h; simp only [IsPath] at h; subst h; simp [IsPath]
  | cons hop l ih =>
    intro a h
    simp only [IsPath, List.map_cons] at h ⊢
    exact ⟨by rw [h.1], ih _ h.2⟩

/-- The path of a traversal that is `k` steps away from `dest`: it leads from the
start to `dest`, every hop starts on the ring at a position other than `dest` and
ends at the modular neighbour in direction `d`. -/
theorem arcPath_spec {N d dest : Int} (hN : 2 ≤ N) (hd : d = 1 ∨ d = -1)
    (hd0 : 0 ≤ dest) (hdN : dest < N) : ∀ (k : Nat) (c : Int), 0 ≤ c → c < N →
    (d * (dest - c)) % N = k →
    IsPath c (arcPath N d k c) dest ∧
    ∀ hop ∈ arcPath N d k c,
      (0 ≤ hop.1 ∧ hop.1 < N) ∧ hop.2 = (hop.1 + d) % N ∧ hop.1 ≠ dest := by
  intro k
  induction k with
  | zero =>
    intro c hc0 hc harc
    have hcd : c = dest := (arc_eq_zero_iff hc0 hc hd0 hdN hd).1 (by simpa using harc)
    simp [arcPath, IsPath, hcd]
  | succ k ih =>
    intro c hc0 hc harc
    have hne : c ≠ dest := by
      intro h
      have := (arc_eq_zero_iff hc0 hc hd0 hdN hd).2 h
      rw [this] at harc
      omega
    obtain ⟨⟨hs0, hsN⟩, hs⟩ := arc_step hN hc0 hc hd0 hdN hd hne
    obtain ⟨ih1, ih2⟩ := ih _ hs0 hsN (by rw [hs, harc]; push_cast; omega)
    refine ⟨⟨rfl, ih1⟩, ?_⟩
    intro hop hmem
    simp only [arcPath, List.mem_cons] at hmem
    rcases hmem with rfl | hmem
    · exact ⟨⟨hc0, hc⟩, rfl, hne⟩
    · exact ih2 hop hmem

/-- The hops of a traversal between two positions of a ring (`arcHops`): they lead
from `src` to `dest`, and every hop starts on the ring at a position other than
`dest` and ends at the modular neighbour in direction `d`. -/
theorem arcHops_spec {N d src dest : Int} (hN : 1 ≤ N) (hd : d = 1 ∨ d = -1)
    (hs0 : 0 ≤ src) (hsN : src < N) (hd0 : 0 ≤ dest) (hdN : dest < N) :
    IsPath src (arcHops N d src dest) dest ∧
    ∀ hop ∈ arcHops N d src dest,
      (0 ≤ hop.1 ∧ hop.1 < N) ∧ hop.2 = (hop.1 + d) % N ∧ hop.1 ≠ dest := by
  by_cases h : src = dest
  · subst h
    have : (d * (src - src)) % N = 0 := by simp
    simp [arcHops, this, arcPath, IsPath]
  · have hk0 := Int.emod_nonneg (d * (dest - src)) (show N ≠ 0 by omega)
    exact arcPath_spec (by omega) hd hd0 hdN _ src hs0 hsN (by omega)

/-- The hops of a traversal from a position to itself: none. -/
theorem arcHops_self (N d c : Int) : arcHops N d c c = [] := by
  simp [arcHops, arcPath]

/-! ## Torus2D: the two loops -/

/-- `Torus2D::takeStep` on a ring of at least two positions. -/
theorem torus2D_takeStep_eq (t : Torus2D) {N c d : Int}
    (hN : 2 ≤ N) (hc0 : 0 ≤ c) (hc : c < N) (hd : d = 1 ∨ d = -1) :
    t.takeStep c d N = (c + d) % N :=
  takeStep_body_eq hN hc0 hc hd

/-- `Torus2D::computeDirection` returns `+1` or `-1`. -/
theorem torus2D_computeDirection_cases (t : Torus2D) (src dest half : Int) :
    t.computeDirection src dest half = 1 ∨ t.computeDirection src dest half = -1 := by
  unfold Torus2D.computeDirection
  split
  · simp only []; split <;> simp
  · simp only []; split <;> simp

/-- The column loop of `Torus2D::send`, started at column `c` at arc length `k` from
the target column. -/
theorem torus2D_colLoop_eq {L : Type} [Add L] (t : Torus2D) (P : Primitives L)
    (d src_row dest_col payload_size : Int) (hN : 2 ≤ t.width) (hd : d = 1 ∨ d = -1)
    (hd0 : 0 ≤ dest_col) (hdN : dest_col < t.width) :
    ∀ (k fuel : Nat) (c : Int) (acc : L), 0 ≤ c → c < t.width →
      (d * (dest_col - c)) % t.width = k → k ≤ fuel →
      Torus2D.colLoop t P d src_row dest_col payload_size fuel c acc
        = some (addRoutes P payload_size acc
            ((arcPath t.width d k c).map
              (fun hop => (t.rowColToId src_row hop.1, t.rowColToId src_row hop.2)))) := by
  intro k
  induction k with
  | zero =>
    intro fuel c acc hc0 hc harc _
    have hcd : c = dest_col := (arc_eq_zero_iff hc0 hc hd0 hdN hd).1 (by simpa using harc)
    cases fuel <;> simp [Torus2D.colLoop, hcd, addRoutes, arcPath]
  | succ k ih =>
    intro fuel c acc hc0 hc harc hfuel
    have hne : c ≠ dest_col := by
      intro h
      have := (arc_eq_zero_iff hc0 hc hd0 hdN hd).2 h
      rw [this] at harc
      omega
    obtain ⟨fuel, rfl⟩ : ∃ f, fuel = f + 1 := ⟨fuel - 1, by omega⟩
    obtain ⟨⟨hs0, hsN⟩, hs⟩ := arc_step hN hc0 hc hd0 hdN hd hne
    have hstep := torus2D_takeStep_eq t hN hc0 hc hd
    simp only [Torus2D.colLoop, hne, ne_eq, not_false_eq_true, if_true, hstep]
    rw [ih fuel _ _ hs0 hsN (by rw [hs, harc]; push_cast; omega) (by omega)]
    simp [addRoutes, arcPath]

/-- The row loop of `Torus2D::send`, started at row `c` at arc length `k` from the
target row. -/
theorem torus2D_rowLoop_eq {L : Type} [Add L] (t : Torus2D) (P : Primitives L)
    (d dest_row dest_col payload_size : Int) (hN : 2 ≤ t.height) (hd : d = 1 ∨ d = -1)
    (hd0 : 0 ≤ dest_row) (hdN : dest_row < t.height) :
    ∀ (k fuel : Nat) (c : Int) (acc : L), 0 ≤ c → c < t.height →
      (d * (dest_row - c)) % t.height = k → k ≤ fuel →
      Torus2D.rowLoop t P d dest_row dest_col payload_size fuel c acc
        = some (addRoutes P payload_size acc
            ((arcPath t.height d k c).map
              (fun hop => (t.rowColToId hop.1 dest_col, t.rowColToId hop.2 dest_col)))) := by
  intro k
  induction k with
  | zero =>
    intro fuel c acc hc0 hc harc _
    have hcd : c = dest_row := (arc_eq_zero_iff hc0 hc hd0 hdN hd).1 (by simpa using harc)
    cases fuel <;> simp [Torus2D.rowLoop, hcd, addRoutes, arcPath]
  | succ k ih =>
    intro fuel c acc hc0 hc harc hfuel
    have hne : c ≠ dest_row := by
      intro h
      have := (arc_eq_zero_iff hc0 hc hd0 hdN hd).2 h
      rw [this] at harc
      omega
    obtain ⟨fuel, rfl⟩ : ∃ f, fuel = f + 1 := ⟨fuel - 1, by omega⟩
    obtain ⟨⟨hs0, hsN⟩, hs⟩ := arc_step hN hc0 hc hd0 hdN hd hne
    have hstep := torus2D_takeStep_eq t hN hc0 hc hd
    simp only [Torus2D.rowLoop, hne, ne_eq, not_false_eq_true, if_true, hstep]
    rw [ih fuel _ _ hs0 hsN (by rw [hs, harc]; push_cast; omega) (by omega)]
    simp [addRoutes, arcPath]

/-- The column block of `Torus2D::send`, with at least `width` iterations allowed. -/
theorem torus2D_colStage_eq {L : Type} [Add L] (t : Torus2D) (P : Primitives L)
    (src_row src_col dest_col payload_size : Int)
    (hs0 : 0 ≤ src_col) (hs : src_col < t.width) (hd0 : 0 ≤ dest_col)
    (hd : dest_col < t.width) (fuel : Nat) (hfuel : t.width ≤ fuel) (acc : L) :
    t.colStage P fuel src_row src_col dest_col payload_size acc
      = some (addRoutes P payload_size acc (t.colHops src_row src_col dest_col)) := by
  unfold Torus2D.colStage Torus2D.colHops
  by_cases hne : src_col = dest_col
  · subst hne
    simp [arcHops_self, addRoutes]
  · have hk0 := Int.emod_nonneg
      (t.computeDirection src_col dest_col t.half_width * (dest_col - src_col))
      (show t.width ≠ 0 by omega)
    have hk1 := Int.emod_lt_of_pos
      (t.computeDirection src_col dest_col t.half_width * (dest_col - src_col))
      (show 0 < t.width by omega)
    simp only [ne_eq, hne, not_false_eq_true, if_true, arcHops]
    exact torus2D_colLoop_eq t P _ src_row dest_col payload_size (by omega)
      (torus2D_computeDirection_cases t _ _ _) hd0 hd _ fuel src_col acc hs0 hs
      (by omega) (by omega)

/-- The row block of `Torus2D::send`, with at least `height` iterations allowed. -/
theorem torus2D_rowStage_eq {L : Type} [Add L] (t : Torus2D) (P : Primitives L)
    (src_row dest_row dest_col payload_size : Int)
    (hs0 : 0 ≤ src_row) (hs : src_row < t.height) (hd0 : 0 ≤ dest_row)
    (hd : dest_row < t.height) (fuel : Nat) (hfuel : t.height ≤ fuel) (acc : L) :
    t.rowStage P fuel src_row dest_row dest_col payload_size acc
      = some (addRoutes P payload_size acc (t.rowHops src_row dest_row dest_col)) := by
  unfold Torus2D.rowStage Torus2D.rowHops
  by_cases hne : src_row = dest_row
  · subst hne
    simp [arcHops_self, addRoutes]
  · have hk0 := Int.emod_nonneg
      (t.computeDirection src_row dest_row t.half_height * (dest_row - src_row))
      (show t.height ≠ 0 by omega)
    have hk1 := Int.emod_lt_of_pos
      (t.computeDirection src_row dest_row t.half_height * (dest_row - src_row))
      (show 0 < t.height by omega)
    simp only [ne_eq, hne, not_false_eq_true, if_true, arcHops]
    exact torus2D_rowLoop_eq t P _ dest_row dest_col payload_size (by omega)
      (torus2D_computeDirection_cases t _ _ _) hd0 hd _ fuel src_row acc hs0 hs
      (by omega) (by omega)

/-- Row and column of a valid id of a `width × height` torus. -/
theorem torus2D_coordinates (t : Torus2D) (hW : 1 ≤ t.width) (id : Int) (h0 : 0 ≤ id)
    (hlt : id < t.width * t.height) :
    ∃ row col : Int, t.idToRowCol id = (row, col) ∧ (0 ≤ row ∧ row < t.height) ∧
      (0 ≤ col ∧ col < t.width) ∧ id = t.rowColToId row col := by
  refine ⟨id / t.width, id % t.width, ?_, ⟨Int.ediv_nonneg h0 (by omega), ?_⟩,
    ⟨Int.emod_nonneg _ (by omega), Int.emod_lt_of_pos _ (by omega)⟩, ?_⟩
  · simp only [Torus2D.idToRowCol]
    rw [Int.tdiv_eq_ediv h0 (by omega), Int.tmod_eq_emod h0 (by omega)]
  · apply Int.ediv_lt_of_lt_mul (by omega)
    rw [Int.mul_comm]
    exact hlt
  · simp only [Torus2D.rowColToId]
    have := Int.ediv_add_emod id t.width
    linarith [Int.mul_comm t.width (id / t.width)]

/-- Row and column of the id of a cell. -/
theorem torus2D_idToRowCol_rowColToId (t : Torus2D) (row col : Int) (hr : 0 ≤ row)
    (hc0 : 0 ≤ col) (hc : col < t.width) :
    t.idToRowCol (t.rowColToId row col) = (row, col) := by
  have hid0 : 0 ≤ row * t.width + col := by
    have := Int.mul_nonneg hr (show 0 ≤ t.width by omega)
    omega
  simp only [Torus2D.idToRowCol, Torus2D.rowColToId]
  rw [Int.tdiv_eq_ediv hid0 (by omega), Int.tmod_eq_emod hid0 (by omega),
    Int.add_comm (row * t.width) col, Int.add_mul_ediv_right _ _ (by omega),
    Int.add_mul_emod_self, Int.ediv_eq_zero_of_lt hc0 hc, Int.emod_eq_of_lt hc0 hc]
  simp

/-- `Torus2D::send` between distinct valid ids, for any cost model: serialize and
NIC, the hops of the column stage, the hops of the row stage, NIC, combined with
the HBM latency. -/
theorem torus2D_send_eq {L : Type} [Zero L] [Add L] (t : Torus2D) (P : Primitives L)
    (src dest payload_size : Int) (hs0 : 0 ≤ src) (hs : src < t.packages_count)
    (hd0 : 0 ≤ dest) (hd : dest < t.packages_count) (hne : src ≠ dest)
    (r1 c1 r2 c2 : Int) (ha1 : t.idToRowCol src = (r1, c1)) (ha2 : t.idToRowCol dest = (r2, c2))
    (hr1 : 0 ≤ r1 ∧ r1 < t.height) (hc1 : 0 ≤ c1 ∧ c1 < t.width)
    (hr2 : 0 ≤ r2 ∧ r2 < t.height) (hc2 : 0 ≤ c2 ∧ c2 < t.width)
    (fuel : Nat) (hfuelW : t.width ≤ fuel) (hfuelH : t.height ≤ fuel) :
    t.send P fuel src dest payload_size
      = .ok (P.criticalLatency
          (addRoutes P payload_size
              (addRoutes P payload_size (P.serialize payload_size 0 + P.nicLatency 0)
                (t.colHops r1 c1 c2))
              (t.rowHops r1 r2 c2)
            + P.nicLatency 0)
          (P.hbmLatency payload_size 0)) := by
  unfold Torus2D.send
  simp only [hs0, hs, hd0, hd, hne, and_self, not_true, if_false, ha1, ha2]
  rw [torus2D_colStage_eq t P r1 c1 c2 payload_size hc1.1 hc1.2 hc2.1 hc2.2 fuel hfuelW]
  simp only []
  rw [torus2D_rowStage_eq t P r1 r2 c2 payload_size hr1.1 hr1.2 hr2.1 hr2.2 fuel hfuelH]

/-- Under the call log, a walk that starts with serialize and NIC, adds the hops of
two lists and ends with NIC is one stage over the concatenated hops. -/
theorem addRoutes_callLog_stage (payload_size : Int) (dimension : Nat)
    (hops1 hops2 : List (Int × Int)) :
    (addRoutes callLog payload_size
        (addRoutes callLog payload_size
          (callLog.serialize payload_size dimension + callLog.nicLatency dimension) hops1)
        hops2 + callLog.nicLatency dimension).calls
      = stageCalls payload_size dimension (hops1 ++ hops2) := by
  rw [callLog_add_calls, addRoutes_callLog, addRoutes_callLog]
  simp [stageCalls, callLog, callLog_add_calls]

/-! ## Torus2D: dimension-ordered path (C14) -/

/-- What `Torus2D::Torus2D` establishes between the members. -/
theorem torus2D_new_members {L : Type} {cfgs : List (TopologyConfiguration L)}
    {t : Torus2D} (hnew : Torus2D.new cfgs = .ok t) :
    wrapInt32 (t.width * t.height) = t.packages_count ∧
    t.half_width = Int.tdiv t.width 2 ∧ t.half_height = Int.tdiv t.height 2 := by
  unfold Torus2D.new at hnew
  split at hnew
  · exact absurd hnew (by simp)
  · split at hnew
    · split at hnew
      · exact absurd hnew (by simp)
      · next h =>
        injection hnew with h'
        subst h'
        exact ⟨not_not.1 h, rfl, rfl⟩
    · exact absurd hnew (by simp)

/-- A Torus2D built with width and height of at least 1 has no more packages than
grid positions (exactly as many unless the 32-bit product wrapped). -/
theorem torus2D_new_count_le {L : Type} {cfgs : List (TopologyConfiguration L)}
    {t : Torus2D} (hnew : Torus2D.new cfgs = .ok t) (hW : 1 ≤ t.width) (hH : 1 ≤ t.height) :
    t.packages_count ≤ t.width * t.height := by
  obtain ⟨hpk, -, -⟩ := torus2D_new_members hnew
  rw [← hpk]
  exact wrapInt32_le (Int.mul_nonneg (by omega) (by omega))

/-- The hops of the column stage: they lead from `(row, c1)` to `(row, c2)`, stay in
the row, and none starts in column `c2`; each is a step to a neighbouring column. -/
theorem torus2D_colHops_spec (t : Torus2D) (row c1 c2 : Int) (hr : 0 ≤ row)
    (hc1 : 0 ≤ c1 ∧ c1 < t.width) (hc2 : 0 ≤ c2 ∧ c2 < t.width) :
    IsPath (t.rowColToId row c1) (t.colHops row c1 c2) (t.rowColToId row c2) ∧
    ∀ hop ∈ t.colHops row c1 c2, ∃ c d : Int, (d = 1 ∨ d = -1) ∧ (0 ≤ c ∧ c < t.width) ∧
      c ≠ c2 ∧ hop = (t.rowColToId row c, t.rowColToId row ((c + d) % t.width)) ∧
      t.idToRowCol hop.1 = (row, c) ∧ t.idToRowCol hop.2 = (row, (c + d) % t.width) := by
  have hd := torus2D_computeDirection_cases t c1 c2 t.half_width
  obtain ⟨hp, hm⟩ := arcHops_spec (show 1 ≤ t.width by omega) hd hc1.1 hc1.2 hc2.1 hc2.2
  refine ⟨isPath_map (fun c => t.rowColToId row c) _ _ hp, ?_⟩
  intro hop hmem
  simp only [Torus2D.colHops, List.mem_map] at hmem
  obtain ⟨a, ha, rfl⟩ := hmem
  obtain ⟨hr1, hstep, hne⟩ := hm a ha
  have h0 := Int.emod_nonneg (a.1 + t.computeDirection c1 c2 t.half_width)
    (show t.width ≠ 0 by omega)
  have h1 := Int.emod_lt_of_pos (a.1 + t.computeDirection c1 c2 t.half_width)
    (show 0 < t.width by omega)
  refine ⟨a.1, _, hd, hr1, hne, by rw [hstep], ?_, ?_⟩
  · exact torus2D_idToRowCol_rowColToId t row a.1 hr hr1.1 hr1.2
  · simp only [hstep]
    exact torus2D_idToRowCol_rowColToId t row _ hr h0 h1

/-- The hops of the row stage: they lead from `(r1, col)` to `(r2, col)`, stay in
the column, and none starts in row `r2`; each is a step to a neighbouring row. -/
theorem torus2D_rowHops_spec (t : Torus2D) (r1 r2 col : Int)
    (hr1 : 0 ≤ r1 ∧ r1 < t.height) (hr2 : 0 ≤ r2 ∧ r2 < t.height)
    (hc : 0 ≤ col ∧ col < t.width) :
    IsPath (t.rowColToId r1 col) (t.rowHops r1 r2 col) (t.rowColToId r2 col) ∧
    ∀ hop ∈ t.rowHops r1 r2 col, ∃ r d : Int, (d = 1 ∨ d = -1) ∧ (0 ≤ r ∧ r < t.height) ∧
      r ≠ r2 ∧ hop = (t.rowColToId r col, t.rowColToId ((r + d) % t.height) col) ∧
      t.idToRowCol hop.1 = (r, col) ∧ t.idToRowCol hop.2 = ((r + d) % t.height, col) := by
  have hd := torus2D_computeDirection_cases t r1 r2 t.half_height
  obtain ⟨hp, hm⟩ := arcHops_spec (show 1 ≤ t.height by omega) hd hr1.1 hr1.2 hr2.1 hr2.2
  refine ⟨isPath_map (fun r => t.rowColToId r col) _ _ hp, ?_⟩
  intro hop hmem
  simp only [Torus2D.rowHops, List.mem_map] at hmem
  obtain ⟨a, ha, rfl⟩ := hmem
  obtain ⟨hra, hstep, hne⟩ := hm a ha
  have h0 := Int.emod_nonneg (a.1 + t.computeDirection r1 r2 t.half_height)
    (show t.height ≠ 0 by omega)
  refine ⟨a.1, _, hd, hra, hne, by rw [hstep], ?_, ?_⟩
  · exact torus2D_idToRowCol_rowColToId t a.1 col hra.1 hc.1 hc.2
  · simp only [hstep]
    exact torus2D_idToRowCol_rowColToId t _ col h0 hc.1 hc.2

/-- C14: in Torus2D with W, H ≥ 1 and W*H = packages_count, for distinct valid ids
src = (r1, c1) and dest = (r2, c2), `send` returns and its hops are the column hops
followed by the row hops: the column hops lead from src to (r1, c2), stay in row r1
and none starts in column c2; the row hops lead from (r1, c2) to dest, stay in
column c2 and none starts in row r2; together they are one path from src to dest.
The log holds serialize(s,0) once and nicLatency(0) twice, before and after all
hops. -/
theorem torus2D_send_path {C : Type} (cfgs : List (TopologyConfiguration C)) (t : Torus2D)
    (hnew : Torus2D.new cfgs = .ok t) (hW : 1 ≤ t.width) (_hH : 1 ≤ t.height)
    (src dest payload_size : Int) (hs0 : 0 ≤ src) (hs : src < t.packages_count)
    (hd0 : 0 ≤ dest) (hd : dest < t.packages_count) (hne : src ≠ dest)
    (fuel : Nat) (hfuelW : t.width ≤ fuel) (hfuelH : t.height ≤ fuel) :
    ∃ colHops rowHops : List (Int × Int),
      t.send callLog fuel src dest payload_size
        = .ok ⟨[.serialize payload_size 0, .nicLatency 0]
            ++ (colHops ++ rowHops).map (fun hop => Call.route hop.1 hop.2 payload_size)
            ++ [.nicLatency 0, .hbmLatency payload_size 0]⟩ ∧
      IsPath src colHops (t.rowColToId (t.idToRowCol src).1 (t.idToRowCol dest).2) ∧
      IsPath (t.rowColToId (t.idToRowCol src).1 (t.idToRowCol dest).2) rowHops dest ∧
      IsPath src (colHops ++ rowHops) dest ∧
      (∀ hop ∈ colHops,
        (t.idToRowCol hop.1).1 = (t.idToRowCol src).1 ∧
        (t.idToRowCol hop.2).1 = (t.idToRowCol src).1 ∧
        (t.idToRowCol hop.1).2 ≠ (t.idToRowCol dest).2) ∧
      (∀ hop ∈ rowHops,
        (t.idToRowCol hop.1).2 = (t.idToRowCol dest).2 ∧
        (t.idToRowCol hop.2).2 = (t.idToRowCol dest).2 ∧
        (t.idToRowCol hop.1).1 ≠ (t.idToRowCol dest).1) := by
  have hpk := torus2D_new_count_le hnew hW _hH
  obtain ⟨r1, c1, ha1, hr1, hc1, hid1⟩ := torus2D_coordinates t hW src hs0 (lt_of_lt_of_le hs hpk)
  obtain ⟨r2, c2, ha2, hr2, hc2, hid2⟩ := torus2D_coordinates t hW dest hd0 (lt_of_lt_of_le hd hpk)
  obtain ⟨hcp, hcm⟩ := torus2D_colHops_spec t r1 c1 c2 hr1.1 hc1 hc2
  obtain ⟨hrp, hrm⟩ := torus2D_rowHops_spec t r1 r2 c2 hr1 hr2 hc2
  rw [← hid1] at hcp
  rw [← hid2] at hrp
  refine ⟨t.colHops r1 c1 c2, t.rowHops r1 r2 c2, ?_, ?_, ?_, ?_, ?_, ?_⟩
  · rw [torus2D_send_eq t callLog src dest payload_size hs0 hs hd0 hd hne r1 c1 r2 c2 ha1 ha2
      hr1 hc1 hr2 hc2 fuel hfuelW hfuelH]
    show Result.ok (CallLog.mk (_ ++ _)) = _
    rw [addRoutes_callLog_stage]
    simp [stageCalls, callLog]
  · rw [ha1, ha2]; exact hcp
  · rw [ha1, ha2]; exact hrp
  · exact isPath_append _ _ _ hcp hrp
  · intro hop hmem
    obtain ⟨c, d, -, -, hne2, -, h1, h2⟩ := hcm hop hmem
    rw [ha1, ha2, h1, h2]
    exact ⟨rfl, rfl, hne2⟩
  · intro hop hmem
    obtain ⟨r, d, -, -, hne2, -, h1, h2⟩ := hrm hop hmem
    rw [ha2, h1, h2]
    exact ⟨rfl, rfl, hne2⟩

/-- Witness of C14: from id 0 = (0, 0) to id 6 = (1, 2) in the torus of width 4 and
height 3. -/
theorem torus2D_send_path_witness :
    Torus2D.new [sampleConfiguration 12 [4, 3]] = .ok (Torus2D.mk 4 2 3 1 12) ∧ (0 : Int) ≠ 6 ∧
    ∃ colHops rowHops : List (Int × Int),
      (Torus2D.mk 4 2 3 1 12).send callLog 4 0 6 64
        = .ok ⟨[.serialize 64 0, .nicLatency 0]
            ++ (colHops ++ rowHops).map (fun hop => Call.route hop.1 hop.2 64)
            ++ [.nicLatency 0, .hbmLatency 64 0]⟩ ∧
      IsPath 0 (colHops ++ rowHops) 6 :=
  ⟨rfl, by decide,
    match torus2D_send_path [sampleConfiguration 12 [4, 3]] (Torus2D.mk 4 2 3 1 12) rfl
      (by decide) (by decide) 0 6 64 (by decide) (by decide) (by decide) (by decide)
      (by decide) 4 (by decide) (by decide) with
    | ⟨colHops, rowHops, h1, _, _, h4, _⟩ => ⟨colHops, rowHops, h1, h4⟩⟩

/-! ## Ring and Torus2D: every hop is an edge (C16) -/

/-- A step forward on a ring of at least one package is one of its edges. -/
theorem ring_forward_edge (t : Ring) (u : Int) (hu0 : 0 ≤ u) (hu : u < t.packages_count) :
    (⟨u, (u + 1) % t.packages_count, 0⟩ : Connection) ∈ t.connections := by
  simp only [Ring.connections, List.mem_append, List.mem_map, mem_forUp, List.mem_singleton]
  by_cases h : u + 1 = t.packages_count
  · refine Or.inl (Or.inr ?_)
    rw [h, Int.emod_self]
    congr 1
    omega
  · refine Or.inl (Or.inl ⟨u, ⟨hu0, by omega⟩, ?_⟩)
    rw [Int.emod_eq_of_lt (by omega) (by omega)]

/-- A step backward on a bidirectional ring of at least two packages is one of its
edges. -/
theorem ring_backward_edge (t : Ring) (hb : t.bidirectional = true) (u : Int)
    (hN : 2 ≤ t.packages_count) (hu0 : 0 ≤ u) (hu : u < t.packages_count) :
    (⟨u, (u + -1) % t.packages_count, 0⟩ : Connection) ∈ t.connections := by
  simp only [Ring.connections, hb, if_true, List.mem_append, List.mem_map, mem_forDown,
    List.mem_singleton]
  rw [step_emod_cases hN hu0 hu (Or.inr rfl), if_neg (by decide)]
  by_cases h : u = 0
  · subst h
    exact Or.inr (Or.inr (by simp))
  · refine Or.inr (Or.inl ⟨u, ⟨by omega, by omega⟩, ?_⟩)
    rw [if_neg h]

/-- The graph of a unidirectional ring holds exactly the forward edges. -/
theorem ring_unidirectional_connections (t : Ring) (hb : t.bidirectional = false)
    (hN : 1 ≤ t.packages_count) (c : Connection) :
    c ∈ t.connections ↔
      c.dimension = 0 ∧ (0 ≤ c.src ∧ c.src < t.packages_count) ∧
        c.dest = (c.src + 1) % t.packages_count := by
  constructor
  · simp only [Ring.connections, hb, List.mem_append, List.mem_map, mem_forUp,
      List.mem_singleton, Bool.false_eq_true, if_false, List.not_mem_nil, or_false]
    rintro (⟨u, ⟨h1, h2⟩, rfl⟩ | rfl) <;> dsimp only
    · exact ⟨rfl, ⟨h1, by omega⟩, (Int.emod_eq_of_lt (by omega) (by omega)).symm⟩
    · refine ⟨rfl, ⟨by omega, by omega⟩, ?_⟩
      rw [show t.packages_count - 1 + 1 = t.packages_count by omega, Int.emod_self]
  · obtain ⟨u, v, d⟩ := c
    rintro ⟨hd, ⟨h1, h2⟩, hv⟩
    simp only at hd h1 h2 hv
    subst hd hv
    exact ring_forward_edge t u h1 h2

/-- A step to a neighbouring column within a row of the torus is one of its edges. -/
theorem torus2D_row_edge (t : Torus2D) (row c d : Int) (hW : 2 ≤ t.width)
    (hr : 0 ≤ row ∧ row < t.height) (hc : 0 ≤ c ∧ c < t.width) (hd : d = 1 ∨ d = -1) :
    (⟨t.rowColToId row c, t.rowColToId row ((c + d) % t.width), 0⟩ : Connection)
      ∈ t.connections := by
  simp only [Torus2D.connections, Torus2D.rowColToId, List.mem_append, List.mem_flatMap,
    mem_forUp, List.mem_cons, List.mem_singleton, List.not_mem_nil, or_false]
  refine Or.inl ⟨row, hr, ?_⟩
  rw [step_emod_cases hW hc.1 hc.2 hd]
  rcases hd with rfl | rfl
  · rw [if_pos rfl]
    by_cases h : c + 1 = t.width
    · rw [if_pos h]
      refine Or.inr (Or.inl ?_)
      congr 1 <;> omega
    · rw [if_neg h]
      refine Or.inl ⟨c, ⟨hc.1, by omega⟩, Or.inl ?_⟩
      congr 1
      omega
  · rw [if_neg (by decide)]
    by_cases h : c = 0
    · rw [if_pos h]
      refine Or.inr (Or.inr ?_)
      congr 1; omega
    · rw [if_neg h]
      refine Or.inl ⟨c - 1, ⟨by omega, by omega⟩, Or.inr ?_⟩
      congr 1; omega

/-- A step to a neighbouring row within a column of the torus is one of its edges. -/
theorem torus2D_col_edge (t : Torus2D) (r col d : Int) (hH : 2 ≤ t.height)
    (hr : 0 ≤ r ∧ r < t.height) (hc : 0 ≤ col ∧ col < t.width) (hd : d = 1 ∨ d = -1) :
    (⟨t.rowColToId r col, t.rowColToId ((r + d) % t.height) col, 0⟩ : Connection)
      ∈ t.connections := by
  simp only [Torus2D.connections, Torus2D.rowColToId, List.mem_append, List.mem_flatMap,
    mem_forUp, List.mem_cons, List.mem_singleton, List.not_mem_nil, or_false]
  refine Or.inr ⟨col, hc, ?_⟩
  rw [step_emod_cases hH hr.1 hr.2 hd]
  rcases hd with rfl | rfl
  · rw [if_pos rfl]
    by_cases h : r + 1 = t.height
    · rw [if_pos h]
      refine Or.inr (Or.inl ?_)
      have e : t.height - 1 = r := by omega
      rw [e]
      simp
    · rw [if_neg h]
      refine Or.inl ⟨r, ⟨hr.1, by omega⟩, Or.inl ?_⟩
      congr 1
      ring
  · rw [if_neg (by decide)]
    by_cases h : r = 0
    · rw [if_pos h]
      refine Or.inr (Or.inr ?_)
      subst h
      simp
    · rw [if_neg h]
      refine Or.inl ⟨r - 1, ⟨by omega, by omega⟩, Or.inr ?_⟩
      congr 1
      ring

/-- The hops of a stage are the hops it walked. -/
theorem hops_stageCalls (payload_size : Int) (dimension : Nat) (hops : List (Int × Int)) :
    (stageCalls payload_size dimension hops).filterMap Call.hop? = hops := by
  simp only [stageCalls, List.filterMap_append, hops_map_route]
  simp [List.filterMap_cons, Call.hop?]

/-- The call log of `Torus2D::send` between distinct valid ids: one stage on
dimension 0 over the column hops followed by the row hops, then the HBM call. -/
theorem torus2D_send_callLog (t : Torus2D)
    (src dest payload_size : Int) (hs0 : 0 ≤ src) (hs : src < t.packages_count)
    (hd0 : 0 ≤ dest) (hd : dest < t.packages_count) (hne : src ≠ dest)
    (r1 c1 r2 c2 : Int) (ha1 : t.idToRowCol src = (r1, c1)) (ha2 : t.idToRowCol dest = (r2, c2))
    (hr1 : 0 ≤ r1 ∧ r1 < t.height) (hc1 : 0 ≤ c1 ∧ c1 < t.width)
    (hr2 : 0 ≤ r2 ∧ r2 < t.height) (hc2 : 0 ≤ c2 ∧ c2 < t.width)
    (fuel : Nat) (hfuelW : t.width ≤ fuel) (hfuelH : t.height ≤ fuel) :
    t.send callLog fuel src dest payload_size
      = .ok ⟨stageCalls payload_size 0 (t.colHops r1 c1 c2 ++ t.rowHops r1 r2 c2)
          ++ [.hbmLatency payload_size 0]⟩ := by
  rw [torus2D_send_eq t callLog src dest payload_size hs0 hs hd0 hd hne r1 c1 r2 c2 ha1 ha2
    hr1 hc1 hr2 hc2 fuel hfuelW hfuelH]
  show Result.ok (CallLog.mk (_ ++ _)) = _
  rw [addRoutes_callLog_stage]
  rfl

/-- C16: for Ring (N ≥ 1, unidirectional or bidirectional) and Torus2D (W, H ≥ 1,
W*H = packages_count), `send` between distinct valid ids returns and every hop it
passes to `route` is a dimension-0 edge made by a `connect` call of the
constructor; the graph of a unidirectional Ring holds exactly the forward edges
(i, (i+1) mod N), and every hop of its `send` is such a forward edge. -/
theorem hops_are_edges {C : Type} (payload_size : Int) (fuel : Nat) :
    (∀ (t : Ring) (src dest : Int), 1 ≤ t.packages_count →
      (0 ≤ src ∧ src < t.packages_count) → (0 ≤ dest ∧ dest < t.packages_count) →
      src ≠ dest → t.packages_count ≤ fuel →
      ∃ log, t.send callLog fuel src dest payload_size = .ok log ∧
        (∀ hop ∈ log.hops, (⟨hop.1, hop.2, 0⟩ : Connection) ∈ t.connections) ∧
        (t.bidirectional = false →
          (∀ c : Connection, c ∈ t.connections ↔
            c.dimension = 0 ∧ (0 ≤ c.src ∧ c.src < t.packages_count) ∧
              c.dest = (c.src + 1) % t.packages_count) ∧
          ∀ hop ∈ log.hops, hop.2 = (hop.1 + 1) % t.packages_count)) ∧
    (∀ (cfgs : List (TopologyConfiguration C)) (t : Torus2D) (src dest : Int),
      Torus2D.new cfgs = .ok t → 1 ≤ t.width → 1 ≤ t.height →
      (0 ≤ src ∧ src < t.packages_count) → (0 ≤ dest ∧ dest < t.packages_count) →
      src ≠ dest → t.width ≤ fuel → t.height ≤ fuel →
      ∃ log, t.send callLog fuel src dest payload_size = .ok log ∧
        ∀ hop ∈ log.hops, (⟨hop.1, hop.2, 0⟩ : Connection) ∈ t.connections) := by
  constructor
  · intro t src dest hN hs hd hne hfuel
    have hN2 : 2 ≤ t.packages_count := by omega
    have hdir := ring_computeDirection_cases t src dest
    have hk0 := Int.emod_nonneg (t.computeDirection src dest * (dest - src))
      (show t.packages_count ≠ 0 by omega)
    have hk1 := Int.emod_lt_of_pos (t.computeDirection src dest * (dest - src))
      (show 0 < t.packages_count by omega)
    obtain ⟨log, hsend, hhops⟩ := ring_send_callLog_hops t src dest payload_size hs.1 hs.2
      hd.1 hd.2 hne
      ((t.computeDirection src dest * (dest - src)) % t.packages_count).toNat fuel
      (by omega) (by omega)
    obtain ⟨-, hm⟩ := arcPath_spec hN2 hdir hd.1 hd.2
      ((t.computeDirection src dest * (dest - src)) % t.packages_count).toNat src hs.1 hs.2
      (by omega)
    rw [← hhops] at hm
    refine ⟨log, hsend, ?_, ?_⟩
    · intro hop hmem
      obtain ⟨hr, hstep, -⟩ := hm hop hmem
      rw [hstep]
      rcases hdir with h1 | h1
      · rw [h1]
        exact ring_forward_edge t hop.1 hr.1 hr.2
      · rw [h1]
        have hb : t.bidirectional = true := by
          by_contra hb
          have := ring_computeDirection_unidirectional t (by simpa using hb) src dest
          omega
        exact ring_backward_edge t hb hop.1 hN2 hr.1 hr.2
    · intro hb
      refine ⟨ring_unidirectional_connections t hb hN, ?_⟩
      intro hop hmem
      obtain ⟨-, hstep, -⟩ := hm hop hmem
      rw [hstep, ring_computeDirection_unidirectional t hb src dest]
  · intro cfgs t src dest hnew hW hH hs hd hne hfuelW hfuelH
    have hpk := torus2D_new_count_le hnew hW hH
    obtain ⟨r1, c1, ha1, hr1, hc1, hid1⟩ := torus2D_coordinates t hW src hs.1 (lt_of_lt_of_le hs.2 hpk)
    obtain ⟨r2, c2, ha2, hr2, hc2, hid2⟩ := torus2D_coordinates t hW dest hd.1 (lt_of_lt_of_le hd.2 hpk)
    obtain ⟨-, hcm⟩ := torus2D_colHops_spec t r1 c1 c2 hr1.1 hc1 hc2
    obtain ⟨-, hrm⟩ := torus2D_rowHops_spec t r1 r2 c2 hr1 hr2 hc2
    refine ⟨_, torus2D_send_callLog t src dest payload_size hs.1 hs.2 hd.1 hd.2 hne r1 c1 r2 c2
      ha1 ha2 hr1 hc1 hr2 hc2 fuel hfuelW hfuelH, ?_⟩
    intro hop hmem
    simp only [CallLog.hops, List.filterMap_append, hops_stageCalls, List.mem_append] at hmem
    rcases hmem with (hmem | hmem) | hmem
    · obtain ⟨c, d, hd', hc, hne2, hhop, -, -⟩ := hcm hop hmem
      have hW2 : 2 ≤ t.width := by omega
      rw [hhop]
      exact torus2D_row_edge t r1 c d hW2 hr1 hc hd'
    · obtain ⟨r, d, hd', hr, hne2, hhop, -, -⟩ := hrm hop hmem
      have hH2 : 2 ≤ t.height := by omega
      rw [hhop]
      exact torus2D_col_edge t r c2 d hH2 hr hc2 hd'
    · simp [List.filterMap_cons, Call.hop?] at hmem

/-- Witness of C16: from id 0 to id 6 in the torus of width 4 and height 3. -/
theorem hops_are_edges_witness :
    Torus2D.new [sampleConfiguration 12 [4, 3]] = .ok (Torus2D.mk 4 2 3 1 12) ∧ (0 : Int) ≠ 6 ∧
    ∃ log, (Torus2D.mk 4 2 3 1 12).send callLog 4 0 6 64 = .ok log ∧
      ∀ hop ∈ log.hops,
        (⟨hop.1, hop.2, 0⟩ : Connection) ∈ (Torus2D.mk 4 2 3 1 12).connections :=
  ⟨rfl, by decide,
    (hops_are_edges 64 4).2 [sampleConfiguration 12 [4, 3]] (Torus2D.mk 4 2 3 1 12) 0 6 rfl
      (by decide) (by decide) (by decide) (by decide) (by decide) (by decide) (by decide)⟩

/-! ## Ring_AllToAll: the ring loop and the two stages -/

/-- What `Ring_AllToAll::Ring_AllToAll` establishes between the members. -/
theorem ring_allToAll_new_members {L : Type} {cfgs : List (TopologyConfiguration L)}
    {t : Ring_AllToAll} (hnew : Ring_AllToAll.new cfgs = .ok t) :
    t.packages_count = t.ring_size * t.all_to_all_size ∧
    t.half_ring_size = Int.tdiv t.ring_size 2 := by
  unfold Ring_AllToAll.new at hnew
  split at hnew
  · split at hnew
    · exact absurd hnew (by simp)
    · injection hnew with h
      subst h
      exact ⟨rfl, rfl⟩
  · exact absurd hnew (by simp)

/-- The address of a valid id of Ring_AllToAll: two coordinates, each within its
dimension, that add up to the id. -/
theorem ring_allToAll_address_of_valid (t : Ring_AllToAll) (hR : 1 ≤ t.ring_size)
    (id : Int) (h0 : 0 ≤ id) (hlt : id < t.ring_size * t.all_to_all_size) :
    ∃ r g : Int, t.npuIdToAddress id = [r, g] ∧ (0 ≤ r ∧ r < t.ring_size) ∧
      (0 ≤ g ∧ g < t.all_to_all_size) ∧ id = r + g * t.ring_size := by
  refine ⟨id % t.ring_size, id / t.ring_size, ?_,
    ⟨Int.emod_nonneg _ (by omega), Int.emod_lt_of_pos _ (by omega)⟩,
    ⟨Int.ediv_nonneg h0 (by omega), ?_⟩, ?_⟩
  · simp only [Ring_AllToAll.npuIdToAddress]
    rw [Int.tmod_eq_emod h0 (by omega), Int.tdiv_eq_ediv h0 (by omega)]
  · exact Int.ediv_lt_of_lt_mul (by omega) (by rw [Int.mul_comm]; exact hlt)
  · have := Int.emod_add_ediv id t.ring_size
    linarith [Int.mul_comm t.ring_size (id / t.ring_size)]

/-- `Ring_AllToAll::takeStep` on a ring of at least two positions. -/
theorem ring_allToAll_takeStep_eq (t : Ring_AllToAll) {c d : Int}
    (hN : 2 ≤ t.ring_size) (hc0 : 0 ≤ c) (hc : c < t.ring_size) (hd : d = 1 ∨ d = -1) :
    t.takeStep c d = (c + d) % t.ring_size :=
  takeStep_body_eq hN hc0 hc hd

/-- `Ring_AllToAll::computeDirection` returns `+1` or `-1`. -/
theorem ring_allToAll_computeDirection_cases (t : Ring_AllToAll) (src dest : Int) :
    t.computeDirection src dest = 1 ∨ t.computeDirection src dest = -1 := by
  unfold Ring_AllToAll.computeDirection
  split
  · exact Or.inl rfl
  · split
    · simp only []; split <;> simp
    · simp only []; split <;> simp

/-- The ring loop of `Ring_AllToAll::send`, started at ring position `c` of group `g`
at arc length `k` from the target position. -/
theorem ring_allToAll_sendLoop_eq {L : Type} [Add L] (t : Ring_AllToAll)
    (P : Primitives L) (d payload_size : Int) (r2 g2 g : Int)
    (hN : 2 ≤ t.ring_size) (hd : d = 1 ∨ d = -1)
    (hd0 : 0 ≤ r2) (hdN : r2 < t.ring_size) :
    ∀ (k fuel : Nat) (c : Int) (acc : L), 0 ≤ c → c < t.ring_size →
      (d * (r2 - c)) % t.ring_size = k → k ≤ fuel →
      Ring_AllToAll.sendLoop t P d [r2, g2] payload_size fuel [c, g] acc
        = some ([r2, g], addRoutes P payload_size acc
            ((arcPath t.ring_size d k c).map
              (fun hop => (t.npuAddressToId [hop.1, g], t.npuAddressToId [hop.2, g])))) := by
  intro k
  induction k with
  | zero =>
    intro fuel c acc hc0 hc harc _
    have hcd : c = r2 := (arc_eq_zero_iff hc0 hc hd0 hdN hd).1 (by simpa using harc)
    cases fuel <;> simp [Ring_AllToAll.sendLoop, hcd, addRoutes, arcPath, NpuAddress.at]
  | succ k ih =>
    intro fuel c acc hc0 hc harc hfuel
    have hne : c ≠ r2 := by
      intro h
      have := (arc_eq_zero_iff hc0 hc hd0 hdN hd).2 h
      rw [this] at harc
      omega
    obtain ⟨fuel, rfl⟩ : ∃ f, fuel = f + 1 := ⟨fuel - 1, by omega⟩
    obtain ⟨⟨hs0, hsN⟩, hs⟩ := arc_step hN hc0 hc hd0 hdN hd hne
    have hstep := ring_allToAll_takeStep_eq t hN hc0 hc hd
    simp only [Ring_AllToAll.sendLoop, NpuAddress.at, List.getD_cons_zero, hne, ne_eq,
      not_false_eq_true, if_true, hstep, List.set_cons_zero]
    rw [ih fuel _ _ hs0 hsN (by rw [hs, harc]; push_cast; omega) (by omega)]
    simp [addRoutes, arcPath, NpuAddress.at]

/-- The ring block of `Ring_AllToAll::send` from position `r1` to position `r2`
within group `g`, with at least `ring_size` iterations allowed. -/
theorem ring_allToAll_ringStage_eq {L : Type} [Add L] (t : Ring_AllToAll)
    (P : Primitives L) (payload_size : Int) (r1 r2 g2 g : Int)
    (h10 : 0 ≤ r1) (h1 : r1 < t.ring_size) (h20 : 0 ≤ r2) (h2 : r2 < t.ring_size)
    (fuel : Nat) (hfuel : t.ring_size ≤ fuel) (acc : L) :
    t.ringStage P fuel [r2, g2] payload_size [r1, g] acc
      = some ([r2, g],
          if r1 ≠ r2 then
            addRoutes P payload_size (acc + P.serialize payload_size 0 + P.nicLatency 0)
              (t.ringHops r1 r2 g) + P.nicLatency 0
          else acc) := by
  unfold Ring_AllToAll.ringStage Ring_AllToAll.ringHops arcHops
  by_cases hne : r1 = r2
  · simp [NpuAddress.at, hne]
  · have hk0 := Int.emod_nonneg (t.computeDirection r1 r2 * (r2 - r1))
      (show t.ring_size ≠ 0 by omega)
    have hk1 := Int.emod_lt_of_pos (t.computeDirection r1 r2 * (r2 - r1))
      (show 0 < t.ring_size by omega)
    simp only [NpuAddress.at, List.getD_cons_zero, ne_eq, hne, not_false_eq_true, if_true]
    rw [ring_allToAll_sendLoop_eq t P _ payload_size r2 g2 g (by omega)
      (ring_allToAll_computeDirection_cases t r1 r2) h20 h2
      ((t.computeDirection r1 r2 * (r2 - r1)) % t.ring_size).toNat fuel r1 _ h10 h1
      (by omega) (by omega)]

/-- `Ring_AllToAll::send` between distinct valid ids, for any cost model: the ring
stage from `(r1, g1)` to `(r2, g1)` followed by the all-to-all stage to `(r2, g2)`. -/
theorem ring_allToAll_send_eq {L : Type} [Zero L] [Add L]
    (t : Ring_AllToAll) (P : Primitives L) (src dest payload_size : Int)
    (hs0 : 0 ≤ src) (hs : src < t.packages_count)
    (hd0 : 0 ≤ dest) (hd : dest < t.packages_count) (hne : src ≠ dest)
    (r1 g1 r2 g2 : Int) (ha1 : t.npuIdToAddress src = [r1, g1])
    (ha2 : t.npuIdToAddress dest = [r2, g2])
    (h10 : 0 ≤ r1) (h1 : r1 < t.ring_size) (h20 : 0 ≤ r2) (h2 : r2 < t.ring_size)
    (fuel : Nat) (hfuel : t.ring_size ≤ fuel) :
    t.send P fuel src dest payload_size
      = .ok (P.criticalLatency
          (t.allToAllStage P dest [r2, g2] payload_size [r2, g1]
            (if r1 ≠ r2 then
              addRoutes P payload_size (0 + P.serialize payload_size 0 + P.nicLatency 0)
                (t.ringHops r1 r2 g1) + P.nicLatency 0
            else 0))
          (P.hbmLatency payload_size 0)) := by
  unfold Ring_AllToAll.send
  simp only [hs0, hs, hd0, hd, hne, and_self, not_true, if_false, ha1, ha2]
  rw [ring_allToAll_ringStage_eq t P payload_size r1 r2 g2 g1 h10 h1 h20 h2 fuel hfuel]

/-! ## Call logs of the hierarchical variants -/

/-- Under the call log, a stage appended to a latency appends its calls. -/
theorem stage_callLog (payload_size : Int) (dimension : Nat) (hops : List (Int × Int))
    (acc : CallLog) :
    (addRoutes callLog payload_size
        (acc + callLog.serialize payload_size dimension + callLog.nicLatency dimension) hops
      + callLog.nicLatency dimension).calls
      = acc.calls ++ stageCalls payload_size dimension hops := by
  rw [callLog_add_calls, addRoutes_callLog]
  simp [stageCalls, callLog, callLog_add_calls]

/-- The call log of `Ring_AllToAll::send` between distinct valid ids: the ring stage
on dimension 0 when the ring positions differ, the one-hop all-to-all stage on
dimension 1 when the groups differ, then the HBM call. -/
theorem ring_allToAll_send_callLog (t : Ring_AllToAll) (src dest payload_size : Int)
    (hs0 : 0 ≤ src) (hs : src < t.packages_count)
    (hd0 : 0 ≤ dest) (hd : dest < t.packages_count) (hne : src ≠ dest)
    (r1 g1 r2 g2 : Int) (ha1 : t.npuIdToAddress src = [r1, g1])
    (ha2 : t.npuIdToAddress dest = [r2, g2])
    (h10 : 0 ≤ r1) (h1 : r1 < t.ring_size) (h20 : 0 ≤ r2) (h2 : r2 < t.ring_size)
    (fuel : Nat) (hfuel : t.ring_size ≤ fuel) :
    t.send callLog fuel src dest payload_size
      = .ok ⟨(if r1 ≠ r2 then stageCalls payload_size 0 (t.ringHops r1 r2 g1) else [])
          ++ (if g1 ≠ g2 then
                stageCalls payload_size 1 [(t.npuAddressToId [r2, g1], dest)]
              else [])
          ++ [.hbmLatency payload_size 0]⟩ := by
  rw [ring_allToAll_send_eq t callLog src dest payload_size hs0 hs hd0 hd hne r1 g1 r2 g2
    ha1 ha2 h10 h1 h20 h2 fuel hfuel]
  have hring : (if r1 ≠ r2 then
        addRoutes callLog payload_size
            (0 + callLog.serialize payload_size 0 + callLog.nicLatency 0)
            (t.ringHops r1 r2 g1) + callLog.nicLatency 0
      else 0).calls
      = if r1 ≠ r2 then stageCalls payload_size 0 (t.ringHops r1 r2 g1) else [] := by
    split
    · rw [stage_callLog]; rfl
    · rfl
  show Result.ok (CallLog.mk (_ ++ _)) = _
  congr 2
  unfold Ring_AllToAll.allToAllStage
  simp only [NpuAddress.at, List.getD_cons_succ, List.getD_cons_zero]
  split
  · simp only [callLog_add_calls, hring]
    simp [stageCalls, callLog]
  · rw [hring, List.append_nil]; rfl

/-- The call log of `Ring_AllToAll_Switch::send` between distinct valid ids of one
node: as for Ring_AllToAll, within the node. -/
theorem ring_allToAll_switch_send_callLog (t : Ring_AllToAll_Switch)
    (src dest payload_size : Int)
    (hs0 : 0 ≤ src) (hs : src < t.packages_count)
    (hd0 : 0 ≤ dest) (hd : dest < t.packages_count) (hne : src ≠ dest)
    (r1 g1 r2 g2 n : Int) (ha1 : t.npuIdToAddress src = [r1, g1, n])
    (ha2 : t.npuIdToAddress dest = [r2, g2, n])
    (h10 : 0 ≤ r1) (h1 : r1 < t.ring_size) (h20 : 0 ≤ r2) (h2 : r2 < t.ring_size)
    (fuel : Nat) (hfuel : t.ring_size ≤ fuel) :
    t.send callLog fuel src dest payload_size
      = .ok ⟨(if r1 ≠ r2 then stageCalls payload_size 0 (t.ringHops r1 r2 g1 n) else [])
          ++ (if g1 ≠ g2 then
                stageCalls payload_size 1 [(t.npuAddressToId [r2, g1, n], dest)]
              else [])
          ++ [.hbmLatency payload_size 0]⟩ := by
  rw [ring_allToAll_switch_send_same_node t callLog src dest payload_size hs0 hs hd0 hd hne
    r1 g1 r2 g2 n ha1 ha2 h10 h1 h20 h2 fuel hfuel]
  have hring : (if r1 ≠ r2 then
        addRoutes callLog payload_size
            (0 + callLog.serialize payload_size 0 + callLog.nicLatency 0)
            ((arcPath t.ring_size (t.computeDirection r1 r2)
                ((t.computeDirection r1 r2 * (r2 - r1)) % t.ring_size).toNat r1).map
              (fun hop => (t.npuAddressToId [hop.1, g1, n], t.npuAddressToId [hop.2, g1, n])))
          + callLog.nicLatency 0
      else 0).calls
      = if r1 ≠ r2 then stageCalls payload_size 0 (t.ringHops r1 r2 g1 n) else [] := by
    split
    · rw [stage_callLog]; rfl
    · rfl
  show Result.ok (CallLog.mk (_ ++ _)) = _
  congr 2
  unfold Ring_AllToAll_Switch.allToAllStage
  simp only [NpuAddress.at, List.getD_cons_succ, List.getD_cons_zero]
  split
  · simp only [callLog_add_calls, hring]
    simp [stageCalls, callLog]
  · rw [hring, List.append_nil]; rfl

/-- The call log of `Ring_AllToAll_Switch::send` between valid ids of different
nodes: the switch stage on dimension 2, then the HBM call. -/
theorem ring_allToAll_switch_send_callLog_cross (t : Ring_AllToAll_Switch)
    (src dest payload_size : Int)
    (hs0 : 0 ≤ src) (hs : src < t.packages_count)
    (hd0 : 0 ≤ dest) (hd : dest < t.packages_count)
    (hn : (t.npuIdToAddress src).at 2 ≠ (t.npuIdToAddress dest).at 2) (fuel : Nat) :
    t.send callLog fuel src dest payload_size
      = .ok ⟨[.serialize payload_size 2, .nicLatency 2, .route src t.switch_id payload_size,
          .routerLatency 2, .route t.switch_id dest payload_size, .nicLatency 2,
          .hbmLatency payload_size 0]⟩ := by
  have hne : src ≠ dest := by
    intro h
    rw [h] at hn
    exact hn rfl
  simp only [Ring_AllToAll_Switch.send, Ring_AllToAll_Switch.linkLatency, hs0, hs, hd0, hd,
    hne, and_self, not_true, if_false, hn, ne_eq, not_false_eq_true, if_true,
    Ring_AllToAll_Switch.switchStage]
  rfl

/-! ## Graphs of the hierarchical variants -/

/-- A `start_offset` loop with a positive step finishes within `bound - start`
iterations and visits every `start + j * step` below the bound. -/
theorem forStride_spec {bound step : Int} (hstep : 1 ≤ step) : ∀ (fuel : Nat) (i : Int),
    bound - i ≤ fuel →
    ∃ starts, forStride bound step fuel i = some starts ∧
      ∀ j : Nat, i + j * step < bound → i + j * step ∈ starts := by
  intro fuel
  induction fuel with
  | zero =>
    intro i h
    refine ⟨[], by simp [forStride]; omega, ?_⟩
    intro j hj
    have : 0 ≤ (j : Int) * step := Int.mul_nonneg (by omega) (by omega)
    simp at h
    omega
  | succ fuel ih =>
    intro i h
    by_cases hi : i < bound
    · obtain ⟨starts, hs, hm⟩ := ih (i + step) (by push_cast at h; omega)
      refine ⟨i :: starts, by simp [forStride, hi, hs], ?_⟩
      intro j hj
      cases j with
      | zero => simp
      | succ j =>
        have e : i + ((j + 1 : Nat) : Int) * step = (i + step) + j * step := by
          push_cast; ring
        rw [e] at hj ⊢
        exact List.mem_cons_of_mem _ (hm j hj)
    · refine ⟨[], by simp [forStride, hi], ?_⟩
      intro j hj
      have : 0 ≤ (j : Int) * step := Int.mul_nonneg (by omega) (by omega)
      omega

/-- The forward pass connects every position of a ring to its successor. -/
theorem forwardRings_mem {R start u : Int} {starts : List Int}
    (hstart : start ∈ starts) (hu0 : 0 ≤ u) (hu : u < R) :
    (⟨start + u, start + (u + 1) % R, 0⟩ : Connection) ∈ forwardRings R starts := by
  simp only [forwardRings, List.mem_flatMap, List.mem_append, List.mem_map, mem_forUp,
    List.mem_singleton]
  refine ⟨start, hstart, ?_⟩
  by_cases h : u + 1 = R
  · refine Or.inr ?_
    rw [h, Int.emod_self]
    congr 1 <;> omega
  · refine Or.inl ⟨u, ⟨hu0, by omega⟩, ?_⟩
    rw [Int.emod_eq_of_lt (by omega) (by omega)]
    congr 1
    omega

/-- The backward pass connects every position of a ring to its predecessor. -/
theorem backwardRings_mem {R start u : Int} {starts : List Int} (hR : 2 ≤ R)
    (hstart : start ∈ starts) (hu0 : 0 ≤ u) (hu : u < R) :
    (⟨start + u, start + (u + -1) % R, 0⟩ : Connection) ∈ backwardRings R starts := by
  simp only [backwardRings, List.mem_flatMap, List.mem_append, List.mem_map, mem_forDown,
    List.mem_singleton]
  refine ⟨start, hstart, ?_⟩
  rw [step_emod_cases hR hu0 hu (Or.inr rfl), if_neg (by decide)]
  by_cases h : u = 0
  · subst h
    refine Or.inr ?_
    simp
  · refine Or.inl ⟨u, ⟨by omega, by omega⟩, ?_⟩
    rw [if_neg h]
    congr 1
    omega

/-- The id of a two-coordinate address. -/
theorem ring_allToAll_npuAddressToId_eq (t : Ring_AllToAll) (r g : Int) :
    t.npuAddressToId [r, g] = r + g * t.ring_size := by
  simp [Ring_AllToAll.npuAddressToId, NpuAddress.at]

/-- The graph of Ring_AllToAll (R, A ≥ 1): the constructor finishes within
`packages_count` iterations of its `start_offset` loops, and its edges include, on
dimension 0, the step from every ring position to its successor within its group
(and to its predecessor when the ring is bidirectional), and on dimension 1 the
edge between the same ring position of any two groups. -/
theorem ring_allToAll_connections_spec (t : Ring_AllToAll)
    (hpk : t.packages_count = t.ring_size * t.all_to_all_size)
    (hR : 1 ≤ t.ring_size) (fuel : Nat) (hfuel : t.packages_count ≤ fuel) :
    ∃ edges, t.connections fuel = some edges ∧
      (∀ g u d : Int, (0 ≤ g ∧ g < t.all_to_all_size) → (0 ≤ u ∧ u < t.ring_size) →
        (d = 1 ∨ (d = -1 ∧ t.bidirectional = true ∧ 2 ≤ t.ring_size)) →
        (⟨t.npuAddressToId [u, g], t.npuAddressToId [(u + d) % t.ring_size, g], 0⟩
          : Connection) ∈ edges) ∧
      (∀ r g1 g2 : Int, (0 ≤ r ∧ r < t.ring_size) → (0 ≤ g1 ∧ g1 < t.all_to_all_size) →
        (0 ≤ g2 ∧ g2 < t.all_to_all_size) →
        (⟨t.npuAddressToId [r, g1], t.npuAddressToId [r, g2], 1⟩ : Connection) ∈ edges) := by
  obtain ⟨starts, hs, hm⟩ := forStride_spec hR fuel 0 (by omega : t.packages_count - 0 ≤ fuel)
  have hstart : ∀ g : Int, (0 ≤ g ∧ g < t.all_to_all_size) → g * t.ring_size ∈ starts := by
    intro g hg
    have h := hm g.toNat
    rw [Int.toNat_of_nonneg hg.1, Int.zero_add, hpk] at h
    exact h (by have := (offset_in_block (le_refl 0) (by omega : (0 : Int) < t.ring_size)
      hg.1 hg.2).2; omega)
  unfold Ring_AllToAll.connections
  simp only [hs]
  by_cases hb : t.bidirectional = true
  · simp only [hb, if_true, Option.map_some']
    refine ⟨_, rfl, ?_, ?_⟩
    · intro g u d hg hu hd
      rw [ring_allToAll_npuAddressToId_eq, ring_allToAll_npuAddressToId_eq,
        Int.add_comm u, Int.add_comm (_ % _)]
      rcases hd with rfl | ⟨rfl, -, hR2⟩
      · exact List.mem_append_left _ (List.mem_append_left _
          (forwardRings_mem (hstart g hg) hu.1 hu.2))
      · exact List.mem_append_left _ (List.mem_append_right _
          (backwardRings_mem hR2 (hstart g hg) hu.1 hu.2))
    · intro r g1 g2 hr hg1 hg2
      refine List.mem_append_right _ ?_
      simp only [List.mem_flatMap, List.mem_map, mem_forUp]
      refine ⟨r, hr, g1, hg1, g2, hg2, ?_⟩
      rw [ring_allToAll_npuAddressToId_eq, ring_allToAll_npuAddressToId_eq]
      congr 1 <;> omega
  · simp only [hb, if_false]
    refine ⟨_, rfl, ?_, ?_⟩
    · intro g u d hg hu hd
      rw [ring_allToAll_npuAddressToId_eq, ring_allToAll_npuAddressToId_eq,
        Int.add_comm u, Int.add_comm (_ % _)]
      rcases hd with rfl | ⟨-, hb', -⟩
      · exact List.mem_append_left _ (List.mem_append_left _
          (forwardRings_mem (hstart g hg) hu.1 hu.2))
      · exact absurd hb' (by decide)
    · intro r g1 g2 hr hg1 hg2
      refine List.mem_append_right _ ?_
      simp only [List.mem_flatMap, List.mem_map, mem_forUp]
      refine ⟨r, hr, g1, hg1, g2, hg2, ?_⟩
      rw [ring_allToAll_npuAddressToId_eq, ring_allToAll_npuAddressToId_eq]
      congr 1 <;> omega

/-- The graph of Ring_AllToAll_Switch (R, A ≥ 1): the constructor finishes within
`packages_count` iterations of its `start_offset` loops, and its edges include, on
dimension 0, the step from every ring position to its successor within its group
and node (and to its predecessor when the ring is bidirectional), on dimension 1
the edge between the same ring position of any two groups of a node, and on
dimension 2 the edges between every package and the switch. -/
theorem ring_allToAll_switch_connections_spec (t : Ring_AllToAll_Switch)
    (hnode : t.node_packages_count = t.ring_size * t.all_to_all_size)
    (hpk : t.packages_count = t.ring_size * t.all_to_all_size * t.switch_size)
    (hR : 1 ≤ t.ring_size) (fuel : Nat) (hfuel : t.packages_count ≤ fuel) :
    ∃ edges, t.connections fuel = some edges ∧
      (∀ n g u d : Int, (0 ≤ n ∧ n < t.switch_size) → (0 ≤ g ∧ g < t.all_to_all_size) →
        (0 ≤ u ∧ u < t.ring_size) →
        (d = 1 ∨ (d = -1 ∧ t.bidirectional = true ∧ 2 ≤ t.ring_size)) →
        (⟨t.npuAddressToId [u, g, n], t.npuAddressToId [(u + d) % t.ring_size, g, n], 0⟩
          : Connection) ∈ edges) ∧
      (∀ n r g1 g2 : Int, (0 ≤ n ∧ n < t.switch_size) → (0 ≤ r ∧ r < t.ring_size) →
        (0 ≤ g1 ∧ g1 < t.all_to_all_size) → (0 ≤ g2 ∧ g2 < t.all_to_all_size) →
        (⟨t.npuAddressToId [r, g1, n], t.npuAddressToId [r, g2, n], 1⟩ : Connection)
          ∈ edges) ∧
      (∀ i : Int, (0 ≤ i ∧ i < t.packages_count) →
        (⟨i, t.switch_id, 2⟩ : Connection) ∈ edges ∧
        (⟨t.switch_id, i, 2⟩ : Connection) ∈ edges) := by
  obtain ⟨starts, hs, hm⟩ := forStride_spec hR fuel 0 (by omega : t.packages_count - 0 ≤ fuel)
  have hstart : ∀ n g : Int, (0 ≤ n ∧ n < t.switch_size) → (0 ≤ g ∧ g < t.all_to_all_size) →
      g * t.ring_size + n * t.node_packages_count ∈ starts := by
    intro n g hn hg
    have hj0 : 0 ≤ g + n * t.all_to_all_size := by
      have := Int.mul_nonneg hn.1 (show 0 ≤ t.all_to_all_size by omega)
      omega
    have h := hm (g + n * t.all_to_all_size).toNat
    rw [Int.toNat_of_nonneg hj0, Int.zero_add, hpk] at h
    have e : (g + n * t.all_to_all_size) * t.ring_size
        = g * t.ring_size + n * t.node_packages_count := by rw [hnode]; ring
    rw [e] at h
    exact h (by
      have := (ring_allToAll_switch_coordinates_of_id t hnode 0 g n (le_refl 0) (by omega)
        hg.1 hg.2 hn.1 hn.2).1.2
      omega)
  have hring : ∀ n g u d : Int, (0 ≤ n ∧ n < t.switch_size) →
      (0 ≤ g ∧ g < t.all_to_all_size) → (0 ≤ u ∧ u < t.ring_size) →
      (d = 1 ∨ (d = -1 ∧ t.bidirectional = true ∧ 2 ≤ t.ring_size)) →
      (⟨t.npuAddressToId [u, g, n], t.npuAddressToId [(u + d) % t.ring_size, g, n], 0⟩
        : Connection) ∈ forwardRings t.ring_size starts
          ++ (if t.bidirectional = true then backwardRings t.ring_size starts else []) := by
    intro n g u d hn hg hu hd
    rw [ring_allToAll_switch_npuAddressToId_eq, ring_allToAll_switch_npuAddressToId_eq,
      Int.add_assoc u, Int.add_assoc (_ % _), Int.add_comm u, Int.add_comm (_ % _)]
    rcases hd with rfl | ⟨rfl, hb, hR2⟩
    · exact List.mem_append_left _ (forwardRings_mem (hstart n g hn hg) hu.1 hu.2)
    · rw [if_pos hb]
      exact List.mem_append_right _ (backwardRings_mem hR2 (hstart n g hn hg) hu.1 hu.2)
  have hshape : ∃ reverse, (if t.bidirectional = true then
        Option.map (backwardRings t.ring_size) (some starts) else some [])
        = some reverse ∧
      reverse = (if t.bidirectional = true then backwardRings t.ring_size starts else []) := by
    refine ⟨if t.bidirectional = true then backwardRings t.ring_size starts else [], ?_, rfl⟩
    split <;> rfl
  obtain ⟨reverse, hrev, hrev'⟩ := hshape
  unfold Ring_AllToAll_Switch.connections
  simp only [hs, hrev]
  refine ⟨_, rfl, ?_, ?_, ?_⟩
  · intro n g u d hn hg hu hd
    rw [hrev']
    exact List.mem_append_left _ (List.mem_append_left _
      (by simpa [List.append_assoc] using hring n g u d hn hg hu hd))
  · intro n r g1 g2 hn hr hg1 hg2
    refine List.mem_append_left _ (List.mem_append_right _ ?_)
    simp only [List.mem_flatMap, List.mem_map, mem_forUp]
    refine ⟨n, hn, r, hr, g1, hg1, g2, hg2, ?_⟩
    rw [ring_allToAll_switch_npuAddressToId_eq, ring_allToAll_switch_npuAddressToId_eq]
    congr 1 <;> omega
  · intro i hi
    constructor <;>
    · refine List.mem_append_right _ ?_
      simp only [List.mem_flatMap, mem_forUp, List.mem_cons, List.mem_singleton,
        List.not_mem_nil, or_false]
      exact ⟨i, hi, by simp⟩

/-! ## Hierarchical variants: every hop is an edge of its stage (C17) -/

/-- The tagged hops of a run of `route` calls carry the current dimension. -/
theorem taggedHops_routes (payload_size : Int) (dimension : Nat) (rest : List Call) :
    ∀ hops : List (Int × Int),
      taggedHops dimension
          (hops.map (fun hop => Call.route hop.1 hop.2 payload_size) ++ rest)
        = hops.map (tagHop dimension) ++ taggedHops dimension rest := by
  intro hops
  induction hops with
  | nil => rfl
  | cons hop hops ih => simp [taggedHops, tagHop, ih]

/-- The tagged hops of a stage carry the dimension of the stage. -/
theorem taggedHops_stage (payload_size : Int) (dimension current : Nat)
    (hops : List (Int × Int)) (rest : List Call) :
    taggedHops current (stageCalls payload_size dimension hops ++ rest)
      = hops.map (tagHop dimension) ++ taggedHops dimension rest := by
  have e : stageCalls payload_size dimension hops ++ rest
      = Call.serialize payload_size dimension :: Call.nicLatency dimension
        :: (hops.map (fun hop => Call.route hop.1 hop.2 payload_size)
          ++ (Call.nicLatency dimension :: rest)) := by
    simp [stageCalls]
  rw [e]
  simp only [taggedHops]
  rw [taggedHops_routes]
  simp only [taggedHops]

/-- `Ring_AllToAll::computeDirection` on a unidirectional ring. -/
theorem ring_allToAll_computeDirection_forward (t : Ring_AllToAll)
    (hb : t.bidirectional = false) (src dest : Int) : t.computeDirection src dest = 1 := by
  simp [Ring_AllToAll.computeDirection, hb]

/-- The hops of the ring stage of Ring_AllToAll: they lead from `(r1, g)` to
`(r2, g)`, and each is a step from a ring position of group `g` to its successor,
or, on a bidirectional ring only, to its predecessor. -/
theorem ring_allToAll_ringHops_spec (t : Ring_AllToAll) (hR : 1 ≤ t.ring_size)
    (r1 r2 g : Int) (h1 : 0 ≤ r1 ∧ r1 < t.ring_size) (h2 : 0 ≤ r2 ∧ r2 < t.ring_size) :
    IsPath (t.npuAddressToId [r1, g]) (t.ringHops r1 r2 g) (t.npuAddressToId [r2, g]) ∧
    ∀ hop ∈ t.ringHops r1 r2 g, ∃ u d : Int,
      (d = 1 ∨ (d = -1 ∧ t.bidirectional = true ∧ 2 ≤ t.ring_size)) ∧
      (0 ≤ u ∧ u < t.ring_size) ∧
      hop = (t.npuAddressToId [u, g], t.npuAddressToId [(u + d) % t.ring_size, g]) := by
  have hd := ring_allToAll_computeDirection_cases t r1 r2
  obtain ⟨hp, hm⟩ := arcHops_spec hR hd h1.1 h1.2 h2.1 h2.2
  refine ⟨isPath_map (fun r => t.npuAddressToId [r, g]) _ _ hp, ?_⟩
  intro hop hmem
  simp only [Ring_AllToAll.ringHops, List.mem_map] at hmem
  obtain ⟨a, ha, rfl⟩ := hmem
  obtain ⟨hr, hstep, hne⟩ := hm a ha
  refine ⟨a.1, t.computeDirection r1 r2, ?_, hr, by rw [hstep]⟩
  rcases hd with h | h
  · exact Or.inl h
  · refine Or.inr ⟨h, ?_, by omega⟩
    by_contra hb
    have := ring_allToAll_computeDirection_forward t (by simpa using hb) r1 r2
    omega

/-- The tagged hops and the hops of a log made of an optional ring stage, an
optional one-hop all-to-all stage and the HBM call. -/
theorem taggedHops_two_stages (payload_size : Int) (p q : Prop) [Decidable p] [Decidable q]
    (ringHops : List (Int × Int)) (hop : Int × Int) (hnil : ¬ p → ringHops = []) :
    taggedHops 0
        ((if p then stageCalls payload_size 0 ringHops else [])
          ++ (if q then stageCalls payload_size 1 [hop] else [])
          ++ [.hbmLatency payload_size 0])
      = ringHops.map (tagHop 0) ++ (if q then [hop] else []).map (tagHop 1) ∧
    (CallLog.mk ((if p then stageCalls payload_size 0 ringHops else [])
          ++ (if q then stageCalls payload_size 1 [hop] else [])
          ++ [.hbmLatency payload_size 0])).hops
      = ringHops ++ (if q then [hop] else []) := by
  by_cases hp : p <;> by_cases hq : q
  · simp only [hp, hq, if_true, List.append_assoc, taggedHops_stage, CallLog.hops,
      List.filterMap_append, hops_stageCalls]
    simp [taggedHops, List.filterMap_cons, Call.hop?]
  · simp only [hp, hq, if_true, if_false, List.append_assoc, taggedHops_stage, CallLog.hops,
      List.filterMap_append, hops_stageCalls, List.nil_append]
    simp [taggedHops, List.filterMap_cons, Call.hop?]
  · rw [hnil hp]
    simp only [hp, hq, if_true, if_false, List.append_assoc, taggedHops_stage, CallLog.hops,
      List.filterMap_append, hops_stageCalls, List.nil_append]
    simp [taggedHops, List.filterMap_cons, Call.hop?]
  · rw [hnil hp]
    simp [hp, hq, taggedHops, CallLog.hops, List.filterMap_cons, Call.hop?]

/-- `Ring_AllToAll_Switch::computeDirection` on a unidirectional ring. -/
theorem ring_allToAll_switch_computeDirection_forward (t : Ring_AllToAll_Switch)
    (hb : t.bidirectional = false) (src dest : Int) : t.computeDirection src dest = 1 := by
  simp [Ring_AllToAll_Switch.computeDirection, hb]

/-- The hops of the ring stage of Ring_AllToAll_Switch: they lead from `(r1, g, n)`
to `(r2, g, n)`, and each is a step from a ring position of group `g` of node `n`
to its successor, or, on a bidirectional ring only, to its predecessor. -/
theorem ring_allToAll_switch_ringHops_spec (t : Ring_AllToAll_Switch)
    (hR : 1 ≤ t.ring_size) (r1 r2 g n : Int) (h1 : 0 ≤ r1 ∧ r1 < t.ring_size)
    (h2 : 0 ≤ r2 ∧ r2 < t.ring_size) :
    IsPath (t.npuAddressToId [r1, g, n]) (t.ringHops r1 r2 g n)
      (t.npuAddressToId [r2, g, n]) ∧
    ∀ hop ∈ t.ringHops r1 r2 g n, ∃ u d : Int,
      (d = 1 ∨ (d = -1 ∧ t.bidirectional = true ∧ 2 ≤ t.ring_size)) ∧
      (0 ≤ u ∧ u < t.ring_size) ∧
      hop = (t.npuAddressToId [u, g, n], t.npuAddressToId [(u + d) % t.ring_size, g, n]) := by
  have hd := ring_allToAll_switch_computeDirection_cases t r1 r2
  obtain ⟨hp, hm⟩ := arcHops_spec hR hd h1.1 h1.2 h2.1 h2.2
  refine ⟨isPath_map (fun r => t.npuAddressToId [r, g, n]) _ _ hp, ?_⟩
  intro hop hmem
  simp only [Ring_AllToAll_Switch.ringHops, List.mem_map] at hmem
  obtain ⟨a, ha, rfl⟩ := hmem
  obtain ⟨hr, hstep, hne⟩ := hm a ha
  refine ⟨a.1, t.computeDirection r1 r2, ?_, hr, by rw [hstep]⟩
  rcases hd with h | h
  · exact Or.inl h
  · refine Or.inr ⟨h, ?_, by omega⟩
    by_contra hb
    have := ring_allToAll_switch_computeDirection_forward t (by simpa using hb) r1 r2
    omega

/-- A ring of size R is no larger than R * A packages when A ≥ 1. -/
theorem le_mul_of_one_le {R A : Int} (hR : 0 ≤ R) (hA : 1 ≤ A) : R ≤ R * A := by
  have := Int.mul_le_mul_of_nonneg_left hA hR
  omega

/-- Adding the `route` costs of a hop list is monotone in the payload and in the
latency accumulated before, when `route` is non-decreasing in the payload. -/
theorem addRoutes_mono {L : Type} [LinearOrderedAddCommMonoid L] (P : Primitives L)
    (hroute : ∀ (u v a b : Int), a ≤ b → P.route u v a ≤ P.route u v b)
    {s1 s2 : Int} (h : s1 ≤ s2) :
    ∀ (hops : List (Int × Int)) (acc1 acc2 : L), acc1 ≤ acc2 →
      addRoutes P s1 acc1 hops ≤ addRoutes P s2 acc2 hops := by
  intro hops
  induction hops with
  | nil => intro acc1 acc2 hacc; simpa [addRoutes] using hacc
  | cons hop rest ih =>
    intro acc1 acc2 hacc
    simp only [addRoutes, List.foldl_cons]
    exact ih _ _ (add_le_add hacc (hroute _ _ _ _ h))

/-- One stage (serialize, NIC, hops, NIC) is monotone in the payload. -/
theorem stage_mono {L : Type} [LinearOrderedAddCommMonoid L] (P : Primitives L)
    (hser : ∀ (d : Nat) (a b : Int), a ≤ b → P.serialize a d ≤ P.serialize b d)
    (hroute : ∀ (u v a b : Int), a ≤ b → P.route u v a ≤ P.route u v b)
    {s1 s2 : Int} (h : s1 ≤ s2) (d : Nat) (hops : List (Int × Int)) (acc1 acc2 : L)
    (hacc : acc1 ≤ acc2) :
    addRoutes P s1 (acc1 + P.serialize s1 d + P.nicLatency d) hops + P.nicLatency d
      ≤ addRoutes P s2 (acc2 + P.serialize s2 d + P.nicLatency d) hops + P.nicLatency d :=
  add_le_add
    (addRoutes_mono P hroute h hops _ _ (add_le_add (add_le_add hacc (hser d _ _ h)) le_rfl))
    le_rfl

/-- The critical latency is monotone in the payload when it is `max` and
`hbmLatency` is non-decreasing. -/
theorem criticalLatency_mono {L : Type} [LinearOrderedAddCommMonoid L] (P : Primitives L)
    (hhbm : ∀ (d : Nat) (a b : Int), a ≤ b → P.hbmLatency a d ≤ P.hbmLatency b d)
    (hcrit : ∀ a b : L, P.criticalLatency a b = max a b)
    {s1 s2 : Int} (h : s1 ≤ s2) {a1 a2 : L} (ha : a1 ≤ a2) :
    P.criticalLatency a1 (P.hbmLatency s1 0) ≤ P.criticalLatency a2 (P.hbmLatency s2 0) := by
  rw [hcrit, hcrit]
  exact max_le_max ha (hhbm 0 _ _ h)

/-- `AllToAll::send` returns for valid ids and is monotone in the payload. -/
theorem allToAll_send_mono {L : Type} [LinearOrderedAddCommMonoid L] (P : Primitives L)
    (hser : ∀ (d : Nat) (a b : Int), a ≤ b → P.serialize a d ≤ P.serialize b d)
    (hroute : ∀ (u v a b : Int), a ≤ b → P.route u v a ≤ P.route u v b)
    (hhbm : ∀ (d : Nat) (a b : Int), a ≤ b → P.hbmLatency a d ≤ P.hbmLatency b d)
    (hcrit : ∀ a b : L, P.criticalLatency a b = max a b)
    {s1 s2 : Int} (h : s1 ≤ s2) (t : AllToAll) (src dest : Int)
    (hs : 0 ≤ src ∧ src < t.packages_count) (hd : 0 ≤ dest ∧ dest < t.packages_count) :
    ∃ l1 l2 : L, t.send P src dest s1 = .ok l1 ∧ t.send P src dest s2 = .ok l2 ∧ l1 ≤ l2 := by
  by_cases hne : src = dest
  · exact ⟨0, 0, by simp [AllToAll.send, hs, hd, hne], by simp [AllToAll.send, hs, hd, hne],
      le_rfl⟩
  · have e : ∀ s : Int, t.send P src dest s
        = .ok (P.criticalLatency
            (P.serialize s 0 + P.nicLatency 0 + P.route src dest s + P.nicLatency 0)
            (P.hbmLatency s 0)) := fun s => by
      simp only [AllToAll.send, hs, hd, hne, and_self, not_true, if_false]
    refine ⟨_, _, e s1, e s2, ?_⟩
    exact criticalLatency_mono P hhbm hcrit h
      (add_le_add (add_le_add (add_le_add (hser 0 _ _ h) le_rfl) (hroute _ _ _ _ h)) le_rfl)

/-- The hops of `AllToAll::send` do not depend on the payload. -/
theorem allToAll_send_hops (t : AllToAll) (src dest : Int)
    (hs : 0 ≤ src ∧ src < t.packages_count) (hd : 0 ≤ dest ∧ dest < t.packages_count) :
    ∃ hops : List (Int × Int), ∀ payload_size : Int, ∃ log : CallLog,
      t.send callLog src dest payload_size = .ok log ∧ log.hops = hops := by
  by_cases hne : src = dest
  · exact ⟨[], fun s => ⟨0, by simp [AllToAll.send, hs, hd, hne], rfl⟩⟩
  · have e : ∀ s : Int, t.send callLog src dest s
        = .ok ⟨[.serialize s 0, .nicLatency 0, .route src dest s, .nicLatency 0,
            .hbmLatency s 0]⟩ := fun s => by
      simp only [AllToAll.send, hs, hd, hne, and_self, not_true, if_false]
      rfl
    exact ⟨[(src, dest)], fun s => ⟨_, e s, rfl⟩⟩

/-- `Switch::send` returns for valid ids and is monotone in the payload. -/
theorem switch_send_mono {L : Type} [LinearOrderedAddCommMonoid L] (P : Primitives L)
    (hser : ∀ (d : Nat) (a b : Int), a ≤ b → P.serialize a d ≤ P.serialize b d)
    (hroute : ∀ (u v a b : Int), a ≤ b → P.route u v a ≤ P.route u v b)
    (hhbm : ∀ (d : Nat) (a b : Int), a ≤ b → P.hbmLatency a d ≤ P.hbmLatency b d)
    (hcrit : ∀ a b : L, P.criticalLatency a b = max a b)
    {s1 s2 : Int} (h : s1 ≤ s2) (t : Switch) (src dest : Int)
    (hs : 0 ≤ src ∧ src < t.packages_count) (hd : 0 ≤ dest ∧ dest < t.packages_count) :
    ∃ l1 l2 : L, t.send P src dest s1 = .ok l1 ∧ t.send P src dest s2 = .ok l2 ∧ l1 ≤ l2 := by
  by_cases hne : src = dest
  · exact ⟨0, 0, by simp [Switch.send, hs, hd, hne], by simp [Switch.send, hs, hd, hne],
      le_rfl⟩
  · have e : ∀ s : Int, t.send P src dest s
        = .ok (P.criticalLatency
            (P.serialize s 0 + P.nicLatency 0 + P.route src t.switch_id s + P.routerLatency 0
              + P.route t.switch_id dest s + P.nicLatency 0)
            (P.hbmLatency s 0)) := fun s => by
      simp only [Switch.send, hs, hd, hne, and_self, not_true, if_false]
    refine ⟨_, _, e s1, e s2, ?_⟩
    exact criticalLatency_mono P hhbm hcrit h
      (add_le_add (add_le_add (add_le_add (add_le_add (add_le_add (hser 0 _ _ h) le_rfl)
        (hroute _ _ _ _ h)) le_rfl) (hroute _ _ _ _ h)) le_rfl)

/-- The hops of `Switch::send` do not depend on the payload. -/
theorem switch_send_hops (t : Switch) (src dest : Int)
    (hs : 0 ≤ src ∧ src < t.packages_count) (hd : 0 ≤ dest ∧ dest < t.packages_count) :
    ∃ hops : List (Int × Int), ∀ payload_size : Int, ∃ log : CallLog,
      t.send callLog src dest payload_size = .ok log ∧ log.hops = hops := by
  by_cases hne : src = dest
  · exact ⟨[], fun s => ⟨0, by simp [Switch.send, hs, hd, hne], rfl⟩⟩
  · have e : ∀ s : Int, t.send callLog src dest s
        = .ok ⟨[.serialize s 0, .nicLatency 0, .route src t.switch_id s, .routerLatency 0,
            .route t.switch_id dest s, .nicLatency 0, .hbmLatency s 0]⟩ := fun s => by
      simp only [Switch.send, hs, hd, hne, and_self, not_true, if_false]
      rfl
    exact ⟨[(src, t.switch_id), (t.switch_id, dest)], fun s => ⟨_, e s, rfl⟩⟩

/-- `Ring::send` returns for valid ids and is monotone in the payload. -/
theorem ring_send_mono {L : Type} [LinearOrderedAddCommMonoid L] (P : Primitives L)
    (hser : ∀ (d : Nat) (a b : Int), a ≤ b → P.serialize a d ≤ P.serialize b d)
    (hroute : ∀ (u v a b : Int), a ≤ b → P.route u v a ≤ P.route u v b)
    (hhbm : ∀ (d : Nat) (a b : Int), a ≤ b → P.hbmLatency a d ≤ P.hbmLatency b d)
    (hcrit : ∀ a b : L, P.criticalLatency a b = max a b)
    {s1 s2 : Int} (h : s1 ≤ s2) (t : Ring) (src dest : Int)
    (hs : 0 ≤ src ∧ src < t.packages_count) (hd : 0 ≤ dest ∧ dest < t.packages_count)
    (fuel : Nat) (hfuel : t.packages_count ≤ fuel) :
    ∃ l1 l2 : L, t.send P fuel src dest s1 = .ok l1 ∧ t.send P fuel src dest s2 = .ok l2 ∧
      l1 ≤ l2 := by
  by_cases hne : src = dest
  · exact ⟨0, 0, by simp [Ring.send, hs, hd, hne], by simp [Ring.send, hs, hd, hne], le_rfl⟩
  · have hN : 0 < t.packages_count := by omega
    have hk := (Int.toNat_of_nonneg (Int.emod_nonneg
      (t.computeDirection src dest * (dest - src)) (by omega : t.packages_count ≠ 0))).symm
    have hlt := Int.emod_lt_of_pos (t.computeDirection src dest * (dest - src)) hN
    have hkf : ((t.computeDirection src dest * (dest - src)) % t.packages_count).toNat ≤ fuel := by
      omega
    refine ⟨_, _, ring_send_eq t P src dest s1 hs.1 hs.2 hd.1 hd.2 hne _ fuel hk hkf,
      ring_send_eq t P src dest s2 hs.1 hs.2 hd.1 hd.2 hne _ fuel hk hkf, ?_⟩
    exact criticalLatency_mono P hhbm hcrit h
      (add_le_add (addRoutes_mono P hroute h _ _ _ (add_le_add (hser 0 _ _ h) le_rfl)) le_rfl)

/-- The hops of `Ring::send` do not depend on the payload. -/
theorem ring_send_hops (t : Ring) (src dest : Int)
    (hs : 0 ≤ src ∧ src < t.packages_count) (hd : 0 ≤ dest ∧ dest < t.packages_count)
    (fuel : Nat) (hfuel : t.packages_count ≤ fuel) :
    ∃ hops : List (Int × Int), ∀ payload_size : Int, ∃ log : CallLog,
      t.send callLog fuel src dest payload_size = .ok log ∧ log.hops = hops := by
  by_cases hne : src = dest
  · exact ⟨[], fun s => ⟨0, by simp [Ring.send, hs, hd, hne], rfl⟩⟩
  · have hN : 0 < t.packages_count := by omega
    have hk := (Int.toNat_of_nonneg (Int.emod_nonneg
      (t.computeDirection src dest * (dest - src)) (by omega : t.packages_count ≠ 0))).symm
    have hlt := Int.emod_lt_of_pos (t.computeDirection src dest * (dest - src)) hN
    have hkf : ((t.computeDirection src dest * (dest - src)) % t.packages_count).toNat ≤ fuel := by
      omega
    exact ⟨_, fun s => ring_send_callLog_hops t src dest s hs.1 hs.2 hd.1 hd.2 hne _ fuel hk hkf⟩

/-- `Torus2D::send` returns for valid ids and is monotone in the payload. -/
theorem torus2D_send_mono {L : Type} [LinearOrderedAddCommMonoid L] (P : Primitives L)
    (hser : ∀ (d : Nat) (a b : Int), a ≤ b → P.serialize a d ≤ P.serialize b d)
    (hroute : ∀ (u v a b : Int), a ≤ b → P.route u v a ≤ P.route u v b)
    (hhbm : ∀ (d : Nat) (a b : Int), a ≤ b → P.hbmLatency a d ≤ P.hbmLatency b d)
    (hcrit : ∀ a b : L, P.criticalLatency a b = max a b)
    {s1 s2 : Int} (h : s1 ≤ s2) (t : Torus2D)
    (hpk : t.packages_count ≤ t.width * t.height) (hW : 1 ≤ t.width) (src dest : Int)
    (hs : 0 ≤ src ∧ src < t.packages_count) (hd : 0 ≤ dest ∧ dest < t.packages_count)
    (fuel : Nat) (hfuelW : t.width ≤ fuel) (hfuelH : t.height ≤ fuel) :
    ∃ l1 l2 : L, t.send P fuel src dest s1 = .ok l1 ∧ t.send P fuel src dest s2 = .ok l2 ∧
      l1 ≤ l2 := by
  by_cases hne : src = dest
  · exact ⟨0, 0, by simp [Torus2D.send, hs, hd, hne], by simp [Torus2D.send, hs, hd, hne],
      le_rfl⟩
  · obtain ⟨r1, c1, ha1, hr1, hc1, -⟩ := torus2D_coordinates t hW src hs.1 (lt_of_lt_of_le hs.2 hpk)
    obtain ⟨r2, c2, ha2, hr2, hc2, -⟩ := torus2D_coordinates t hW dest hd.1 (lt_of_lt_of_le hd.2 hpk)
    refine ⟨_, _,
      torus2D_send_eq t P src dest s1 hs.1 hs.2 hd.1 hd.2 hne r1 c1 r2 c2 ha1 ha2 hr1 hc1 hr2
        hc2 fuel hfuelW hfuelH,
      torus2D_send_eq t P src dest s2 hs.1 hs.2 hd.1 hd.2 hne r1 c1 r2 c2 ha1 ha2 hr1 hc1 hr2
        hc2 fuel hfuelW hfuelH, ?_⟩
    exact criticalLatency_mono P hhbm hcrit h
      (add_le_add (addRoutes_mono P hroute h _ _ _
        (addRoutes_mono P hroute h _ _ _ (add_le_add (hser 0 _ _ h) le_rfl))) le_rfl)

/-- The hops of `Torus2D::send` do not depend on the payload. -/
theorem torus2D_send_hops (t : Torus2D)
    (hpk : t.packages_count ≤ t.width * t.height) (hW : 1 ≤ t.width) (src dest : Int)
    (hs : 0 ≤ src ∧ src < t.packages_count) (hd : 0 ≤ dest ∧ dest < t.packages_count)
    (fuel : Nat) (hfuelW : t.width ≤ fuel) (hfuelH : t.height ≤ fuel) :
    ∃ hops : List (Int × Int), ∀ payload_size : Int, ∃ log : CallLog,
      t.send callLog fuel src dest payload_size = .ok log ∧ log.hops = hops := by
  by_cases hne : src = dest
  · exact ⟨[], fun s => ⟨0, by simp [Torus2D.send, hs, hd, hne], rfl⟩⟩
  · obtain ⟨r1, c1, ha1, hr1, hc1, -⟩ := torus2D_coordinates t hW src hs.1 (lt_of_lt_of_le hs.2 hpk)
    obtain ⟨r2, c2, ha2, hr2, hc2, -⟩ := torus2D_coordinates t hW dest hd.1 (lt_of_lt_of_le hd.2 hpk)
    refine ⟨t.colHops r1 c1 c2 ++ t.rowHops r1 r2 c2, fun s =>
      ⟨_, torus2D_send_callLog t src dest s hs.1 hs.2 hd.1 hd.2 hne r1 c1 r2 c2 ha1 ha2 hr1 hc1
        hr2 hc2 fuel hfuelW hfuelH, ?_⟩⟩
    simp only [CallLog.hops, List.filterMap_append, hops_stageCalls]
    simp [List.filterMap_cons, Call.hop?]

/-- The all-to-all stage of Ring_AllToAll is monotone in the payload. -/
theorem ring_allToAll_allToAllStage_mono {L : Type} [LinearOrderedAddCommMonoid L]
    (P : Primitives L)
    (hser : ∀ (d : Nat) (a b : Int), a ≤ b → P.serialize a d ≤ P.serialize b d)
    (hroute : ∀ (u v a b : Int), a ≤ b → P.route u v a ≤ P.route u v b)
    {s1 s2 : Int} (h : s1 ≤ s2) (t : Ring_AllToAll) (dest : Int)
    (dest_address current_address : NpuAddress) (acc1 acc2 : L) (hacc : acc1 ≤ acc2) :
    t.allToAllStage P dest dest_address s1 current_address acc1
      ≤ t.allToAllStage P dest dest_address s2 current_address acc2 := by
  unfold Ring_AllToAll.allToAllStage
  split
  · exact add_le_add (add_le_add (add_le_add (add_le_add hacc (hser 1 _ _ h)) le_rfl)
      (hroute _ _ _ _ h)) le_rfl
  · exact hacc

/-- The all-to-all stage of Ring_AllToAll_Switch is monotone in the payload. -/
theorem ring_allToAll_switch_allToAllStage_mono {L : Type} [LinearOrderedAddCommMonoid L]
    (P : Primitives L)
    (hser : ∀ (d : Nat) (a b : Int), a ≤ b → P.serialize a d ≤ P.serialize b d)
    (hroute : ∀ (u v a b : Int), a ≤ b → P.route u v a ≤ P.route u v b)
    {s1 s2 : Int} (h : s1 ≤ s2) (t : Ring_AllToAll_Switch) (dest : Int)
    (dest_address current_address : NpuAddress) (acc1 acc2 : L) (hacc : acc1 ≤ acc2) :
    t.allToAllStage P dest dest_address s1 current_address acc1
      ≤ t.allToAllStage P dest dest_address s2 current_address acc2 := by
  unfold Ring_AllToAll_Switch.allToAllStage
  split
  · exact add_le_add (add_le_add (add_le_add (add_le_add hacc (hser 1 _ _ h)) le_rfl)
      (hroute _ _ _ _ h)) le_rfl
  · exact hacc

/-- `Ring_AllToAll::send` returns for valid ids and is monotone in the payload. -/
theorem ring_allToAll_send_mono {L : Type} [LinearOrderedAddCommMonoid L] (P : Primitives L)
    (hser : ∀ (d : Nat) (a b : Int), a ≤ b → P.serialize a d ≤ P.serialize b d)
    (hroute : ∀ (u v a b : Int), a ≤ b → P.route u v a ≤ P.route u v b)
    (hhbm : ∀ (d : Nat) (a b : Int), a ≤ b → P.hbmLatency a d ≤ P.hbmLatency b d)
    (hcrit : ∀ a b : L, P.criticalLatency a b = max a b)
    {s1 s2 : Int} (h : s1 ≤ s2) (t : Ring_AllToAll)
    (hpk : t.packages_count = t.ring_size * t.all_to_all_size) (hR : 1 ≤ t.ring_size)
    (src dest : Int)
    (hs : 0 ≤ src ∧ src < t.packages_count) (hd : 0 ≤ dest ∧ dest < t.packages_count)
    (fuel : Nat) (hfuel : t.ring_size ≤ fuel) :
    ∃ l1 l2 : L, t.send P fuel src dest s1 = .ok l1 ∧ t.send P fuel src dest s2 = .ok l2 ∧
      l1 ≤ l2 := by
  by_cases hne : src = dest
  · exact ⟨0, 0, by simp [Ring_AllToAll.send, hs, hd, hne],
      by simp [Ring_AllToAll.send, hs, hd, hne], le_rfl⟩
  · obtain ⟨r1, g1, ha1, hr1, -, -⟩ :=
      ring_allToAll_address_of_valid t hR src hs.1 (hpk ▸ hs.2)
    obtain ⟨r2, g2, ha2, hr2, -, -⟩ :=
      ring_allToAll_address_of_valid t hR dest hd.1 (hpk ▸ hd.2)
    refine ⟨_, _,
      ring_allToAll_send_eq t P src dest s1 hs.1 hs.2 hd.1 hd.2 hne r1 g1 r2 g2 ha1 ha2 hr1.1
        hr1.2 hr2.1 hr2.2 fuel hfuel,
      ring_allToAll_send_eq t P src dest s2 hs.1 hs.2 hd.1 hd.2 hne r1 g1 r2 g2 ha1 ha2 hr1.1
        hr1.2 hr2.1 hr2.2 fuel hfuel, ?_⟩
    refine criticalLatency_mono P hhbm hcrit h
      (ring_allToAll_allToAllStage_mono P hser hroute h t _ _ _ _ _ ?_)
    split
    · exact stage_mono P hser hroute h 0 _ _ _ le_rfl
    · exact le_rfl

/-- The hops of `Ring_AllToAll::send` do not depend on the payload. -/
theorem ring_allToAll_send_hops (t : Ring_AllToAll)
    (hpk : t.packages_count = t.ring_size * t.all_to_all_size) (hR : 1 ≤ t.ring_size)
    (src dest : Int)
    (hs : 0 ≤ src ∧ src < t.packages_count) (hd : 0 ≤ dest ∧ dest < t.packages_count)
    (fuel : Nat) (hfuel : t.ring_size ≤ fuel) :
    ∃ hops : List (Int × Int), ∀ payload_size : Int, ∃ log : CallLog,
      t.send callLog fuel src dest payload_size = .ok log ∧ log.hops = hops := by
  by_cases hne : src = dest
  · exact ⟨[], fun s => ⟨0, by simp [Ring_AllToAll.send, hs, hd, hne], rfl⟩⟩
  · obtain ⟨r1, g1, ha1, hr1, -, -⟩ :=
      ring_allToAll_address_of_valid t hR src hs.1 (hpk ▸ hs.2)
    obtain ⟨r2, g2, ha2, hr2, -, -⟩ :=
      ring_allToAll_address_of_valid t hR dest hd.1 (hpk ▸ hd.2)
    have hnil : ¬ r1 ≠ r2 → t.ringHops r1 r2 g1 = [] := by
      intro h
      rw [not_not.1 h]
      simp [Ring_AllToAll.ringHops, arcHops_self]
    exact ⟨_, fun s =>
      ⟨_, ring_allToAll_send_callLog t src dest s hs.1 hs.2 hd.1 hd.2 hne r1 g1 r2 g2 ha1 ha2
        hr1.1 hr1.2 hr2.1 hr2.2 fuel hfuel,
        (taggedHops_two_stages s (r1 ≠ r2) (g1 ≠ g2) (t.ringHops r1 r2 g1)
          (t.npuAddressToId [r2, g1], dest) hnil).2⟩⟩

/-- `Ring_AllToAll_Switch::send` between two nodes: the switch stage alone. -/
theorem ring_allToAll_switch_send_cross {L : Type} [Zero L] [Add L]
    (t : Ring_AllToAll_Switch) (P : Primitives L) (src dest payload_size : Int)
    (hs0 : 0 ≤ src) (hs : src < t.packages_count)
    (hd0 : 0 ≤ dest) (hd : dest < t.packages_count)
    (hn : (t.npuIdToAddress src).at 2 ≠ (t.npuIdToAddress dest).at 2) (fuel : Nat) :
    t.send P fuel src dest payload_size
      = .ok (P.criticalLatency
          (0 + P.serialize payload_size 2 + P.nicLatency 2
            + P.route src t.switch_id payload_size + P.routerLatency 2
            + P.route t.switch_id dest payload_size + P.nicLatency 2)
          (P.hbmLatency payload_size 0)) := by
  have hne : src ≠ dest := by
    intro h
    rw [h] at hn
    exact hn rfl
  simp only [Ring_AllToAll_Switch.send, Ring_AllToAll_Switch.linkLatency, hs0, hs, hd0, hd,
    hne, and_self, not_true, if_false, hn, ne_eq, not_false_eq_true, if_true,
    Ring_AllToAll_Switch.switchStage]

/-- `Ring_AllToAll_Switch::send` returns for valid ids and is monotone in the payload. -/
theorem ring_allToAll_switch_send_mono {L : Type} [LinearOrderedAddCommMonoid L]
    (P : Primitives L)
    (hser : ∀ (d : Nat) (a b : Int), a ≤ b → P.serialize a d ≤ P.serialize b d)
    (hroute : ∀ (u v a b : Int), a ≤ b → P.route u v a ≤ P.route u v b)
    (hhbm : ∀ (d : Nat) (a b : Int), a ≤ b → P.hbmLatency a d ≤ P.hbmLatency b d)
    (hcrit : ∀ a b : L, P.criticalLatency a b = max a b)
    {s1 s2 : Int} (h : s1 ≤ s2) (t : Ring_AllToAll_Switch)
    (hnode : t.node_packages_count = t.ring_size * t.all_to_all_size)
    (hpk : t.packages_count = t.ring_size * t.all_to_all_size * t.switch_size)
    (hR : 1 ≤ t.ring_size) (hA : 1 ≤ t.all_to_all_size) (src dest : Int)
    (hs : 0 ≤ src ∧ src < t.packages_count) (hd : 0 ≤ dest ∧ dest < t.packages_count)
    (fuel : Nat) (hfuel : t.ring_size ≤ fuel) :
    ∃ l1 l2 : L, t.send P fuel src dest s1 = .ok l1 ∧ t.send P fuel src dest s2 = .ok l2 ∧
      l1 ≤ l2 := by
  by_cases hne : src = dest
  · exact ⟨0, 0, by simp [Ring_AllToAll_Switch.send, hs, hd, hne],
      by simp [Ring_AllToAll_Switch.send, hs, hd, hne], le_rfl⟩
  · obtain ⟨r1, g1, n1, ha1, hr1, -, -, -, -⟩ :=
      ring_allToAll_switch_address_of_valid t hnode hR hA src hs.1 (hpk ▸ hs.2)
    obtain ⟨r2, g2, n2, ha2, hr2, -, -, -, -⟩ :=
      ring_allToAll_switch_address_of_valid t hnode hR hA dest hd.1 (hpk ▸ hd.2)
    by_cases hn : n1 = n2
    · subst hn
      refine ⟨_, _,
        ring_allToAll_switch_send_same_node t P src dest s1 hs.1 hs.2 hd.1 hd.2 hne r1 g1 r2 g2
          n1 ha1 ha2 hr1.1 hr1.2 hr2.1 hr2.2 fuel hfuel,
        ring_allToAll_switch_send_same_node t P src dest s2 hs.1 hs.2 hd.1 hd.2 hne r1 g1 r2 g2
          n1 ha1 ha2 hr1.1 hr1.2 hr2.1 hr2.2 fuel hfuel, ?_⟩
      refine criticalLatency_mono P hhbm hcrit h
        (ring_allToAll_switch_allToAllStage_mono P hser hroute h t _ _ _ _ _ ?_)
      split
      · exact stage_mono P hser hroute h 0 _ _ _ le_rfl
      · exact le_rfl
    · have hn' : (t.npuIdToAddress src).at 2 ≠ (t.npuIdToAddress dest).at 2 := by
        simpa [ha1, ha2, NpuAddress.at] using hn
      refine ⟨_, _,
        ring_allToAll_switch_send_cross t P src dest s1 hs.1 hs.2 hd.1 hd.2 hn' fuel,
        ring_allToAll_switch_send_cross t P src dest s2 hs.1 hs.2 hd.1 hd.2 hn' fuel, ?_⟩
      exact criticalLatency_mono P hhbm hcrit h
        (add_le_add (add_le_add (add_le_add (add_le_add (add_le_add (add_le_add le_rfl
          (hser 2 _ _ h)) le_rfl) (hroute _ _ _ _ h)) le_rfl) (hroute _ _ _ _ h)) le_rfl)

/-- The hops of `Ring_AllToAll_Switch::send` do not depend on the payload. -/
theorem ring_allToAll_switch_send_hops (t : Ring_AllToAll_Switch)
    (hnode : t.node_packages_count = t.ring_size * t.all_to_all_size)
    (hpk : t.packages_count = t.ring_size * t.all_to_all_size * t.switch_size)
    (hR : 1 ≤ t.ring_size) (hA : 1 ≤ t.all_to_all_size) (src dest : Int)
    (hs : 0 ≤ src ∧ src < t.packages_count) (hd : 0 ≤ dest ∧ dest < t.packages_count)
    (fuel : Nat) (hfuel : t.ring_size ≤ fuel) :
    ∃ hops : List (Int × Int), ∀ payload_size : Int, ∃ log : CallLog,
      t.send callLog fuel src dest payload_size = .ok log ∧ log.hops = hops := by
  by_cases hne : src = dest
  · exact ⟨[], fun s => ⟨0, by simp [Ring_AllToAll_Switch.send, hs, hd, hne], rfl⟩⟩
  · obtain ⟨r1, g1, n1, ha1, hr1, -, -, -, -⟩ :=
      ring_allToAll_switch_address_of_valid t hnode hR hA src hs.1 (hpk ▸ hs.2)
    obtain ⟨r2, g2, n2, ha2, hr2, -, -, -, -⟩ :=
      ring_allToAll_switch_address_of_valid t hnode hR hA dest hd.1 (hpk ▸ hd.2)
    by_cases hn : n1 = n2
    · subst hn
      have hnil : ¬ r1 ≠ r2 → t.ringHops r1 r2 g1 n1 = [] := by
        intro h
        rw [not_not.1 h]
        simp [Ring_AllToAll_Switch.ringHops, arcHops_self]
      exact ⟨_, fun s =>
        ⟨_, ring_allToAll_switch_send_callLog t src dest s hs.1 hs.2 hd.1 hd.2 hne r1 g1 r2 g2
          n1 ha1 ha2 hr1.1 hr1.2 hr2.1 hr2.2 fuel hfuel,
          (taggedHops_two_stages s (r1 ≠ r2) (g1 ≠ g2) (t.ringHops r1 r2 g1 n1)
            (t.npuAddressToId [r2, g1, n1], dest) hnil).2⟩⟩
    · have hn' : (t.npuIdToAddress src).at 2 ≠ (t.npuIdToAddress dest).at 2 := by
        simpa [ha1, ha2, NpuAddress.at] using hn
      exact ⟨[(src, t.switch_id), (t.switch_id, dest)], fun s =>
        ⟨_, ring_allToAll_switch_send_callLog_cross t src dest s hs.1 hs.2 hd.1 hd.2 hn' fuel,
          rfl⟩⟩

/-- C18: with a cost model whose `serialize`, `route` and `hbmLatency` are
non-decreasing in the payload size and whose `criticalLatency` is `max`, for each of
the six graph-walking variants (with sizes as its constructor leaves them, every
dimension at least 1, and fuel for the longest ring) and every pair of valid ids:
`send` returns for every payload size, the hops it passes to `route` are the same
list for every payload size, and its latency for `s1` is at most that for `s2`
whenever `s1 ≤ s2`. -/
theorem send_monotone_in_payload {L C : Type} [LinearOrderedAddCommMonoid L]
    (P : Primitives L)
    (hser : ∀ (d : Nat) (a b : Int), a ≤ b → P.serialize a d ≤ P.serialize b d)
    (hroute : ∀ (u v a b : Int), a ≤ b → P.route u v a ≤ P.route u v b)
    (hhbm : ∀ (d : Nat) (a b : Int), a ≤ b → P.hbmLatency a d ≤ P.hbmLatency b d)
    (hcrit : ∀ a b : L, P.criticalLatency a b = max a b)
    (s1 s2 : Int) (h : s1 ≤ s2) (fuel : Nat) (cfgs : List (TopologyConfiguration C))
    (src dest : Int) :
    (∀ t : Ring, Ring.new cfgs = .ok t →
      (0 ≤ src ∧ src < t.packages_count) → (0 ≤ dest ∧ dest < t.packages_count) →
      t.packages_count ≤ fuel →
      (∃ hops : List (Int × Int), ∀ payload_size : Int, ∃ log : CallLog,
        t.send callLog fuel src dest payload_size = .ok log ∧ log.hops = hops) ∧
      ∃ l1 l2 : L, t.send P fuel src dest s1 = .ok l1 ∧ t.send P fuel src dest s2 = .ok l2 ∧
        l1 ≤ l2) ∧
    (∀ t : Switch, Switch.new cfgs = .ok t →
      (0 ≤ src ∧ src < t.packages_count) → (0 ≤ dest ∧ dest < t.packages_count) →
      (∃ hops : List (Int × Int), ∀ payload_size : Int, ∃ log : CallLog,
        t.send callLog src dest payload_size = .ok log ∧ log.hops = hops) ∧
      ∃ l1 l2 : L, t.send P src dest s1 = .ok l1 ∧ t.send P src dest s2 = .ok l2 ∧ l1 ≤ l2) ∧
    (∀ t : AllToAll, AllToAll.new cfgs = .ok t →
      (0 ≤ src ∧ src < t.packages_count) → (0 ≤ dest ∧ dest < t.packages_count) →
      (∃ hops : List (Int × Int), ∀ payload_size : Int, ∃ log : CallLog,
        t.send callLog src dest payload_size = .ok log ∧ log.hops = hops) ∧
      ∃ l1 l2 : L, t.send P src dest s1 = .ok l1 ∧ t.send P src dest s2 = .ok l2 ∧ l1 ≤ l2) ∧
    (∀ t : Torus2D, Torus2D.new cfgs = .ok t → 1 ≤ t.width → 1 ≤ t.height →
      (0 ≤ src ∧ src < t.packages_count) → (0 ≤ dest ∧ dest < t.packages_count) →
      t.width ≤ fuel → t.height ≤ fuel →
      (∃ hops : List (Int × Int), ∀ payload_size : Int, ∃ log : CallLog,
        t.send callLog fuel src dest payload_size = .ok log ∧ log.hops = hops) ∧
      ∃ l1 l2 : L, t.send P fuel src dest s1 = .ok l1 ∧ t.send P fuel src dest s2 = .ok l2 ∧
        l1 ≤ l2) ∧
    (∀ t : Ring_AllToAll, Ring_AllToAll.new cfgs = .ok t →
      1 ≤ t.ring_size → 1 ≤ t.all_to_all_size →
      (0 ≤ src ∧ src < t.packages_count) → (0 ≤ dest ∧ dest < t.packages_count) →
      t.ring_size ≤ fuel →
      (∃ hops : List (Int × Int), ∀ payload_size : Int, ∃ log : CallLog,
        t.send callLog fuel src dest payload_size = .ok log ∧ log.hops = hops) ∧
      ∃ l1 l2 : L, t.send P fuel src dest s1 = .ok l1 ∧ t.send P fuel src dest s2 = .ok l2 ∧
        l1 ≤ l2) ∧
    (∀ t : Ring_AllToAll_Switch, Ring_AllToAll_Switch.new cfgs = .ok t →
      1 ≤ t.ring_size → 1 ≤ t.all_to_all_size → 1 ≤ t.switch_size →
      (0 ≤ src ∧ src < t.packages_count) → (0 ≤ dest ∧ dest < t.packages_count) →
      t.ring_size ≤ fuel →
      (∃ hops : List (Int × Int), ∀ payload_size : Int, ∃ log : CallLog,
        t.send callLog fuel src dest payload_size = .ok log ∧ log.hops = hops) ∧
      ∃ l1 l2 : L, t.send P fuel src dest s1 = .ok l1 ∧ t.send P fuel src dest s2 = .ok l2 ∧
        l1 ≤ l2) := by
  refine ⟨?_, ?_, ?_, ?_, ?_, ?_⟩
  · intro t _ hs hd hfuel
    exact ⟨ring_send_hops t src dest hs hd fuel hfuel,
      ring_send_mono P hser hroute hhbm hcrit h t src dest hs hd fuel hfuel⟩
  · intro t _ hs hd
    exact ⟨switch_send_hops t src dest hs hd,
      switch_send_mono P hser hroute hhbm hcrit h t src dest hs hd⟩
  · intro t _ hs hd
    exact ⟨allToAll_send_hops t src dest hs hd,
      allToAll_send_mono P hser hroute hhbm hcrit h t src dest hs hd⟩
  · intro t hnew hW hH hs hd hfuelW hfuelH
    have hpk := torus2D_new_count_le hnew hW hH
    exact ⟨torus2D_send_hops t hpk hW src dest hs hd fuel hfuelW hfuelH,
      torus2D_send_mono P hser hroute hhbm hcrit h t hpk hW src dest hs hd fuel hfuelW hfuelH⟩
  · intro t hnew hR _ hs hd hfuel
    obtain ⟨hpk, -⟩ := ring_allToAll_new_members hnew
    exact ⟨ring_allToAll_send_hops t hpk hR src dest hs hd fuel hfuel,
      ring_allToAll_send_mono P hser hroute hhbm hcrit h t hpk hR src dest hs hd fuel hfuel⟩
  · intro t hnew hR hA _ hs hd hfuel
    obtain ⟨hnode, hpk, -⟩ := ring_allToAll_switch_new_members hnew
    exact ⟨ring_allToAll_switch_send_hops t hnode hpk hR hA src dest hs hd fuel hfuel,
      ring_allToAll_switch_send_mono P hser hroute hhbm hcrit h t hnode hpk hR hA src dest hs hd
        fuel hfuel⟩

/-- Witness of C18: payloads 64 and 128 from id 0 to id 5 of the sample 3 x 2 x 2
topology under `samplePrimitives`. -/
theorem send_monotone_in_payload_witness :
    (64 : Int) ≤ 128 ∧
    Ring_AllToAll_Switch.new sampleNodeConfigurations = .ok sampleNodes ∧
    (∃ hops : List (Int × Int), ∀ payload_size : Int, ∃ log : CallLog,
      sampleNodes.send callLog 12 0 5 payload_size = .ok log ∧ log.hops = hops) ∧
    ∃ l1 l2 : Int, sampleNodes.send samplePrimitives 12 0 5 64 = .ok l1 ∧
      sampleNodes.send samplePrimitives 12 0 5 128 = .ok l2 ∧ l1 ≤ l2 :=
  ⟨by decide, rfl,
    (send_monotone_in_payload samplePrimitives
      (fun _ _ _ hab => Int.ediv_le_ediv (by decide) hab)
      (fun _ _ _ _ hab => Int.add_le_add_left (Int.ediv_le_ediv (by decide) hab) 500)
      (fun _ _ _ hab => Int.add_le_add_left
        (Int.mul_le_mul_of_nonneg_right (Int.ediv_le_ediv (by decide) hab) (by decide)) 100)
      (fun _ _ => rfl) 64 128 (by decide) 12 sampleNodeConfigurations 0 5).2.2.2.2.2
      sampleNodes rfl (by decide) (by decide) (by decide) (by decide) (by decide) (by decide)⟩

/-! ## Shape of the hierarchical addresses (C30) -/

/-- No call of a stage is an HBM call. -/
theorem stageCalls_no_hbm (payload_size : Int) (dimension : Nat) (hops : List (Int × Int)) :
    ∀ c ∈ stageCalls payload_size dimension hops, ∀ (p : Int) (d : Nat),
      c ≠ Call.hbmLatency p d := by
  intro c hc p d
  simp only [stageCalls, List.mem_append, List.mem_cons, List.mem_singleton, List.mem_map,
    List.not_mem_nil, or_false] at hc
  rcases hc with ((rfl | rfl) | ⟨hop, -, rfl⟩) | rfl <;> simp

/-- C29: in Ring_AllToAll and Ring_AllToAll_Switch, for every pair of distinct valid
ids, `send` returns criticalLatency(link_latency, hbmLatency(payload_size, 0)) for
some link latency; in the call log the only HBM call is the last call,
hbmLatency(payload_size, 0), on dimension 0, whichever of the ring, all-to-all and
switch stages come before it. -/
theorem hbm_term_is_dimension_zero {C L : Type} [Zero L] [Add L] (P : Primitives L)
    (cfgs : List (TopologyConfiguration C)) (src dest payload_size : Int) (fuel : Nat) :
    (∀ t : Ring_AllToAll, Ring_AllToAll.new cfgs = .ok t →
      1 ≤ t.ring_size → 1 ≤ t.all_to_all_size →
      (0 ≤ src ∧ src < t.packages_count) → (0 ≤ dest ∧ dest < t.packages_count) →
      src ≠ dest → t.ring_size ≤ fuel →
      (∃ link_latency : L, t.send P fuel src dest payload_size
        = .ok (P.criticalLatency link_latency (P.hbmLatency payload_size 0))) ∧
      ∃ linkCalls : List Call, t.send callLog fuel src dest payload_size
          = .ok ⟨linkCalls ++ [.hbmLatency payload_size 0]⟩ ∧
        ∀ c ∈ linkCalls, ∀ (p : Int) (d : Nat), c ≠ Call.hbmLatency p d) ∧
    (∀ t : Ring_AllToAll_Switch, Ring_AllToAll_Switch.new cfgs = .ok t →
      1 ≤ t.ring_size → 1 ≤ t.all_to_all_size → 1 ≤ t.switch_size →
      (0 ≤ src ∧ src < t.packages_count) → (0 ≤ dest ∧ dest < t.packages_count) →
      src ≠ dest → t.ring_size ≤ fuel →
      (∃ link_latency : L, t.send P fuel src dest payload_size
        = .ok (P.criticalLatency link_latency (P.hbmLatency payload_size 0))) ∧
      ∃ linkCalls : List Call, t.send callLog fuel src dest payload_size
          = .ok ⟨linkCalls ++ [.hbmLatency payload_size 0]⟩ ∧
        ∀ c ∈ linkCalls, ∀ (p : Int) (d : Nat), c ≠ Call.hbmLatency p d) := by
  constructor
  · intro t hnew hR _ hs hd hne hfuel
    obtain ⟨hpk, -⟩ := ring_allToAll_new_members hnew
    obtain ⟨r1, g1, ha1, hr1, -, -⟩ :=
      ring_allToAll_address_of_valid t hR src hs.1 (hpk ▸ hs.2)
    obtain ⟨r2, g2, ha2, hr2, -, -⟩ :=
      ring_allToAll_address_of_valid t hR dest hd.1 (hpk ▸ hd.2)
    refine ⟨⟨_, ring_allToAll_send_eq t P src dest payload_size hs.1 hs.2 hd.1 hd.2 hne r1 g1
        r2 g2 ha1 ha2 hr1.1 hr1.2 hr2.1 hr2.2 fuel hfuel⟩,
      _, ring_allToAll_send_callLog t src dest payload_size hs.1 hs.2 hd.1 hd.2 hne r1 g1
        r2 g2 ha1 ha2 hr1.1 hr1.2 hr2.1 hr2.2 fuel hfuel, ?_⟩
    intro c hc
    rw [List.mem_append] at hc
    rcases hc with hc | hc
    · split at hc
      · exact stageCalls_no_hbm _ _ _ c hc
      · simp at hc
    · split at hc
      · exact stageCalls_no_hbm _ _ _ c hc
      · simp at hc
  · intro t hnew hR hA _ hs hd hne hfuel
    obtain ⟨hnode, hpk, -⟩ := ring_allToAll_switch_new_members hnew
    obtain ⟨r1, g1, n1, ha1, hr1, -, -, -, -⟩ :=
      ring_allToAll_switch_address_of_valid t hnode hR hA src hs.1 (hpk ▸ hs.2)
    obtain ⟨r2, g2, n2, ha2, hr2, -, -, -, -⟩ :=
      ring_allToAll_switch_address_of_valid t hnode hR hA dest hd.1 (hpk ▸ hd.2)
    by_cases hn : n1 = n2
    · subst hn
      refine ⟨⟨_, ring_allToAll_switch_send_same_node t P src dest payload_size hs.1 hs.2 hd.1
          hd.2 hne r1 g1 r2 g2 n1 ha1 ha2 hr1.1 hr1.2 hr2.1 hr2.2 fuel hfuel⟩,
        _, ring_allToAll_switch_send_callLog t src dest payload_size hs.1 hs.2 hd.1 hd.2 hne
          r1 g1 r2 g2 n1 ha1 ha2 hr1.1 hr1.2 hr2.1 hr2.2 fuel hfuel, ?_⟩
      intro c hc
      rw [List.mem_append] at hc
      rcases hc with hc | hc
      · split at hc
        · exact stageCalls_no_hbm _ _ _ c hc
        · simp at hc
      · split at hc
        · exact stageCalls_no_hbm _ _ _ c hc
        · simp at hc
    · have hn' : (t.npuIdToAddress src).at 2 ≠ (t.npuIdToAddress dest).at 2 := by
        simpa [ha1, ha2, NpuAddress.at] using hn
      refine ⟨⟨_, ring_allToAll_switch_send_cross t P src dest payload_size hs.1 hs.2 hd.1
          hd.2 hn' fuel⟩,
        [.serialize payload_size 2, .nicLatency 2, .route src t.switch_id payload_size,
          .routerLatency 2, .route t.switch_id dest payload_size, .nicLatency 2],
        ring_allToAll_switch_send_callLog_cross t src dest payload_size hs.1 hs.2 hd.1 hd.2
          hn' fuel, ?_⟩
      intro c hc p d
      simp only [List.mem_cons, List.mem_singleton, List.not_mem_nil, or_false] at hc
      rcases hc with rfl | rfl | rfl | rfl | rfl | rfl <;> simp

/-- Witness of C29: from id 0 to id 11 (another node) of the sample 3 x 2 x 2
topology, under `samplePrimitives`. -/
theorem hbm_term_is_dimension_zero_witness :
    Ring_AllToAll_Switch.new sampleNodeConfigurations = .ok sampleNodes ∧ (0 : Int) ≠ 11 ∧
    (∃ link_latency : Int, sampleNodes.send samplePrimitives 3 0 11 64
      = .ok (samplePrimitives.criticalLatency link_latency
          (samplePrimitives.hbmLatency 64 0))) ∧
    ∃ linkCalls : List Call, sampleNodes.send callLog 3 0 11 64
        = .ok ⟨linkCalls ++ [.hbmLatency 64 0]⟩ ∧
      ∀ c ∈ linkCalls, ∀ (p : Int) (d : Nat), c ≠ Call.hbmLatency p d :=
  ⟨rfl, by decide,
    (hbm_term_is_dimension_zero samplePrimitives sampleNodeConfigurations 0 11 64 3).2
      sampleNodes rfl (by decide) (by decide) (by decide) (by decide) (by decide) (by decide)
      (by decide)⟩

/-! ## Ring_AllToAll: the latency as a sum of two stages (C26) -/

/-- Accumulating the `route` costs of a hop list adds their sum. -/
theorem addRoutes_eq_sum {L : Type} [AddMonoid L] (P : Primitives L) (payload_size : Int) :
    ∀ (hops : List (Int × Int)) (acc : L),
      addRoutes P payload_size acc hops
        = acc + (hops.map (fun hop => P.route hop.1 hop.2 payload_size)).sum := by
  intro hops
  induction hops with
  | nil => intro acc; simp [addRoutes]
  | cons hop rest ih =>
    intro acc
    have h := ih (acc + P.route hop.1 hop.2 payload_size)
    simp only [addRoutes, List.foldl_cons, List.map_cons, List.sum_cons] at h ⊢
    rw [h, add_assoc]

/-- C26: in Ring_AllToAll with R, A ≥ 1, for distinct valid ids src = (r1, g1) and
dest = (r2, g2), `send` returns criticalLatency(L, hbmLatency(s, 0)) where L is the sum
of the ring stage serialize(s,0) + 2*nicLatency(0) + the route costs of the ring hops
(a path from (r1, g1) to (r2, g1)), present exactly when r1 ≠ r2, and the all-to-all
stage serialize(s,1) + 2*nicLatency(1) + route((r2, g1) -> dest), present exactly when
g1 ≠ g2; the call log shows the ring stage first and one hop in the all-to-all
stage. -/
theorem ring_allToAll_send_sum {C L : Type} [AddCommMonoid L] (P : Primitives L)
    (cfgs : List (TopologyConfiguration C)) (t : Ring_AllToAll)
    (hnew : Ring_AllToAll.new cfgs = .ok t)
    (hR : 1 ≤ t.ring_size) (_hA : 1 ≤ t.all_to_all_size) (src dest payload_size : Int)
    (hs : 0 ≤ src ∧ src < t.packages_count) (hd : 0 ≤ dest ∧ dest < t.packages_count)
    (hne : src ≠ dest) (fuel : Nat) (hfuel : t.ring_size ≤ fuel) :
    ∃ r1 g1 r2 g2 : Int,
      t.npuIdToAddress src = [r1, g1] ∧ t.npuIdToAddress dest = [r2, g2] ∧
      IsPath src (t.ringHops r1 r2 g1) (t.npuAddressToId [r2, g1]) ∧
      (r1 = r2 → t.ringHops r1 r2 g1 = []) ∧
      t.send P fuel src dest payload_size
        = .ok (P.criticalLatency
            ((if r1 ≠ r2 then
                P.serialize payload_size 0 + 2 • P.nicLatency 0
                  + ((t.ringHops r1 r2 g1).map
                      (fun hop => P.route hop.1 hop.2 payload_size)).sum
              else 0)
              + (if g1 ≠ g2 then
                  P.serialize payload_size 1 + 2 • P.nicLatency 1
                    + P.route (t.npuAddressToId [r2, g1]) dest payload_size
                else 0))
            (P.hbmLatency payload_size 0)) ∧
      t.send callLog fuel src dest payload_size
        = .ok ⟨(if r1 ≠ r2 then stageCalls payload_size 0 (t.ringHops r1 r2 g1) else [])
            ++ (if g1 ≠ g2 then
                  stageCalls payload_size 1 [(t.npuAddressToId [r2, g1], dest)]
                else [])
            ++ [.hbmLatency payload_size 0]⟩ := by
  obtain ⟨hpk, -⟩ := ring_allToAll_new_members hnew
  obtain ⟨r1, g1, ha1, hr1, hg1, hid1⟩ :=
    ring_allToAll_address_of_valid t hR src hs.1 (hpk ▸ hs.2)
  obtain ⟨r2, g2, ha2, hr2, hg2, hid2⟩ :=
    ring_allToAll_address_of_valid t hR dest hd.1 (hpk ▸ hd.2)
  have hsrc : src = t.npuAddressToId [r1, g1] := by
    rw [ring_allToAll_npuAddressToId_eq]; exact hid1
  refine ⟨r1, g1, r2, g2, ha1, ha2, ?_, ?_, ?_,
    ring_allToAll_send_callLog t src dest payload_size hs.1 hs.2 hd.1 hd.2 hne r1 g1 r2 g2
      ha1 ha2 hr1.1 hr1.2 hr2.1 hr2.2 fuel hfuel⟩
  · rw [hsrc]
    exact (ring_allToAll_ringHops_spec t hR r1 r2 g1 hr1 hr2).1
  · intro h
    rw [h]
    simp [Ring_AllToAll.ringHops, arcHops_self]
  · rw [ring_allToAll_send_eq t P src dest payload_size hs.1 hs.2 hd.1 hd.2 hne r1 g1 r2 g2
      ha1 ha2 hr1.1 hr1.2 hr2.1 hr2.2 fuel hfuel]
    congr 2
    simp only [Ring_AllToAll.allToAllStage, NpuAddress.at, List.getD_cons_zero,
      List.getD_cons_succ, addRoutes_eq_sum, two_nsmul]
    split <;> split <;> simp only [zero_add, add_zero] <;> abel

/-- Witness of C26: from id 0 = (0, 0) to id 5 = (2, 1) in the ring of 3 by
all-to-all of 2, under `samplePrimitives`. -/
theorem ring_allToAll_send_sum_witness :
    ∃ r1 g1 r2 g2 : Int,
      (Ring_AllToAll.mk 6 3 1 true 2).npuIdToAddress 0 = [r1, g1] ∧
      (Ring_AllToAll.mk 6 3 1 true 2).npuIdToAddress 5 = [r2, g2] ∧
      IsPath 0 ((Ring_AllToAll.mk 6 3 1 true 2).ringHops r1 r2 g1)
        ((Ring_AllToAll.mk 6 3 1 true 2).npuAddressToId [r2, g1]) ∧
      (r1 = r2 → (Ring_AllToAll.mk 6 3 1 true 2).ringHops r1 r2 g1 = []) ∧
      (Ring_AllToAll.mk 6 3 1 true 2).send samplePrimitives 3 0 5 64
        = .ok (samplePrimitives.criticalLatency
            ((if r1 ≠ r2 then
                samplePrimitives.serialize 64 0 + 2 • samplePrimitives.nicLatency 0
                  + (((Ring_AllToAll.mk 6 3 1 true 2).ringHops r1 r2 g1).map
                      (fun hop => samplePrimitives.route hop.1 hop.2 64)).sum
              else 0)
              + (if g1 ≠ g2 then
                  samplePrimitives.serialize 64 1 + 2 • samplePrimitives.nicLatency 1
                    + samplePrimitives.route
                        ((Ring_AllToAll.mk 6 3 1 true 2).npuAddressToId [r2, g1]) 5 64
                else 0))
            (samplePrimitives.hbmLatency 64 0)) ∧
      (Ring_AllToAll.mk 6 3 1 true 2).send callLog 3 0 5 64
        = .ok ⟨(if r1 ≠ r2 then
                  stageCalls 64 0 ((Ring_AllToAll.mk 6 3 1 true 2).ringHops r1 r2 g1)
                else [])
            ++ (if g1 ≠ g2 then
                  stageCalls 64 1 [((Ring_AllToAll.mk 6 3 1 true 2).npuAddressToId [r2, g1], 5)]
                else [])
            ++ [.hbmLatency 64 0]⟩ :=
  ring_allToAll_send_sum samplePrimitives
    [sampleConfiguration 3 [1], sampleConfiguration 2 []] (Ring_AllToAll.mk 6 3 1 true 2) rfl
    (by decide) (by decide) 0 5 64 (by decide) (by decide) (by decide) 3 (by decide)

/-! ## No hop over a self-loop (C28) -/

/-- Two ring positions apart by one step on a ring of at least two are different. -/
theorem step_ne_self {N u d : Int} (hN : 2 ≤ N) (hu : 0 ≤ u ∧ u < N) (hd : d = 1 ∨ d = -1) :
    (u + d) % N ≠ u := by
  rw [step_emod_cases hN hu.1 hu.2 hd]
  rcases hd with rfl | rfl
  · simp only [if_true]; split <;> omega
  · simp only [show ¬ ((-1 : Int) = 1) by decide, if_false]; split <;> omega

/-- The ring stage of Ring_AllToAll never steps from an id to itself. -/
theorem ring_allToAll_ringHops_ne (t : Ring_AllToAll) (hR : 1 ≤ t.ring_size)
    (r1 r2 g : Int) (h1 : 0 ≤ r1 ∧ r1 < t.ring_size) (h2 : 0 ≤ r2 ∧ r2 < t.ring_size) :
    ∀ hop ∈ t.ringHops r1 r2 g, hop.1 ≠ hop.2 := by
  intro hop hmem
  have hne : r1 ≠ r2 := by
    intro h
    rw [h] at hmem
    simp [Ring_AllToAll.ringHops, arcHops_self] at hmem
  have hN : 2 ≤ t.ring_size := by omega
  obtain ⟨u, d, hd, hu, rfl⟩ := (ring_allToAll_ringHops_spec t hR r1 r2 g h1 h2).2 hop hmem
  have hd' : d = 1 ∨ d = -1 := by
    rcases hd with h | h
    · exact Or.inl h
    · exact Or.inr h.1
  have := step_ne_self hN hu hd'
  simp only [ring_allToAll_npuAddressToId_eq]
  omega

/-- The ring stage of Ring_AllToAll_Switch never steps from an id to itself. -/
theorem ring_allToAll_switch_ringHops_ne (t : Ring_AllToAll_Switch) (hR : 1 ≤ t.ring_size)
    (r1 r2 g n : Int) (h1 : 0 ≤ r1 ∧ r1 < t.ring_size) (h2 : 0 ≤ r2 ∧ r2 < t.ring_size) :
    ∀ hop ∈ t.ringHops r1 r2 g n, hop.1 ≠ hop.2 := by
  intro hop hmem
  have hne : r1 ≠ r2 := by
    intro h
    rw [h] at hmem
    simp [Ring_AllToAll_Switch.ringHops, arcHops_self] at hmem
  have hN : 2 ≤ t.ring_size := by omega
  obtain ⟨u, d, hd, hu, rfl⟩ :=
    (ring_allToAll_switch_ringHops_spec t hR r1 r2 g n h1 h2).2 hop hmem
  have hd' : d = 1 ∨ d = -1 := by
    rcases hd with h | h
    · exact Or.inl h
    · exact Or.inr h.1
  have := step_ne_self hN hu hd'
  simp only [ring_allToAll_switch_npuAddressToId_eq]
  omega

/-- C28: in Ring_AllToAll and Ring_AllToAll_Switch (R, A, S ≥ 1) the constructor
creates the dimension-1 self-loop edge (i, i) of every valid id i, yet `send` between
distinct valid ids passes no hop (u, v) with u = v to `route`. -/
theorem send_uses_no_self_loop {C : Type} (cfgs : List (TopologyConfiguration C))
    (src dest payload_size : Int) (fuel : Nat) :
    (∀ t : Ring_AllToAll, Ring_AllToAll.new cfgs = .ok t →
      1 ≤ t.ring_size → 1 ≤ t.all_to_all_size →
      (0 ≤ src ∧ src < t.packages_count) → (0 ≤ dest ∧ dest < t.packages_count) →
      src ≠ dest → t.packages_count ≤ fuel →
      ∃ (edges : List Connection) (log : CallLog),
        t.connections fuel = some edges ∧
        (∀ i : Int, 0 ≤ i ∧ i < t.packages_count → (⟨i, i, 1⟩ : Connection) ∈ edges) ∧
        t.send callLog fuel src dest payload_size = .ok log ∧
        ∀ hop ∈ log.hops, hop.1 ≠ hop.2) ∧
    (∀ t : Ring_AllToAll_Switch, Ring_AllToAll_Switch.new cfgs = .ok t →
      1 ≤ t.ring_size → 1 ≤ t.all_to_all_size → 1 ≤ t.switch_size →
      (0 ≤ src ∧ src < t.packages_count) → (0 ≤ dest ∧ dest < t.packages_count) →
      src ≠ dest → t.packages_count ≤ fuel →
      ∃ (edges : List Connection) (log : CallLog),
        t.connections fuel = some edges ∧
        (∀ i : Int, 0 ≤ i ∧ i < t.packages_count → (⟨i, i, 1⟩ : Connection) ∈ edges) ∧
        t.send callLog fuel src dest payload_size = .ok log ∧
        ∀ hop ∈ log.hops, hop.1 ≠ hop.2) := by
  constructor
  · intro t hnew hR hA hs hd hne hfuel
    obtain ⟨hpk, -⟩ := ring_allToAll_new_members hnew
    obtain ⟨r1, g1, ha1, hr1, hg1, hid1⟩ :=
      ring_allToAll_address_of_valid t hR src hs.1 (hpk ▸ hs.2)
    obtain ⟨r2, g2, ha2, hr2, hg2, hid2⟩ :=
      ring_allToAll_address_of_valid t hR dest hd.1 (hpk ▸ hd.2)
    have hRP : t.ring_size ≤ t.packages_count := hpk ▸ le_mul_of_one_le (by omega) hA
    obtain ⟨edges, hedges, -, hallE⟩ := ring_allToAll_connections_spec t hpk hR fuel hfuel
    have hnil : ¬ r1 ≠ r2 → t.ringHops r1 r2 g1 = [] := by
      intro h
      rw [not_not.1 h]
      simp [Ring_AllToAll.ringHops, arcHops_self]
    refine ⟨edges, _, hedges, ?_,
      ring_allToAll_send_callLog t src dest payload_size hs.1 hs.2 hd.1 hd.2 hne r1 g1 r2 g2
        ha1 ha2 hr1.1 hr1.2 hr2.1 hr2.2 fuel (by omega), ?_⟩
    · intro i hi
      obtain ⟨r, g, -, hr, hg, hid⟩ :=
        ring_allToAll_address_of_valid t hR i hi.1 (hpk ▸ hi.2)
      have h := hallE r g g hr hg hg
      rw [ring_allToAll_npuAddressToId_eq, ← hid] at h
      exact h
    · intro hop hmem
      rw [(taggedHops_two_stages payload_size (r1 ≠ r2) (g1 ≠ g2) (t.ringHops r1 r2 g1)
        (t.npuAddressToId [r2, g1], dest) hnil).2, List.mem_append] at hmem
      rcases hmem with hmem | hmem
      · exact ring_allToAll_ringHops_ne t hR r1 r2 g1 hr1 hr2 hop hmem
      · split at hmem
        · next hg =>
          simp only [List.mem_singleton] at hmem
          subst hmem
          simp only [ring_allToAll_npuAddressToId_eq]
          intro h
          have h' : g1 * t.ring_size = g2 * t.ring_size := by omega
          exact hg (Int.eq_of_mul_eq_mul_right (by omega) h')
        · simp at hmem
  · intro t hnew hR hA hS hs hd hne hfuel
    obtain ⟨hnode, hpk, hsw, -⟩ := ring_allToAll_switch_new_members hnew
    obtain ⟨r1, g1, n1, ha1, hr1, hg1, hn1, hid1, -⟩ :=
      ring_allToAll_switch_address_of_valid t hnode hR hA src hs.1 (hpk ▸ hs.2)
    obtain ⟨r2, g2, n2, ha2, hr2, hg2, hn2, hid2, -⟩ :=
      ring_allToAll_switch_address_of_valid t hnode hR hA dest hd.1 (hpk ▸ hd.2)
    have hRP : t.ring_size ≤ t.packages_count := by
      have h1 := le_mul_of_one_le (show 0 ≤ t.ring_size by omega) hA
      have h2 := le_mul_of_one_le (show 0 ≤ t.ring_size * t.all_to_all_size by omega) hS
      omega
    obtain ⟨edges, hedges, -, hallE, -⟩ :=
      ring_allToAll_switch_connections_spec t hnode hpk hR fuel hfuel
    have hself : ∀ i : Int, 0 ≤ i ∧ i < t.packages_count →
        (⟨i, i, 1⟩ : Connection) ∈ edges := by
      intro i hi
      obtain ⟨r, g, n, -, hr, hg, hn, hid, -⟩ :=
        ring_allToAll_switch_address_of_valid t hnode hR hA i hi.1 (hpk ▸ hi.2)
      have h := hallE n r g g hn hr hg hg
      rw [ring_allToAll_switch_npuAddressToId_eq, ← hid] at h
      exact h
    by_cases hn : n1 = n2
    · subst hn
      have hnil : ¬ r1 ≠ r2 → t.ringHops r1 r2 g1 n1 = [] := by
        intro h
        rw [not_not.1 h]
        simp [Ring_AllToAll_Switch.ringHops, arcHops_self]
      refine ⟨edges, _, hedges, hself,
        ring_allToAll_switch_send_callLog t src dest payload_size hs.1 hs.2 hd.1 hd.2 hne
          r1 g1 r2 g2 n1 ha1 ha2 hr1.1 hr1.2 hr2.1 hr2.2 fuel (by omega), ?_⟩
      intro hop hmem
      rw [(taggedHops_two_stages payload_size (r1 ≠ r2) (g1 ≠ g2) (t.ringHops r1 r2 g1 n1)
        (t.npuAddressToId [r2, g1, n1], dest) hnil).2, List.mem_append] at hmem
      rcases hmem with hmem | hmem
      · exact ring_allToAll_switch_ringHops_ne t hR r1 r2 g1 n1 hr1 hr2 hop hmem
      · split at hmem
        · next hg =>
          simp only [List.mem_singleton] at hmem
          subst hmem
          simp only [ring_allToAll_switch_npuAddressToId_eq]
          intro h
          have h' : g1 * t.ring_size = g2 * t.ring_size := by omega
          exact hg (Int.eq_of_mul_eq_mul_right (by omega) h')
        · simp at hmem
    · have hn' : (t.npuIdToAddress src).at 2 ≠ (t.npuIdToAddress dest).at 2 := by
        simpa [ha1, ha2, NpuAddress.at] using hn
      refine ⟨edges, _, hedges, hself,
        ring_allToAll_switch_send_callLog_cross t src dest payload_size hs.1 hs.2 hd.1 hd.2
          hn' fuel, ?_⟩
      intro hop hmem
      simp only [CallLog.hops, List.filterMap_cons, Call.hop?, List.filterMap_nil,
        List.mem_cons, List.not_mem_nil, or_false] at hmem
      rcases hmem with rfl | rfl
      · show src ≠ t.switch_id
        omega
      · show t.switch_id ≠ dest
        omega

/-- Witness of C28: from id 0 to id 5 inside node 0 of the sample 3 x 2 x 2 topology. -/
theorem send_uses_no_self_loop_witness :
    Ring_AllToAll_Switch.new sampleNodeConfigurations = .ok sampleNodes ∧ (0 : Int) ≠ 5 ∧
    ∃ (edges : List Connection) (log : CallLog),
      sampleNodes.connections 12 = some edges ∧
      (∀ i : Int, 0 ≤ i ∧ i < sampleNodes.packages_count →
        (⟨i, i, 1⟩ : Connection) ∈ edges) ∧
      sampleNodes.send callLog 12 0 5 64 = .ok log ∧
      ∀ hop ∈ log.hops, hop.1 ≠ hop.2 :=
  ⟨rfl, by decide,
    (send_uses_no_self_loop sampleNodeConfigurations 0 5 64 12).2 sampleNodes rfl (by decide)
      (by decide) (by decide) (by decide) (by decide) (by decide) (by decide)⟩

/-! ## The step and direction helpers (C23, C25) -/

/-- C25: the direction and step helpers are the same function in every variant.  For
a Ring of N packages, a Ring_AllToAll and a Ring_AllToAll_Switch with ring_size = N
and the same directionality, all as their constructors leave them:
`Ring_AllToAll::computeDirection(a, b)` and `Ring_AllToAll_Switch::computeDirection(a, b)`
return what `Ring::computeDirection(a, b)` returns, `Torus2D::computeDirection(a, b, N/2)`
returns it too when the Ring is bidirectional, and the four `takeStep` functions agree
on every index and direction (ties of distance included, as a, b are arbitrary). -/
theorem direction_and_step_helpers_agree {C : Type}
    (cfgsR cfgsA cfgsS : List (TopologyConfiguration C))
    (ring : Ring) (ra : Ring_AllToAll) (ras : Ring_AllToAll_Switch) (torus : Torus2D)
    (N : Int) (hring : Ring.new cfgsR = .ok ring) (hra : Ring_AllToAll.new cfgsA = .ok ra)
    (hras : Ring_AllToAll_Switch.new cfgsS = .ok ras)
    (hN : ring.packages_count = N) (hNa : ra.ring_size = N) (hNs : ras.ring_size = N)
    (hba : ra.bidirectional = ring.bidirectional)
    (hbs : ras.bidirectional = ring.bidirectional) :
    (∀ a b : Int,
      ra.computeDirection a b = ring.computeDirection a b ∧
      ras.computeDirection a b = ring.computeDirection a b ∧
      (ring.bidirectional = true →
        torus.computeDirection a b (Int.tdiv N 2) = ring.computeDirection a b)) ∧
    (∀ c d : Int,
      ra.takeStep c d = ring.takeStep c d ∧
      ras.takeStep c d = ring.takeStep c d ∧
      torus.takeStep c d N = ring.takeStep c d) := by
  have hhalf := ring_new_members hring
  obtain ⟨-, hhalfa⟩ := ring_allToAll_new_members hra
  obtain ⟨-, -, -, hhalfs⟩ := ring_allToAll_switch_new_members hras
  rw [hN] at hhalf
  rw [hNa] at hhalfa
  rw [hNs] at hhalfs
  constructor
  · intro a b
    refine ⟨?_, ?_, ?_⟩
    · simp only [Ring_AllToAll.computeDirection, Ring.computeDirection, hba, hhalf, hhalfa]
    · simp only [Ring_AllToAll_Switch.computeDirection, Ring.computeDirection, hbs, hhalf,
        hhalfs]
    · intro hb
      simp [Torus2D.computeDirection, Ring.computeDirection, hb, hhalf]
  · intro c d
    exact ⟨by simp only [Ring_AllToAll.takeStep, Ring.takeStep, hN, hNa],
      by simp only [Ring_AllToAll_Switch.takeStep, Ring.takeStep, hN, hNs],
      by simp only [Torus2D.takeStep, Ring.takeStep, hN]⟩

/-- Witness of C25: a bidirectional ring of 4 against a 4 x 2 Ring_AllToAll, a
4 x 2 x 2 Ring_AllToAll_Switch and a torus; the tie from 2 to 0 goes backward and the
tie from 0 to 2 forward in all of them. -/
theorem direction_and_step_helpers_agree_witness :
    ((∀ a b : Int,
      (Ring_AllToAll.mk 8 4 2 true 2).computeDirection a b
        = (Ring.mk 4 2 true).computeDirection a b ∧
      (Ring_AllToAll_Switch.mk 16 8 4 2 true 2 2 16).computeDirection a b
        = (Ring.mk 4 2 true).computeDirection a b ∧
      ((Ring.mk 4 2 true).bidirectional = true →
        (Torus2D.mk 4 2 3 1 12).computeDirection a b (Int.tdiv 4 2)
          = (Ring.mk 4 2 true).computeDirection a b)) ∧
    (∀ c d : Int,
      (Ring_AllToAll.mk 8 4 2 true 2).takeStep c d = (Ring.mk 4 2 true).takeStep c d ∧
      (Ring_AllToAll_Switch.mk 16 8 4 2 true 2 2 16).takeStep c d
        = (Ring.mk 4 2 true).takeStep c d ∧
      (Torus2D.mk 4 2 3 1 12).takeStep c d 4 = (Ring.mk 4 2 true).takeStep c d)) ∧
    (Ring.mk 4 2 true).computeDirection 2 0 = -1 ∧
    (Ring.mk 4 2 true).computeDirection 0 2 = 1 :=
  ⟨direction_and_step_helpers_agree [sampleConfiguration 4 [1]]
    [sampleConfiguration 4 [1], sampleConfiguration 2 []]
    [sampleConfiguration 4 [1], sampleConfiguration 2 [], sampleConfiguration 2 []]
    (Ring.mk 4 2 true) (Ring_AllToAll.mk 8 4 2 true 2)
    (Ring_AllToAll_Switch.mk 16 8 4 2 true 2 2 16) (Torus2D.mk 4 2 3 1 12) 4 rfl rfl rfl rfl
    rfl rfl rfl rfl, by decide, by decide⟩

/-! ## Torus2D: the arc chosen on each axis -/

/-- The arc that `Torus2D::computeDirection` chooses on a ring of `N` positions, with
half size N/2 as the constructor computes it, is the shorter of the two arcs. -/
theorem torus2D_chosen_arc (t : Torus2D) (N a b : Int) (ha : 0 ≤ a ∧ a < N)
    (hb : 0 ≤ b ∧ b < N) :
    (t.computeDirection a b (Int.tdiv N 2) * (b - a)) % N = min |a - b| (N - |a - b|) := by
  have hdir : t.computeDirection a b (Int.tdiv N 2)
      = if a < b then (if b - a ≤ N / 2 then 1 else -1)
        else (if a - b ≤ N / 2 then -1 else 1) := by
    rw [Int.tdiv_eq_ediv (by omega) (by decide)]
    rfl
  rw [hdir]
  rcases abs_cases (a - b) with ⟨habs, hsign⟩ | ⟨habs, hsign⟩ <;> rw [habs, min_def] <;>
    split_ifs <;> rw [emod_of_abs_lt (by omega) (by omega)] <;> split_ifs <;> omega

/-! ## Ring_AllToAll_Switch inside a node is Ring_AllToAll (C27) -/

/-- An event is inserted behind the pending events of the same time: among the
events of any one time `t`, it comes last. -/
theorem eventQueue_insert_filter (event : Event) (t : Int) :
    ∀ pending : List Event, pending.Pairwise (fun a b => a.time ≤ b.time) →
      (EventQueue.insert event pending).filter (fun e => decide (e.time = t))
        = pending.filter (fun e => decide (e.time = t))
          ++ (if event.time = t then [event] else []) := by
  intro pending
  induction pending with
  | nil =>
    intro _
    by_cases h : event.time = t <;> simp [EventQueue.insert, h]
  | cons first rest ih =>
    intro hsorted
    rw [List.pairwise_cons] at hsorted
    unfold EventQueue.insert
    split
    · next hlt =>
      by_cases h : event.time = t
      · have hnone : (first :: rest).filter (fun e => decide (e.time = t)) = [] := by
          rw [List.filter_eq_nil_iff]
          intro a ha
          have : first.time ≤ a.time := by
            rcases List.mem_cons.1 ha with rfl | ha'
            · exact le_rfl
            · exact hsorted.1 a ha'
          simp only [decide_eq_true_eq]
          omega
        rw [List.filter_cons_of_pos (by simpa using h), hnone]
        simp [h]
      · rw [List.filter_cons_of_neg (by simpa using h)]
        simp [h]
    · rw [List.filter_cons, List.filter_cons, ih hsorted.2]
      split <;> simp

/-- Inserting an event keeps the pending events in time order. -/
theorem eventQueue_insert_pairwise (event : Event) :
    ∀ pending : List Event, pending.Pairwise (fun a b => a.time ≤ b.time) →
      (EventQueue.insert event pending).Pairwise (fun a b => a.time ≤ b.time) := by
  intro pending
  induction pending with
  | nil => intro _; simp [EventQueue.insert]
  | cons first rest ih =>
    intro hsorted
    have hs := List.pairwise_cons.1 hsorted
    unfold EventQueue.insert
    split
    · next hlt =>
      refine List.pairwise_cons.2 ⟨?_, hsorted⟩
      intro a ha
      rcases List.mem_cons.1 ha with rfl | ha'
      · omega
      · have := hs.1 a ha'
        omega
    · next hge =>
      refine List.pairwise_cons.2 ⟨?_, ih hs.2⟩
      intro a ha
      have hperm : a ∈ event :: rest := by
        clear ih hsorted hs
        induction rest with
        | nil => simpa [EventQueue.insert] using ha
        | cons x xs ihx =>
          unfold EventQueue.insert at ha
          split at ha
          · exact ha
          · rcases List.mem_cons.1 ha with rfl | ha'
            · simp
            · rcases List.mem_cons.1 (ihx ha') with rfl | h
              · simp
              · simp [h]
      rcases List.mem_cons.1 hperm with rfl | ha'
      · omega
      · exact hs.1 a ha'

/-- Inserting an event adds one pending event. -/
theorem eventQueue_insert_length (event : Event) :
    ∀ pending : List Event, (EventQueue.insert event pending).length = pending.length + 1 := by
  intro pending
  induction pending with
  | nil => rfl
  | cons first rest ih =>
    unfold EventQueue.insert
    split
    · rfl
    · simp [ih]

/-- A sequence of `schedule` calls on a queue in time order leaves the time
unchanged and the queue in time order, with as many more events as calls; among the
events of any one time, the old ones come first and the new ones follow in call
order. -/
theorem scheduleAll_spec : ∀ (requests : List (Int × Nat)) (q : EventQueue),
    q.pending.Pairwise (fun a b => a.time ≤ b.time) →
    (scheduleAll q requests).current_time = q.current_time ∧
    (scheduleAll q requests).pending.Pairwise (fun a b => a.time ≤ b.time) ∧
    (scheduleAll q requests).pending.length = q.pending.length + requests.length ∧
    ∀ t : Int, (scheduleAll q requests).pending.filter (fun e => decide (e.time = t))
      = q.pending.filter (fun e => decide (e.time = t))
        ++ (requests.map (fun r => Event.mk (q.current_time + r.1) r.2)).filter
            (fun e => decide (e.time = t)) := by
  intro requests
  induction requests with
  | nil => intro q h; simp [scheduleAll, h]
  | cons r rest ih =>
    intro q h
    have hstep : scheduleAll q (r :: rest) = scheduleAll (q.schedule r.1 r.2) rest := rfl
    have hs := eventQueue_insert_pairwise ⟨q.current_time + r.1, r.2⟩ q.pending h
    obtain ⟨h1, h2, h3, h4⟩ := ih (q.schedule r.1 r.2) hs
    rw [hstep]
    refine ⟨h1, h2, ?_, ?_⟩
    · rw [h3]
      simp only [EventQueue.schedule, eventQueue_insert_length, List.length_cons]
      omega
    · intro t
      rw [h4 t]
      simp only [EventQueue.schedule, eventQueue_insert_filter _ t q.pending h, List.map_cons,
        List.filter_cons, List.append_assoc]
      by_cases ht : q.current_time + r.1 = t <;> simp [ht]

/-- The loop of `main` executes the pending events in their queue order and stops
with the queue empty, within as many iterations as there are pending events. -/
theorem runEvents_eq : ∀ (fuel : Nat) (q : EventQueue), q.pending.length ≤ fuel →
    ∃ final : EventQueue, runEvents fuel q = .ok (q.pending, final) ∧ final.empty = true := by
  intro fuel
  induction fuel with
  | zero =>
    intro q h
    have hnil : q.pending = [] := List.length_eq_zero.1 (by omega)
    exact ⟨q, by simp [runEvents, EventQueue.empty, hnil], by simp [EventQueue.empty, hnil]⟩
  | succ fuel ih =>
    intro q h
    obtain ⟨time, pending⟩ := q
    cases pending with
    | nil => exact ⟨⟨time, []⟩, by simp [runEvents, EventQueue.empty], by simp [EventQueue.empty]⟩
    | cons event rest =>
      obtain ⟨final, hrun, hempty⟩ := ih ⟨event.time, rest⟩
        (by simp only [List.length_cons] at h; simpa using Nat.le_of_succ_le_succ h)
      refine ⟨final, ?_, hempty⟩
      simp only [runEvents, EventQueue.empty, List.isEmpty_cons, EventQueue.proceed, hrun]
      simp

/-- C21: for every sequence of `schedule` calls on the fresh queue, the loop of
`main` (repeated `proceed()` while the queue is not empty) finishes within as many
iterations as there were calls, with the queue empty, having executed every
scheduled event once, in non-decreasing timestamp order, the events of any one
timestamp in the order they were scheduled (FIFO); events scheduled at times
5, 3, 3, 1 complete as 1, 3 (first inserted), 3 (second inserted), 5. -/
theorem eventQueue_time_order (requests : List (Int × Nat)) (fuel : Nat)
    (hfuel : requests.length ≤ fuel) :
    (∃ (done : List Event) (final : EventQueue),
      runEvents fuel (scheduleAll EventQueue.new requests) = .ok (done, final) ∧
      final.empty = true ∧
      done.length = requests.length ∧
      done.Pairwise (fun a b => a.time ≤ b.time) ∧
      ∀ t : Int, done.filter (fun e => decide (e.time = t))
        = (requests.map (fun r => Event.mk r.1 r.2)).filter
            (fun e => decide (e.time = t))) ∧
    runEvents 4 (scheduleAll EventQueue.new [(5, 0), (3, 1), (3, 2), (1, 3)])
      = .ok ([⟨1, 3⟩, ⟨3, 1⟩, ⟨3, 2⟩, ⟨5, 0⟩], ⟨5, []⟩) := by
  refine ⟨?_, by decide⟩
  obtain ⟨-, hsorted, hlen, hfilter⟩ :=
    scheduleAll_spec requests EventQueue.new (by simp [EventQueue.new])
  obtain ⟨final, hrun, hempty⟩ := runEvents_eq fuel (scheduleAll EventQueue.new requests)
    (by rw [hlen]; simpa [EventQueue.new] using hfuel)
  refine ⟨_, final, hrun, hempty, by simpa [EventQueue.new] using hlen, hsorted, ?_⟩
  intro t
  simpa [EventQueue.new] using hfilter t

/-- Witness of C21: the four events scheduled at times 5, 3, 3, 1. -/
theorem eventQueue_time_order_witness :
    (∃ (done : List Event) (final : EventQueue),
      runEvents 4 (scheduleAll EventQueue.new [(5, 0), (3, 1), (3, 2), (1, 3)])
        = .ok (done, final) ∧
      final.empty = true ∧
      done.length = [((5 : Int), 0), (3, 1), (3, 2), (1, 3)].length ∧
      done.Pairwise (fun a b => a.time ≤ b.time) ∧
      ∀ t : Int, done.filter (fun e => decide (e.time = t))
        = ([((5 : Int), 0), (3, 1), (3, 2), (1, 3)].map (fun r => Event.mk r.1 r.2)).filter
            (fun e => decide (e.time = t))) ∧
    runEvents 4 (scheduleAll EventQueue.new [(5, 0), (3, 1), (3, 2), (1, 3)])
      = .ok ([⟨1, 3⟩, ⟨3, 1⟩, ⟨3, 2⟩, ⟨5, 0⟩], ⟨5, []⟩) :=
  eventQueue_time_order [(5, 0), (3, 1), (3, 2), (1, 3)] 4 (by decide)

/-! ## Termination of the walking loops (C22) -/

/-- The arc between two positions of a ring of `N` is at most `N - 1` steps long. -/
theorem arc_le_pred {N : Int} (hN : 1 ≤ N) (x : Int) :
    0 ≤ x % N ∧ ((x % N).toNat : Int) = x % N ∧ x % N ≤ N - 1 := by
  have h0 := Int.emod_nonneg x (show N ≠ 0 by omega)
  have h1 := Int.emod_lt_of_pos x (show 0 < N by omega)
  exact ⟨h0, Int.toNat_of_nonneg h0, by omega⟩

/-- One step along a ring changes the distance to a position by at most one. -/
theorem ringDistance_step {N a b x : Int} (ha : 0 ≤ a ∧ a < N) (hb : 0 ≤ b ∧ b < N)
    (hx : 0 ≤ x ∧ x < N)
    (hstep : b = a + 1 ∨ b = a - 1 ∨ (a = N - 1 ∧ b = 0) ∨ (a = 0 ∧ b = N - 1)) :
    ringDistance N a x ≤ ringDistance N b x + 1 := by
  unfold ringDistance
  rcases abs_cases (a - x) with ⟨h1, h1'⟩ | ⟨h1, h1'⟩ <;>
    rcases abs_cases (b - x) with ⟨h2, h2'⟩ | ⟨h2, h2'⟩ <;>
    rw [h1, h2, min_def, min_def] <;> split_ifs <;> omega

/-- The distance of a position of a ring to itself is zero. -/
theorem ringDistance_self {N : Int} (hN : 0 ≤ N) (a : Int) : ringDistance N a a = 0 := by
  simp [ringDistance, hN]

/-- Every edge of the Torus2D graph joins two grid positions that are neighbours on
the ring of one row or on the ring of one column. -/
theorem torus2D_edge_cases (t : Torus2D) (hW : 1 ≤ t.width) (hH : 1 ≤ t.height)
    (c : Connection) (hc : c ∈ t.connections) :
    ∃ r col r2 col2 : Int,
      (0 ≤ r ∧ r < t.height) ∧ (0 ≤ col ∧ col < t.width) ∧
      (0 ≤ r2 ∧ r2 < t.height) ∧ (0 ≤ col2 ∧ col2 < t.width) ∧
      c.src = t.rowColToId r col ∧ c.dest = t.rowColToId r2 col2 ∧
      ((r2 = r ∧ (col2 = col + 1 ∨ col2 = col - 1 ∨ (col = t.width - 1 ∧ col2 = 0) ∨
          (col = 0 ∧ col2 = t.width - 1))) ∨
        (col2 = col ∧ (r2 = r + 1 ∨ r2 = r - 1 ∨ (r = t.height - 1 ∧ r2 = 0) ∨
          (r = 0 ∧ r2 = t.height - 1)))) := by
  simp only [Torus2D.connections, List.mem_append, List.mem_flatMap, mem_forUp, List.mem_cons,
    List.mem_singleton, List.not_mem_nil, or_false] at hc
  rcases hc with ⟨row, hrow, (⟨col, hcol, rfl | rfl⟩ | rfl | rfl)⟩ |
    ⟨col, hcol, (⟨row, hrow, rfl | rfl⟩ | rfl | rfl)⟩
  · exact ⟨row, col, row, col + 1, hrow, by omega, hrow, by omega,
      rfl, by simp only [Torus2D.rowColToId]; omega, Or.inl ⟨rfl, Or.inl rfl⟩⟩
  · exact ⟨row, col + 1, row, col, hrow, by omega, hrow, by omega,
      by simp only [Torus2D.rowColToId]; omega, rfl, Or.inl ⟨rfl, Or.inr (Or.inl (by omega))⟩⟩
  · exact ⟨row, t.width - 1, row, 0, hrow, by omega, hrow, by omega,
      rfl, by simp only [Torus2D.rowColToId]; omega,
      Or.inl ⟨rfl, Or.inr (Or.inr (Or.inl ⟨rfl, rfl⟩))⟩⟩
  · exact ⟨row, 0, row, t.width - 1, hrow, by omega, hrow, by omega,
      by simp only [Torus2D.rowColToId]; omega, rfl,
      Or.inl ⟨rfl, Or.inr (Or.inr (Or.inr ⟨rfl, rfl⟩))⟩⟩
  · exact ⟨row, col, row + 1, col, by omega, hcol, by omega, hcol,
      rfl, by simp only [Torus2D.rowColToId]; ring, Or.inr ⟨rfl, Or.inl rfl⟩⟩
  · exact ⟨row + 1, col, row, col, by omega, hcol, by omega, hcol,
      by simp only [Torus2D.rowColToId]; ring, rfl, Or.inr ⟨rfl, Or.inr (Or.inl (by omega))⟩⟩
  · exact ⟨t.height - 1, col, 0, col, by omega, hcol, by omega, hcol,
      rfl, by simp only [Torus2D.rowColToId]; omega,
      Or.inr ⟨rfl, Or.inr (Or.inr (Or.inl ⟨rfl, rfl⟩))⟩⟩
  · exact ⟨0, col, t.height - 1, col, by omega, hcol, by omega, hcol,
      by simp only [Torus2D.rowColToId]; omega, rfl,
      Or.inr ⟨rfl, Or.inr (Or.inr (Or.inr ⟨rfl, rfl⟩))⟩⟩

/-- A path of edges of the Torus2D graph is at least as long as the torus distance
between its ends. -/
theorem torus2D_distance_le_path (t : Torus2D) (hW : 1 ≤ t.width) (hH : 1 ≤ t.height)
    (dest : Int) (hdr : 0 ≤ (t.idToRowCol dest).1 ∧ (t.idToRowCol dest).1 < t.height)
    (hdc : 0 ≤ (t.idToRowCol dest).2 ∧ (t.idToRowCol dest).2 < t.width) :
    ∀ (path : List (Int × Int)) (u : Int), IsPath u path dest →
      (∀ hop ∈ path, (⟨hop.1, hop.2, 0⟩ : Connection) ∈ t.connections) →
      t.distance u dest ≤ path.length := by
  intro path
  induction path with
  | nil =>
    intro u hp _
    have hu : u = dest := hp
    subst hu
    simp [Torus2D.distance, ringDistance_self (show 0 ≤ t.width by omega),
      ringDistance_self (show 0 ≤ t.height by omega)]
  | cons hop rest ih =>
    intro u hp hedges
    obtain ⟨hfirst, hrest⟩ : hop.1 = u ∧ IsPath hop.2 rest dest := hp
    have hih := ih hop.2 hrest (fun h hh => hedges h (List.mem_cons_of_mem _ hh))
    obtain ⟨r, col, r2, col2, hr, hcol, hr2, hcol2, hsrc, hdest, hadj⟩ :=
      torus2D_edge_cases t hW hH _ (hedges hop (List.mem_cons_self _ _))
    have h1 : t.idToRowCol u = (r, col) := by
      rw [← hfirst]
      show t.idToRowCol (Connection.mk hop.1 hop.2 0).src = _
      rw [hsrc]
      exact torus2D_idToRowCol_rowColToId t r col hr.1 hcol.1 hcol.2
    have h2 : t.idToRowCol hop.2 = (r2, col2) := by
      show t.idToRowCol (Connection.mk hop.1 hop.2 0).dest = _
      rw [hdest]
      exact torus2D_idToRowCol_rowColToId t r2 col2 hr2.1 hcol2.1 hcol2.2
    simp only [Torus2D.distance, h1, h2, List.length_cons, Nat.cast_add, Nat.cast_one] at hih ⊢
    rcases hadj with ⟨rfl, hstep⟩ | ⟨rfl, hstep⟩
    · have := ringDistance_step hcol hcol2 hdc hstep
      omega
    · have := ringDistance_step hr hr2 hdr hstep
      omega

/-- C24: in Torus2D with W, H ≥ 1 (and W*H = packages_count, which the constructor
asserts), for distinct valid ids src = (r1, c1) and dest = (r2, c2), `send` returns
and the number of hops it passes to `route` is the torus distance
min(|c1 - c2|, W - |c1 - c2|) + min(|r1 - r2|, H - |r1 - r2|); no path of edges of
the graph from src to dest has fewer hops, so `send` walks a shortest path of the
wraparound grid. -/
theorem torus2D_hop_count {C : Type} (cfgs : List (TopologyConfiguration C)) (t : Torus2D)
    (hnew : Torus2D.new cfgs = .ok t) (hW : 1 ≤ t.width) (hH : 1 ≤ t.height)
    (src dest payload_size : Int)
    (hs : 0 ≤ src ∧ src < t.packages_count) (hd : 0 ≤ dest ∧ dest < t.packages_count)
    (hne : src ≠ dest) (fuel : Nat) (hfuelW : t.width ≤ fuel) (hfuelH : t.height ≤ fuel) :
    ∃ (r1 c1 r2 c2 : Int) (log : CallLog),
      t.idToRowCol src = (r1, c1) ∧ t.idToRowCol dest = (r2, c2) ∧
      t.send callLog fuel src dest payload_size = .ok log ∧
      (log.hops.length : Int)
        = min |c1 - c2| (t.width - |c1 - c2|) + min |r1 - r2| (t.height - |r1 - r2|) ∧
      ∀ path : List (Int × Int), IsPath src path dest →
        (∀ hop ∈ path, (⟨hop.1, hop.2, 0⟩ : Connection) ∈ t.connections) →
        log.hops.length ≤ path.length := by
  obtain ⟨-, hhw, hhh⟩ := torus2D_new_members hnew
  have hpk := torus2D_new_count_le hnew hW hH
  obtain ⟨r1, c1, ha1, hr1, hc1, -⟩ := torus2D_coordinates t hW src hs.1 (lt_of_lt_of_le hs.2 hpk)
  obtain ⟨r2, c2, ha2, hr2, hc2, -⟩ := torus2D_coordinates t hW dest hd.1 (lt_of_lt_of_le hd.2 hpk)
  have hcol := torus2D_chosen_arc t t.width c1 c2 hc1 hc2
  have hrow := torus2D_chosen_arc t t.height r1 r2 hr1 hr2
  have hlen : (CallLog.mk (stageCalls payload_size 0
      (t.colHops r1 c1 c2 ++ t.rowHops r1 r2 c2) ++ [.hbmLatency payload_size 0])).hops
      = t.colHops r1 c1 c2 ++ t.rowHops r1 r2 c2 := by
    simp only [CallLog.hops, List.filterMap_append, hops_stageCalls]
    simp [List.filterMap_cons, Call.hop?]
  have hcount : (((CallLog.mk (stageCalls payload_size 0
      (t.colHops r1 c1 c2 ++ t.rowHops r1 r2 c2) ++ [.hbmLatency payload_size 0])).hops.length
        : Nat) : Int)
      = min |c1 - c2| (t.width - |c1 - c2|) + min |r1 - r2| (t.height - |r1 - r2|) := by
    rw [hlen, List.length_append]
    simp only [Torus2D.colHops, Torus2D.rowHops, arcHops, List.length_map, arcPath_length,
      hhw, hhh]
    have hc0 := Int.emod_nonneg
      (t.computeDirection c1 c2 (Int.tdiv t.width 2) * (c2 - c1)) (show t.width ≠ 0 by omega)
    have hr0 := Int.emod_nonneg
      (t.computeDirection r1 r2 (Int.tdiv t.height 2) * (r2 - r1))
      (show t.height ≠ 0 by omega)
    rw [← hcol, ← hrow]
    push_cast
    rw [Int.toNat_of_nonneg hc0, Int.toNat_of_nonneg hr0]
  refine ⟨r1, c1, r2, c2, _, ha1, ha2,
    torus2D_send_callLog t src dest payload_size hs.1 hs.2 hd.1 hd.2 hne r1 c1 r2 c2 ha1 ha2
      hr1 hc1 hr2 hc2 fuel hfuelW hfuelH, hcount, ?_⟩
  intro path hp hedges
  have hdist := torus2D_distance_le_path t hW hH dest (by rw [ha2]; exact hr2)
    (by rw [ha2]; exact hc2) path src hp hedges
  simp only [Torus2D.distance, ha1, ha2, ringDistance] at hdist
  omega

/-- Witness of C24: from id 0 = (0, 0) to id 11 = (2, 3) in the torus of width 4 and
height 3 the wraparound links are used: 1 + 1 = 2 hops. -/
theorem torus2D_hop_count_witness :
    ∃ (r1 c1 r2 c2 : Int) (log : CallLog),
      (Torus2D.mk 4 2 3 1 12).idToRowCol 0 = (r1, c1) ∧
      (Torus2D.mk 4 2 3 1 12).idToRowCol 11 = (r2, c2) ∧
      (Torus2D.mk 4 2 3 1 12).send callLog 4 0 11 64 = .ok log ∧
      (log.hops.length : Int)
        = min |c1 - c2| ((Torus2D.mk 4 2 3 1 12).width - |c1 - c2|)
          + min |r1 - r2| ((Torus2D.mk 4 2 3 1 12).height - |r1 - r2|) ∧
      ∀ path : List (Int × Int), IsPath 0 path 11 →
        (∀ hop ∈ path,
          (⟨hop.1, hop.2, 0⟩ : Connection) ∈ (Torus2D.mk 4 2 3 1 12).connections) →
        log.hops.length ≤ path.length :=
  torus2D_hop_count [sampleConfiguration 12 [4, 3]] (Torus2D.mk 4 2 3 1 12) rfl (by decide)
    (by decide) 0 11 64 (by decide) (by decide) (by decide) 4 (by decide) (by decide)

/-! ## Bidirectional Ring: the way back is the way there, reversed (C31) -/

/-- On a ring of at least two positions, a step back undoes a step. -/
theorem step_back {N c d : Int} (hN : 2 ≤ N) (hc : 0 ≤ c ∧ c < N) (hd : d = 1 ∨ d = -1) :
    ((c + d) % N + -d) % N = c := by
  have h0 : 0 ≤ (c + d) % N := Int.emod_nonneg _ (by omega)
  have h1 : (c + d) % N < N := Int.emod_lt_of_pos _ (by omega)
  have hd' : -d = 1 ∨ -d = -1 := by omega
  rw [step_emod_cases hN h0 h1 hd']
  have hstep := step_emod_cases hN hc.1 hc.2 hd
  rcases hd with rfl | rfl
  · simp only [if_true] at hstep
    simp only [show ¬ (-(1 : Int) = 1) by decide, if_false]
    split_ifs at hstep ⊢ <;> omega
  · simp only [show ¬ ((-1 : Int) = 1) by decide, if_false] at hstep
    simp only [show (-(-1 : Int)) = 1 by decide, if_true]
    split_ifs at hstep ⊢ <;> omega

/-- A walk of `k + 1` steps is the walk of `k` steps followed by the step from its
end `y`. -/
theorem arcPath_snoc {N d y : Int} (hN : 2 ≤ N) (hd : d = 1 ∨ d = -1)
    (hy : 0 ≤ y ∧ y < N) : ∀ (k : Nat) (x : Int), 0 ≤ x → x < N →
    (d * (y - x)) % N = k →
    arcPath N d (k + 1) x = arcPath N d k x ++ [(y, (y + d) % N)] := by
  intro k
  induction k with
  | zero =>
    intro x hx0 hx hk
    have hxy : x = y := (arc_eq_zero_iff hx0 hx hy.1 hy.2 hd).1 (by simpa using hk)
    subst hxy
    simp [arcPath]
  | succ k ih =>
    intro x hx0 hx hk
    have hne : x ≠ y := by
      intro h
      have := (arc_eq_zero_iff hx0 hx hy.1 hy.2 hd).2 h
      rw [this] at hk
      omega
    obtain ⟨hrange, harc⟩ := arc_step hN hx0 hx hy.1 hy.2 hd hne
    have hk' : (d * (y - (x + d) % N)) % N = k := by
      rw [harc, hk]
      push_cast
      omega
    have hrec := ih ((x + d) % N) hrange.1 hrange.2 hk'
    show (x, (x + d) % N) :: arcPath N d (k + 1) ((x + d) % N) = _
    rw [hrec]
    rfl

/-- The walk from `c` to `dest` in direction `d`, reversed hop by hop, is the walk
from `dest` to `c` in direction `-d`. -/
theorem arcPath_reverse {N d dest : Int} (hN : 2 ≤ N) (hd : d = 1 ∨ d = -1)
    (hdest : 0 ≤ dest ∧ dest < N) : ∀ (k : Nat) (c : Int), 0 ≤ c → c < N →
    (d * (dest - c)) % N = k →
    (arcPath N d k c).reverse.map Prod.swap = arcPath N (-d) k dest := by
  have hd' : -d = 1 ∨ -d = -1 := by omega
  intro k
  induction k with
  | zero => intro c _ _ _; rfl
  | succ k ih =>
    intro c hc0 hc hk
    have hne : c ≠ dest := by
      intro h
      have := (arc_eq_zero_iff hc0 hc hdest.1 hdest.2 hd).2 h
      rw [this] at hk
      omega
    obtain ⟨hrange, harc⟩ := arc_step hN hc0 hc hdest.1 hdest.2 hd hne
    have hk' : (d * (dest - (c + d) % N)) % N = k := by
      rw [harc, hk]
      push_cast
      omega
    have hback : (-d * ((c + d) % N - dest)) % N = k := by
      rw [← hk']
      congr 1
      ring
    rw [arcPath_snoc hN hd' hrange k dest hdest.1 hdest.2 hback, step_back hN ⟨hc0, hc⟩ hd,
      ← ih ((c + d) % N) hrange.1 hrange.2 hk']
    simp [arcPath]

/-- On a bidirectional Ring, the direction from `b` to `a` is the opposite of the
direction from `a` to `b`, ties included. -/
theorem ring_computeDirection_swap (t : Ring) (hb : t.bidirectional = true) {a b : Int}
    (hne : a ≠ b) : t.computeDirection b a = -t.computeDirection a b := by
  simp only [Ring.computeDirection, hb, not_true, if_false]
  split_ifs <;> omega

/-- C31: in a bidirectional Ring of size N ≥ 2, for distinct valid ids a and b, both
`send(a, b, s)` and `send(b, a, s)` return, and the hops of `send(b, a, s)` are those of
`send(a, b, s)` in opposite order, each hop (u, v) turned into (v, u); so a hop (u, v)
is made one way exactly when (v, u) is made the other way, and both directions take
the same number of hops. -/
theorem ring_reverse_send (t : Ring) (hb : t.bidirectional = true)
    (hN : 2 ≤ t.packages_count) (a b payload_size : Int)
    (ha : 0 ≤ a ∧ a < t.packages_count) (hbv : 0 ≤ b ∧ b < t.packages_count)
    (hne : a ≠ b) (fuel : Nat) (hfuel : t.packages_count - 1 ≤ fuel) :
    ∃ there back : CallLog,
      t.send callLog fuel a b payload_size = .ok there ∧
      t.send callLog fuel b a payload_size = .ok back ∧
      back.hops = there.hops.reverse.map Prod.swap ∧
      (∀ u v : Int, (u, v) ∈ there.hops ↔ (v, u) ∈ back.hops) ∧
      back.hops.length = there.hops.length := by
  obtain ⟨hk0, hk, hk1⟩ := arc_le_pred (show 1 ≤ t.packages_count by omega)
    (t.computeDirection a b * (b - a))
  have hkf : ((t.computeDirection a b * (b - a)) % t.packages_count).toNat ≤ fuel := by omega
  have hswap := ring_computeDirection_swap t hb hne
  have hk' : (t.computeDirection b a * (a - b)) % t.packages_count
      = (((t.computeDirection a b * (b - a)) % t.packages_count).toNat : Int) := by
    rw [hk, hswap]
    congr 1
    ring
  obtain ⟨there, hthere, hhops⟩ := ring_send_callLog_hops t a b payload_size ha.1 ha.2
    hbv.1 hbv.2 hne _ fuel hk.symm hkf
  obtain ⟨back, hback, hhops'⟩ := ring_send_callLog_hops t b a payload_size hbv.1 hbv.2
    ha.1 ha.2 (Ne.symm hne) _ fuel hk' hkf
  have hrev : back.hops = there.hops.reverse.map Prod.swap := by
    rw [hhops, hhops', hswap]
    exact (arcPath_reverse hN (ring_computeDirection_cases t a b) hbv _ a ha.1 ha.2
      hk.symm).symm
  refine ⟨there, back, hthere, hback, hrev, ?_, by rw [hrev]; simp⟩
  intro u v
  rw [hrev, List.mem_map]
  constructor
  · intro h
    exact ⟨(u, v), List.mem_reverse.2 h, rfl⟩
  · rintro ⟨⟨x, y⟩, h, hxy⟩
    simp only [Prod.swap_prod_mk, Prod.mk.injEq] at hxy
    obtain ⟨rfl, rfl⟩ := hxy
    exact List.mem_reverse.1 h

/-- Witness of C31: ids 0 and 2 of the bidirectional ring of 4, a tie of distance:
there by 0, 1, 2 and back by 2, 1, 0. -/
theorem ring_reverse_send_witness :
    Ring.new [sampleConfiguration 4 [1]] = .ok (Ring.mk 4 2 true) ∧
    (Ring.mk 4 2 true).send callLog 3 0 2 64
      = .ok ⟨stageCalls 64 0 [(0, 1), (1, 2)] ++ [.hbmLatency 64 0]⟩ ∧
    (Ring.mk 4 2 true).send callLog 3 2 0 64
      = .ok ⟨stageCalls 64 0 [(2, 1), (1, 0)] ++ [.hbmLatency 64 0]⟩ ∧
    ∃ there back : CallLog,
      (Ring.mk 4 2 true).send callLog 3 0 2 64 = .ok there ∧
      (Ring.mk 4 2 true).send callLog 3 2 0 64 = .ok back ∧
      back.hops = there.hops.reverse.map Prod.swap ∧
      (∀ u v : Int, (u, v) ∈ there.hops ↔ (v, u) ∈ back.hops) ∧
      back.hops.length = there.hops.length :=
  ⟨rfl, by decide, by decide,
    ring_reverse_send (Ring.mk 4 2 true) rfl (by decide) 0 2 64 (by decide) (by decide)
      (by decide) 3 (by decide)⟩

end Analytical
